import Mathlib

/-!
Verification of the finmentor safety core: the guardrail policy router
(src/finmentor/guardrails/policy_router.py) and the ConceptCard validator
(src/finmentor/domain/concepts/validator.py, types.py).

Strings are modelled as lists of characters; the Python `re` constructs used
by the repository (character classes, alternation, greedy star over a
character class, the word-boundary assertion, IGNORECASE, search, fullmatch
and sub) are given an executable shallow embedding below.  ASCII semantics is
used for the character classes, matching the ASCII text the repository
processes.
-/

/-- ASCII whitespace, as stripped by Python str.strip and matched by regex
class backslash-s. -/
def wsChar (c : Char) : Bool :=
  c = ' ' || c = '\t' || c = '\n' || c = '\r' || c = '\x0b' || c = '\x0c'

/-- ASCII uppercase letter, the regex class A-Z. -/
def isUpperAZ (c : Char) : Bool := decide ('A' ≤ c) && decide (c ≤ 'Z')

/-- ASCII lowercase letter, the regex class a-z. -/
def isLowerAZ (c : Char) : Bool := decide ('a' ≤ c) && decide (c ≤ 'z')

/-- ASCII digit, the regex class backslash-d. -/
def isDigitCh (c : Char) : Bool := decide ('0' ≤ c) && decide (c ≤ '9')

/-- ASCII word character, the regex class backslash-w used by the
word-boundary assertion. -/
def isWordChar (c : Char) : Bool := isUpperAZ c || isLowerAZ c || isDigitCh c || c = '_'

/-- ASCII lowercasing, as applied by Python str.lower and by IGNORECASE
matching. -/
def lowerChar (c : Char) : Char :=
  if isUpperAZ c then Char.ofNat (c.toNat + 32) else c

/-- Wordness of an optional preceding character; the absent character at the
start of the text counts as a non-word position. -/
def wordB (o : Option Char) : Bool :=
  match o with
  | none => false
  | some c => isWordChar c

/-- Wordness of the first character of the remaining text. -/
def wbHead (s : List Char) : Bool :=
  match s with
  | [] => false
  | c :: _ => isWordChar c

/-- The word-boundary test of the regex anchor backslash-b, between the last
consumed character and the remaining text. -/
def atBoundary (prev : Option Char) (s : List Char) : Bool :=
  wordB prev != wbHead s

/-- Regular expressions over characters, covering the constructs appearing in
the repository patterns: single-character classes, concatenation,
prioritised alternation, greedy star of a character class, and the
word-boundary assertion. -/
inductive RE where
  | eps : RE
  | tok (p : Char → Bool) : RE
  | seq (a b : RE) : RE
  | alt (a b : RE) : RE
  | starTok (p : Char → Bool) : RE
  | bnd : RE

/-- The last character after consuming `l`, given the character preceding
`l`. -/
def lastC (prev : Option Char) (l : List Char) : Option Char :=
  match l.getLast? with
  | some c => some c
  | none => prev

/-- All splits of a greedy star over a character class, longest first
(matching the backtracking priority of a greedy star in Python re). -/
def starSplits (p : Char → Bool) : List Char → List (List Char × List Char)
  | [] => [([], [])]
  | c :: rest =>
    (if p c then (starSplits p rest).map (fun tr => (c :: tr.1, tr.2)) else [])
      ++ [([], c :: rest)]

/-- All matches of a regex at the start of `s`, as (consumed, remainder)
pairs in backtracking priority order; `prev` is the character just before
`s`, used by the word-boundary assertion. -/
def RE.m : RE → Option Char → List Char → List (List Char × List Char)
  | .eps, _, s => [([], s)]
  | .tok p, _, s =>
    match s with
    | [] => []
    | c :: rest => if p c then [([c], rest)] else []
  | .seq a b, prev, s =>
    (a.m prev s).flatMap (fun tr =>
      (b.m (lastC prev tr.1) tr.2).map (fun tr2 => (tr.1 ++ tr2.1, tr2.2)))
  | .alt a b, prev, s => a.m prev s ++ b.m prev s
  | .starTok p, _, s => starSplits p s
  | .bnd, prev, s => if atBoundary prev s then [([], s)] else []

theorem starSplits_decomp (p : Char → Bool) :
    ∀ s t r, (t, r) ∈ starSplits p s → s = t ++ r ∧ ∀ c ∈ t, p c = true := by
  intro s
  induction s with
  | nil =>
    intro t r h
    simp [starSplits] at h
    simp [h.1, h.2]
  | cons c rest ih =>
    intro t r h
    simp only [starSplits, List.mem_append] at h
    rcases h with h | h
    · by_cases hp : p c = true
      · simp only [hp, if_pos, List.mem_map] at h
        obtain ⟨⟨a, b⟩, hmem, heq⟩ := h
        obtain ⟨hd, hall⟩ := ih a b hmem
        obtain ⟨ha, hb⟩ := Prod.mk.injEq .. ▸ heq
        subst ha hb
        constructor
        · simp [hd]
        · intro x hx
          rcases List.mem_cons.mp hx with h1 | h1
          · subst h1; exact hp
          · exact hall x h1
      · simp [hp] at h
    · simp at h
      simp [h.1, h.2]

theorem starSplits_self (p : Char → Bool) (s : List Char) :
    ([], s) ∈ starSplits p s := by
  cases s with
  | nil => simp [starSplits]
  | cons c rest => simp [starSplits]

theorem starSplits_of_decomp (p : Char → Bool) :
    ∀ t r, (∀ c ∈ t, p c = true) → (t, r) ∈ starSplits p (t ++ r) := by
  intro t
  induction t with
  | nil => intro r _; exact starSplits_self p r
  | cons c t' ih =>
    intro r hall
    have hp : p c = true := hall c (List.mem_cons_self c t')
    simp only [List.cons_append, starSplits, hp, if_pos]
    apply List.mem_append.mpr
    left
    simp only [List.mem_map]
    exact ⟨(t', r), ih r (fun x hx => hall x (List.mem_cons_of_mem c hx)), rfl⟩

/-- Every result of the matcher decomposes the input as consumed ++ rest. -/
theorem m_decomp : ∀ (re : RE) (prev : Option Char) (s t r : List Char),
    (t, r) ∈ re.m prev s → s = t ++ r := by
  intro re
  induction re with
  | eps => intro prev s t r h; simp [RE.m] at h; simp [h.1, h.2]
  | tok p =>
    intro prev s t r h
    cases s with
    | nil => simp [RE.m] at h
    | cons c rest =>
      simp only [RE.m] at h
      by_cases hp : p c = true
      · simp [hp] at h; simp [h.1, h.2]
      · simp [hp] at h
  | seq a b iha ihb =>
    intro prev s t r h
    simp only [RE.m, List.mem_flatMap, List.mem_map] at h
    obtain ⟨⟨t1, r1⟩, h1, ⟨t2, r2⟩, h2, heq⟩ := h
    have hd1 := iha prev s t1 r1 h1
    have hd2 := ihb (lastC prev t1) r1 t2 r2 h2
    cases heq
    simp [hd1, hd2, List.append_assoc]
  | alt a b iha ihb =>
    intro prev s t r h
    rcases List.mem_append.mp h with h | h
    · exact iha prev s t r h
    · exact ihb prev s t r h
  | starTok p =>
    intro prev s t r h
    exact (starSplits_decomp p s t r h).1
  | bnd =>
    intro prev s t r h
    simp only [RE.m] at h
    by_cases hb : atBoundary prev s = true
    · simp [hb] at h; simp [h.1, h.2]
    · simp [hb] at h

/-- Search: does the regex match anywhere in the text at or after the current
position?  `prev` is the character before the current position. -/
def searchAux (re : RE) (prev : Option Char) : List Char → Bool
  | [] => !(re.m prev []).isEmpty
  | c :: rest => !(re.m prev (c :: rest)).isEmpty || searchAux re (some c) rest

/-- Python re.search on the whole text (as a Bool: does a match exist). -/
def reSearch (re : RE) (s : List Char) : Bool := searchAux re none s

/-- Python re.fullmatch (as a Bool). -/
def reFullmatch (re : RE) (s : List Char) : Bool :=
  (re.m none s).any (fun tr => tr.2.isEmpty)

/-- The length of the remainder never exceeds the input length. -/
theorem m_rem_le (re : RE) (prev : Option Char) (s t r : List Char)
    (h : (t, r) ∈ re.m prev s) : r.length ≤ s.length := by
  have hd := m_decomp re prev s t r h
  subst hd
  simp

/-- Python re.sub with a constant replacement string: scan the text left to
right; at each position take the highest-priority match if there is a
non-empty one, emit the replacement and continue after it, otherwise emit the
character and advance.  (All patterns the repository substitutes cannot match
the empty string; an empty match is treated as no match.) -/
def subAux (re : RE) (repl : List Char) (prev : Option Char) (s : List Char) :
    List Char :=
  match s with
  | [] => []
  | c :: rest =>
    match hm : (re.m prev (c :: rest)).head? with
    | some (t, r) =>
      if ht : t.isEmpty then c :: subAux re repl (some c) rest
      else repl ++ subAux re repl (lastC prev t) r
    | none => c :: subAux re repl (some c) rest
termination_by s.length
decreasing_by
  · simp
  · rename_i rest
    have hmem : (t, r) ∈ re.m prev (c :: rest) :=
      List.mem_of_mem_head? (Option.mem_def.mpr hm)
    have hd := m_decomp re prev (c :: rest) t r hmem
    have ht' : t ≠ [] := by
      intro hnil
      subst hnil
      simp at ht
    have h1 : 0 < t.length := List.length_pos.mpr ht'
    have h2 : (c :: rest).length = t.length + r.length := by simp [hd]
    simp only [List.length_cons] at h2 ⊢
    omega
  · simp

/-- Python re.sub over the whole text. -/
def reSub (re : RE) (repl : List Char) (s : List Char) : List Char :=
  subAux re repl none s

/-- Python str.strip (ASCII whitespace). -/
def pyStrip (l : List Char) : List Char :=
  ((l.dropWhile wsChar).reverse.dropWhile wsChar).reverse

/-- Python str.lower (ASCII). -/
def pyLower (l : List Char) : List Char := l.map lowerChar

/-- A single pattern character matched case-insensitively (re.IGNORECASE):
the pattern letters are written lowercase and compared after lowering. -/
def chC (c : Char) : RE := .tok (fun x => lowerChar x = c)

/-- A single pattern character matched exactly. -/
def chE (c : Char) : RE := .tok (fun x => x = c)

/-- A literal word of the pattern, matched case-insensitively. -/
def strCIaux : List Char → RE
  | [] => .eps
  | c :: rest => .seq (chC c) (strCIaux rest)

def strCI (s : String) : RE := strCIaux s.data

/-- The regex class backslash-s-plus (one or more whitespace). -/
def wsPlus : RE := .seq (.tok wsChar) (.starTok wsChar)

/-- The regex dot (any character except newline). -/
def dotCh : Char → Bool := fun c => !(c = '\n')

/-- The regex dot-star. -/
def dotStar : RE := .starTok dotCh

/-- The regex dot-plus. -/
def dotPlus : RE := .seq (.tok dotCh) dotStar

/-- A greedy optional group. -/
def reOpt (r : RE) : RE := .alt r .eps

/-- _ILLEGAL_PATTERNS of policy_router.py, in source order. -/
def illegalPatterns : List RE :=
  [ .seq .bnd (.seq (strCI "money") (.seq wsPlus (.seq (strCI "launder")
      (.seq (.alt (strCI "ing") .eps) .bnd)))),
    .seq .bnd (.seq (strCI "launder") (.seq (.alt (strCI "ing") .eps)
      (.seq .bnd (.seq dotStar (.seq .bnd (.seq (strCI "money") .bnd)))))),
    .seq .bnd (.seq (strCI "insider") (.seq wsPlus (.seq (strCI "trad")
      (.seq (.alt (strCI "ing") (strCI "e")) .bnd)))),
    .seq .bnd (.seq (strCI "front") (.seq (reOpt (.tok (fun c => c = '-' || wsChar c)))
      (.seq (strCI "run") (.seq (.alt (strCI "ning") .eps) .bnd)))),
    .seq .bnd (.seq (strCI "evade") (.seq wsPlus (.seq (strCI "tax")
      (.seq (.alt (strCI "es") .eps) .bnd)))),
    .seq .bnd (.seq (strCI "tax") (.seq wsPlus (.seq (strCI "evasion") .bnd))),
    .seq .bnd (.seq (strCI "fake") (.seq wsPlus (.seq (.alt (strCI "receipt") (strCI "invoic"))
      (.seq (strCI "e") (.seq (.alt (strCI "s") .eps) .bnd))))),
    .seq .bnd (.seq (strCI "forg") (.seq (.alt (strCI "e") (strCI "ing"))
      (.seq wsPlus (.seq (.alt (strCI "a") (strCI "an")) (.seq wsPlus
      (.seq (.alt (strCI "receipt") (.alt (strCI "invoice") (strCI "statement"))) .bnd)))))),
    .seq .bnd (.seq (strCI "commit") (.seq wsPlus (.seq (strCI "fraud") .bnd))),
    .seq .bnd (.seq (strCI "ponzi") .bnd) ]

/-- _ADVICE_PATTERNS of policy_router.py, in source order. -/
def advicePatterns : List RE :=
  [ .seq .bnd (.seq (strCI "what") (.seq wsPlus (.seq (strCI "should") (.seq wsPlus
      (.seq (strCI "i") (.seq wsPlus (.seq (.alt (strCI "invest") (.alt (strCI "buy") (strCI "do"))) .bnd))))))),
    .seq .bnd (.seq (strCI "should") (.seq wsPlus (.seq (strCI "i") (.seq wsPlus
      (.seq (.alt (strCI "buy") (.alt (strCI "sell") (strCI "invest"))) .bnd))))),
    .seq .bnd (.seq (strCI "is") (.seq wsPlus (.seq dotPlus (.seq wsPlus
      (.seq (strCI "a") (.seq wsPlus (.seq (strCI "good") (.seq wsPlus
      (.seq (.alt (strCI "buy") (strCI "investment")) .bnd))))))))),
    .seq .bnd (.seq (.alt (strCI "best") (strCI "top")) (.seq wsPlus
      (.seq (.alt (strCI "stock") (.alt (strCI "etf") (.alt (strCI "crypto") (strCI "investment")))) .bnd))),
    .seq .bnd (.seq (strCI "which") (.seq wsPlus (.seq (.alt (strCI "stock") (.alt (strCI "etf") (strCI "crypto")))
      (.seq wsPlus (.seq (strCI "should") (.seq wsPlus (.seq (strCI "i") (.seq wsPlus
      (.seq (.alt (strCI "buy") (strCI "pick")) .bnd))))))))),
    .seq .bnd (.seq (.alt (strCI "rate") (strCI "rank")) (.seq wsPlus (.seq dotPlus (.seq wsPlus
      (.seq (.alt (strCI "stock") (.alt (strCI "etf") (strCI "crypto"))) .bnd))))),
    .seq .bnd (.seq (strCI "best") (.seq wsPlus (.seq (strCI "way") (.seq wsPlus
      (.seq (strCI "to") (.seq wsPlus (.seq (strCI "invest") .bnd))))))),
    .seq .bnd (.seq (strCI "invest") (.seq wsPlus (.seq (strCI "my") (.seq wsPlus
      (.seq (strCI "money") .bnd))))),
    .seq .bnd (.seq (strCI "what") (.seq (reOpt (chE (Char.ofNat 39))) (.seq (strCI "s")
      (.seq wsPlus (.seq (strCI "the") (.seq wsPlus (.seq (strCI "best") (.seq wsPlus
      (.seq (strCI "way") (.seq wsPlus (.seq (strCI "to") (.seq wsPlus
      (.seq (strCI "invest") .bnd))))))))))))) ]

/-- _ALLOCATION_PATTERNS of policy_router.py, in source order. -/
def allocationPatterns : List RE :=
  [ .seq .bnd (.seq (strCI "allocat") (.seq (.alt (strCI "e") (strCI "ion")) .bnd)),
    .seq .bnd (.seq (strCI "my") (.seq wsPlus (.seq (strCI "portfolio") .bnd))),
    .seq .bnd (.seq (strCI "diversif") (.seq (.alt (strCI "y") (strCI "ication"))
      (.seq wsPlus (.seq (strCI "my") (.seq wsPlus (.seq (strCI "portfolio") .bnd)))))),
    .seq .bnd (.seq (strCI "i") (.seq wsPlus (.seq (strCI "have") (.seq wsPlus
      (.seq (reOpt (chE '$')) (.tok isDigitCh)))))),
    .seq .bnd (.seq (strCI "with") (.seq wsPlus (.seq (reOpt (chE '$')) (.tok isDigitCh)))),
    .seq .bnd (.seq (strCI "how") (.seq wsPlus (.seq (strCI "should") (.seq wsPlus
      (.seq (strCI "i") (.seq wsPlus (.seq (strCI "invest") (.seq wsPlus
      (.seq (reOpt (chE '$')) (.tok isDigitCh)))))))))),
    .seq .bnd (.seq (strCI "retirement") (.seq wsPlus (.seq (strCI "plan") .bnd))),
    .seq .bnd (.seq (strCI "build") (.seq wsPlus (.seq (strCI "me") (.seq wsPlus
      (.seq (.alt (strCI "a") (strCI "an")) (.seq wsPlus
      (.seq (.alt (strCI "portfolio") (strCI "plan")) .bnd))))))) ]

/-- _TIMING_PATTERNS of policy_router.py, in source order. -/
def timingPatterns : List RE :=
  [ .seq .bnd (.seq (strCI "when") (.seq wsPlus (.seq (strCI "should") (.seq wsPlus
      (.seq (strCI "i") (.seq wsPlus (.seq (.alt (strCI "buy") (strCI "sell")) .bnd))))))),
    .seq .bnd (.seq (strCI "time") (.seq wsPlus (.seq (strCI "the") (.seq wsPlus
      (.seq (strCI "market") .bnd))))),
    .seq .bnd (.seq (strCI "should") (.seq wsPlus (.seq (strCI "i") (.seq wsPlus
      (.seq (strCI "sell") (.seq wsPlus (.seq (strCI "now") .bnd))))))) ]

/-- _matches_any of policy_router.py (patterns carry IGNORECASE in their
character classes). -/
def matchesAny (ps : List RE) (text : List Char) : Bool :=
  ps.any (fun p => reSearch p text)

/-- _TICKER_LIKE of policy_router.py. -/
def upTok : RE := .tok isUpperAZ

def optUp : RE := .alt upTok .eps

def tickerRE : RE :=
  .seq .bnd (.seq upTok (.seq optUp (.seq optUp (.seq optUp (.seq optUp .bnd)))))

/-- The dollar-amount pattern substituted by _sanitize_rewrite. -/
def amountRE : RE :=
  .seq (reOpt (chE '$')) (.seq (.tok isDigitCh)
    (.seq (.starTok (fun c => isDigitCh c || c = ','))
      (reOpt (.seq (chE '.') (.seq (.tok isDigitCh) (.starTok isDigitCh))))))

/-- The buy-sell word pattern substituted by _sanitize_rewrite (IGNORECASE). -/
def buySellRE : RE := .seq .bnd (.seq (.alt (strCI "buy") (strCI "sell")) .bnd)

/-- _sanitize_rewrite of policy_router.py: replace dollar amounts with
[amount], ticker-like tokens with [asset], the words buy and sell with
trade, then strip. -/
def sanitizeRewrite (input : List Char) : List Char :=
  pyStrip (reSub buySellRE ("trade".data)
    (reSub tickerRE ("[asset]".data)
      (reSub amountRE ("[amount]".data) input)))

/-- The canned timing rewrite of _safe_rewrite_for_advice. -/
def timingRewrite : String :=
  "What are the common factors and risks people consider when deciding whether to hold or sell an investment, and why is market timing difficult in general?"

/-- The canned allocation rewrite of _safe_rewrite_for_advice. -/
def allocationRewrite : String :=
  "What are general frameworks people use to think about diversification, time horizon, liquidity needs, and risk tolerance when building a long-term investment plan (conceptually)?"

/-- The canned default rewrite of _safe_rewrite_for_advice. -/
def defaultRewrite : String :=
  "What are general frameworks to evaluate investment options based on goals, time horizon, and risk tolerance, and what tradeoffs typically matter?"

/-- _safe_rewrite_for_advice of policy_router.py. -/
def safeRewriteForAdvice (original : List Char) : List Char :=
  let t := pyLower (pyStrip original)
  if matchesAny timingPatterns t then timingRewrite.data
  else if matchesAny allocationPatterns t then allocationRewrite.data
  else defaultRewrite.data

inductive PolicyAction where
  | ALLOW : PolicyAction
  | TRANSFORM : PolicyAction
  | REFUSE : PolicyAction
deriving DecidableEq

structure PolicyDecision where
  action : PolicyAction
  reason : String
  rewrite : Option String
deriving DecidableEq

def REASON_GENERAL_EDU : String := "general_education"
def REASON_PERSONALIZED_ADVICE : String := "personalized_advice"
def REASON_ASSET_RECOMMENDATION : String := "asset_recommendation"
def REASON_TIMING_REQUEST : String := "timing_request"
def REASON_PORTFOLIO_ALLOCATION : String := "portfolio_allocation"
def REASON_ILLEGAL_FINANCIAL : String := "illegal_financial"
def REASON_AMBIGUOUS : String := "ambiguous"

/-- route of policy_router.py: the ordered guardrail cascade. -/
def route (userText : String) : PolicyDecision :=
  let text := pyStrip userText.data
  if text.isEmpty then
    ⟨PolicyAction.ALLOW, REASON_GENERAL_EDU, none⟩
  else if matchesAny illegalPatterns text then
    ⟨PolicyAction.REFUSE, REASON_ILLEGAL_FINANCIAL, none⟩
  else if matchesAny advicePatterns text then
    ⟨PolicyAction.TRANSFORM, REASON_ASSET_RECOMMENDATION,
      some (String.mk (sanitizeRewrite (safeRewriteForAdvice text)))⟩
  else if matchesAny allocationPatterns text then
    ⟨PolicyAction.TRANSFORM, REASON_PORTFOLIO_ALLOCATION,
      some (String.mk (sanitizeRewrite (safeRewriteForAdvice text)))⟩
  else if matchesAny timingPatterns text then
    ⟨PolicyAction.TRANSFORM, REASON_TIMING_REQUEST,
      some (String.mk (sanitizeRewrite (safeRewriteForAdvice text)))⟩
  else
    ⟨PolicyAction.ALLOW, REASON_GENERAL_EDU, none⟩

/-- C2: any input whose (stripped) text matches one of the illegal-intent
patterns and one of the advice-seeking patterns is routed to REFUSE with
reason illegal_financial and no rewrite: the illegal group is tested before
every TRANSFORM group in the cascade. -/
theorem claim_C2 (t : String)
    (h1 : matchesAny illegalPatterns (pyStrip t.data) = true)
    (h2 : matchesAny advicePatterns (pyStrip t.data) = true) :
    route t = ⟨PolicyAction.REFUSE, REASON_ILLEGAL_FINANCIAL, none⟩ := by
  have hne : (pyStrip t.data).isEmpty = false := by
    cases hc : pyStrip t.data with
    | nil => rw [hc] at h1; exact absurd h1 (by decide)
    | cons a l => rfl
  simp [route, hne, h1]

theorem claim_C2_witness :
    matchesAny illegalPatterns (pyStrip ("money laundering should i sell").data) = true ∧
    matchesAny advicePatterns (pyStrip ("money laundering should i sell").data) = true ∧
    route "money laundering should i sell"
      = ⟨PolicyAction.REFUSE, REASON_ILLEGAL_FINANCIAL, none⟩ :=
  ⟨by decide, by decide, claim_C2 "money laundering should i sell" (by decide) (by decide)⟩

/-- C5: a route decision carries a rewrite exactly when its action is
TRANSFORM; ALLOW and REFUSE decisions always carry no rewrite. -/
theorem claim_C5 (t : String) :
    (route t).rewrite.isSome = true ↔ (route t).action = PolicyAction.TRANSFORM := by
  unfold route
  dsimp only
  split
  · simp
  · split
    · simp
    · split
      · simp
      · split
        · simp
        · split
          · simp
          · simp

theorem claim_C5_witness :
    (route "hello").rewrite.isSome = true ↔ (route "hello").action = PolicyAction.TRANSFORM :=
  claim_C5 "hello"

/-- C8: an input that is empty after stripping is routed to ALLOW with reason
general_education and no rewrite (route is a total function, so no
exception is possible). -/
theorem claim_C8 (t : String) (h : pyStrip t.data = []) :
    route t = ⟨PolicyAction.ALLOW, REASON_GENERAL_EDU, none⟩ := by
  simp [route, h]

theorem claim_C8_witness :
    pyStrip ("   ").data = [] ∧
    route "   " = ⟨PolicyAction.ALLOW, REASON_GENERAL_EDU, none⟩ :=
  ⟨by decide, claim_C8 "   " (by decide)⟩

theorem subAux_nil (re : RE) (repl : List Char) (prev : Option Char) :
    subAux re repl prev [] = [] := by
  simp [subAux]

theorem subAux_cons_none (re : RE) (repl : List Char) (prev : Option Char) (c : Char)
    (rest : List Char) (h : (re.m prev (c :: rest)).head? = none) :
    subAux re repl prev (c :: rest) = c :: subAux re repl (some c) rest := by
  rw [subAux]
  split
  · rename_i t r heq
    rw [h] at heq
    exact absurd heq (by simp)
  · rfl

theorem subAux_cons_some (re : RE) (repl : List Char) (prev : Option Char) (c : Char)
    (rest t r : List Char)
    (h : (re.m prev (c :: rest)).head? = some (t, r)) (ht : t ≠ []) :
    subAux re repl prev (c :: rest) = repl ++ subAux re repl (lastC prev t) r := by
  rw [subAux]
  split
  · rename_i t' r' heq
    rw [h] at heq
    obtain ⟨h1, h2⟩ := Prod.mk.injEq .. ▸ (Option.some.injEq .. ▸ heq)
    subst h1 h2
    have hne : ¬ (t.isEmpty = true) := by simp [ht]
    rw [dif_neg hne]
  · rename_i heq
    rw [h] at heq
    exact absurd heq (by simp)

theorem subAux_cons_some_nil (re : RE) (repl : List Char) (prev : Option Char) (c : Char)
    (rest r : List Char) (h : (re.m prev (c :: rest)).head? = some ([], r)) :
    subAux re repl prev (c :: rest) = c :: subAux re repl (some c) rest := by
  rw [subAux]
  split
  · rename_i t' r' heq
    rw [h] at heq
    obtain ⟨h1, h2⟩ := Prod.mk.injEq .. ▸ (Option.some.injEq .. ▸ heq)
    subst h1 h2
    rw [dif_pos List.isEmpty_nil]
  · rename_i heq
    rw [h] at heq

/-- The first character of `b` (if any) is not a word character. -/
def NonWordAt (b : List Char) : Prop :=
  ∀ c, b.head? = some c → isWordChar c = false

/-- The position just before `m` is a word boundary on the left: the last
character of `a` is not a word character, or `a` is empty and the position
before it is non-word. -/
def leftNonWord (prevW : Bool) (a : List Char) : Prop :=
  (a = [] → prevW = false) ∧ ∀ c, a.getLast? = some c → isWordChar c = false

/-- `s` contains a standalone (word-boundary delimited) token of shape `P`;
`prevW` is the wordness of the character just before `s`. -/
def StandaloneFrom (P : List Char → Prop) (prevW : Bool) (s : List Char) : Prop :=
  ∃ a mt b, s = a ++ (mt ++ b) ∧ P mt ∧ leftNonWord prevW a ∧ NonWordAt b

/-- A ticker-shaped token: one to five uppercase letters (the shape the
sanitizer must remove, per the spec). -/
def TickerShape (mt : List Char) : Prop :=
  1 ≤ mt.length ∧ mt.length ≤ 5 ∧ ∀ c ∈ mt, isUpperAZ c = true

/-- The word buy or sell in any letter case. -/
def BuySellShape (mt : List Char) : Prop :=
  mt.map lowerChar = "buy".data ∨ mt.map lowerChar = "sell".data

/-- A currency-amount-shaped string: an optional dollar sign, then digits
with optional comma grouping, then an optional decimal part. -/
def AmountShaped (l : List Char) : Prop :=
  ∃ pre mid post, l = pre ++ mid ++ post ∧ (pre = [] ∨ pre = ['$']) ∧
    (∃ d ds, mid = d :: ds ∧ isDigitCh d = true ∧
      ∀ c ∈ ds, isDigitCh c = true ∨ c = ',') ∧
    (post = [] ∨ ∃ es, post = '.' :: es ∧ es ≠ [] ∧ ∀ c ∈ es, isDigitCh c = true)

/-- `t` occurs as a contiguous substring of `s`. -/
def OccursIn (t s : List Char) : Prop := ∃ u v, s = u ++ t ++ v

theorem mem_m_eps (prev : Option Char) (s t r : List Char) :
    (t, r) ∈ RE.eps.m prev s ↔ t = [] ∧ r = s := by
  simp [RE.m]

theorem mem_m_tok (p : Char → Bool) (prev : Option Char) (s t r : List Char) :
    (t, r) ∈ (RE.tok p).m prev s ↔ ∃ c, s = c :: r ∧ p c = true ∧ t = [c] := by
  cases s with
  | nil => simp [RE.m]
  | cons c rest =>
    by_cases hp : p c = true
    · simp only [RE.m, hp, if_pos, List.mem_singleton, Prod.mk.injEq]
      constructor
      · rintro ⟨h1, h2⟩
        exact ⟨c, by rw [h2], hp, h1⟩
      · rintro ⟨c', hc, hp', ht⟩
        obtain ⟨h1, h2⟩ := List.cons.injEq .. ▸ hc
        subst h1
        exact ⟨ht, h2.symm⟩
    · simp only [RE.m, hp, if_neg, Bool.false_eq_true, not_false_iff, List.not_mem_nil,
        false_iff, if_false]
      rintro ⟨c', hc, hp', ht⟩
      obtain ⟨h1, h2⟩ := List.cons.injEq .. ▸ hc
      subst h1
      exact absurd hp' hp
  
theorem mem_m_seq (a b : RE) (prev : Option Char) (s t r : List Char) :
    (t, r) ∈ (RE.seq a b).m prev s ↔
      ∃ t1 r1 t2, (t1, r1) ∈ a.m prev s ∧ (t2, r) ∈ b.m (lastC prev t1) r1 ∧ t = t1 ++ t2 := by
  simp only [RE.m, List.mem_flatMap, List.mem_map]
  constructor
  · rintro ⟨⟨t1, r1⟩, h1, ⟨t2, r2⟩, h2, heq⟩
    obtain ⟨he1, he2⟩ := Prod.mk.injEq .. ▸ heq
    subst he2
    exact ⟨t1, r1, t2, h1, h2, he1.symm⟩
  · rintro ⟨t1, r1, t2, h1, h2, heq⟩
    exact ⟨⟨t1, r1⟩, h1, ⟨t2, r⟩, h2, by rw [heq]⟩

theorem mem_m_alt (a b : RE) (prev : Option Char) (s t r : List Char) :
    (t, r) ∈ (RE.alt a b).m prev s ↔ (t, r) ∈ a.m prev s ∨ (t, r) ∈ b.m prev s := by
  simp [RE.m]

theorem mem_m_bnd (prev : Option Char) (s t r : List Char) :
    (t, r) ∈ RE.bnd.m prev s ↔ atBoundary prev s = true ∧ t = [] ∧ r = s := by
  by_cases hb : atBoundary prev s = true
  · simp [RE.m, hb]
  · simp [RE.m, hb]

theorem mem_m_star (p : Char → Bool) (prev : Option Char) (s t r : List Char) :
    (t, r) ∈ (RE.starTok p).m prev s ↔ s = t ++ r ∧ ∀ c ∈ t, p c = true := by
  constructor
  · intro h
    exact starSplits_decomp p s t r h
  · rintro ⟨hd, hall⟩
    subst hd
    exact starSplits_of_decomp p t r hall

/-- Every match of `re` is a whole word token: nonempty, all word characters,
with a word boundary on both sides. -/
def MatchShapeOK (re : RE) : Prop :=
  ∀ prev s t r, (t, r) ∈ re.m prev s →
    t ≠ [] ∧ (∀ c ∈ t, isWordChar c = true) ∧ wordB prev = false ∧ NonWordAt r

theorem m_nil_of_wordPrev {re : RE} (hre : MatchShapeOK re) {prev : Option Char}
    (hw : wordB prev = true) (s : List Char) : re.m prev s = [] := by
  cases hm : re.m prev s with
  | nil => rfl
  | cons x l =>
    have hmem : (x.1, x.2) ∈ re.m prev s := by rw [hm]; simp
    have := (hre prev s x.1 x.2 hmem).2.2.1
    rw [hw] at this
    exact absurd this (by simp)

theorem lastC_nil (prev : Option Char) : lastC prev [] = prev := rfl

theorem mem_of_getLastSome {l : List Char} {c : Char} (h : l.getLast? = some c) :
    c ∈ l := by
  obtain ⟨hne, heq⟩ := List.mem_getLast?_eq_getLast (Option.mem_def.mpr h)
  rw [heq]
  exact List.getLast_mem hne

theorem lastC_cons (prev : Option Char) (c : Char) (l : List Char) :
    lastC prev (c :: l) = lastC (some c) l := by
  cases l with
  | nil => rfl
  | cons d l' =>
    unfold lastC
    rw [List.getLast?_cons_cons]
    cases hg : (d :: l').getLast? with
    | none => exact absurd (List.getLast?_eq_none_iff.mp hg) (by simp)
    | some x => rfl

theorem lastC_word_of_ne {l : List Char} (hne : l ≠ [])
    (hw : ∀ c ∈ l, isWordChar c = true) (prev : Option Char) :
    wordB (lastC prev l) = true := by
  cases hg : l.getLast? with
  | none => exact absurd (List.getLast?_eq_none_iff.mp hg) hne
  | some c =>
    have hc : c ∈ l := mem_of_getLastSome hg
    simp [lastC, hg, wordB, hw c hc]

theorem lastC_word {l : List Char} (hw : ∀ c ∈ l, isWordChar c = true)
    {prev : Option Char} (hp : wordB prev = true) :
    wordB (lastC prev l) = true := by
  cases hl : l with
  | nil => rw [lastC_nil]; exact hp
  | cons c l' => exact lastC_word_of_ne (by simp) (hl ▸ hw) prev

/-- When the previous character is a word character no token match can start
here, so the substitution copies the head character unchanged. -/
theorem subAux_head {re : RE} (hre : MatchShapeOK re) (repl : List Char)
    {prev : Option Char} (hw : wordB prev = true) (s : List Char) :
    (subAux re repl prev s).head? = s.head? := by
  cases s with
  | nil => rw [subAux_nil]
  | cons c rest =>
    have hnil := m_nil_of_wordPrev hre hw (c :: rest)
    rw [subAux_cons_none re repl prev c rest (by rw [hnil]; rfl)]
    rfl

/-- The substitution copies a run of word characters verbatim when entered at
a word position. -/
theorem subAux_copyRun {re : RE} (hre : MatchShapeOK re) (repl : List Char) :
    ∀ (run : List Char) (prev : Option Char) (rest : List Char),
      (∀ c ∈ run, isWordChar c = true) → wordB prev = true →
      subAux re repl prev (run ++ rest) = run ++ subAux re repl (lastC prev run) rest := by
  intro run
  induction run with
  | nil => intro prev rest _ _; rw [lastC_nil]; rfl
  | cons c run' ih =>
    intro prev rest hw hp
    have hnil := m_nil_of_wordPrev hre hp (c :: (run' ++ rest))
    rw [List.cons_append, subAux_cons_none re repl prev c (run' ++ rest) (by rw [hnil]; rfl)]
    rw [ih (some c) rest (fun x hx => hw x (List.mem_cons_of_mem c hx))
      (by simp [wordB, hw c (List.mem_cons_self c run')])]
    rw [lastC_cons]
    rfl

/-- Conversely, a run of word characters at the start of the substitution
output entered at a word position comes verbatim from the input. -/
theorem subAux_uncopyRun {re : RE} (hre : MatchShapeOK re) (repl : List Char) :
    ∀ (mw : List Char) (prev : Option Char) (rest b : List Char),
      wordB prev = true → (∀ c ∈ mw, isWordChar c = true) →
      subAux re repl prev rest = mw ++ b →
      ∃ rest2, rest = mw ++ rest2 ∧ b = subAux re repl (lastC prev mw) rest2 := by
  intro mw
  induction mw with
  | nil =>
    intro prev rest b _ _ h
    exact ⟨rest, rfl, by rw [lastC_nil]; exact h.symm⟩
  | cons cw mw' ih =>
    intro prev rest b hp hw h
    cases rest with
    | nil =>
      rw [subAux_nil] at h
      exact absurd h.symm (by simp)
    | cons d r' =>
      have hnil := m_nil_of_wordPrev hre hp (d :: r')
      rw [subAux_cons_none re repl prev d r' (by rw [hnil]; rfl)] at h
      rw [List.cons_append] at h
      obtain ⟨hcd, hrest⟩ := List.cons.injEq .. ▸ h
      subst hcd
      have hdw : isWordChar d = true := hw d (List.mem_cons_self d mw')
      obtain ⟨rest2, hr2, hb2⟩ := ih (some d) r' b (by simp [wordB, hdw])
        (fun x hx => hw x (List.mem_cons_of_mem d hx)) hrest
      exact ⟨rest2, by rw [hr2, List.cons_append], by rw [lastC_cons]; exact hb2⟩

theorem getLast?_cons_ne {c : Char} {a : List Char} (ha : a ≠ []) :
    (c :: a).getLast? = a.getLast? := by
  cases a with
  | nil => exact absurd rfl ha
  | cons d l => exact List.getLast?_cons_cons

theorem getLast?_append_ne {t a : List Char} (ha : a ≠ []) :
    (t ++ a).getLast? = a.getLast? := by
  rw [List.getLast?_append]
  cases hg : a.getLast? with
  | none => exact absurd (List.getLast?_eq_none_iff.mp hg) ha
  | some x => rfl

theorem SF_nil (P : List Char → Prop) (hPne : ∀ mt, P mt → mt ≠ [])
    (prevW : Bool) : ¬ StandaloneFrom P prevW [] := by
  rintro ⟨a, mt, b, heq, hP, _, _⟩
  obtain ⟨h1, h2⟩ := List.append_eq_nil.mp heq.symm
  obtain ⟨h3, _⟩ := List.append_eq_nil.mp h2
  exact hPne mt hP h3

/-- Core elimination lemma: substituting every standalone token of shape `P`
(recognised by `re`) with a replacement free of the marking characters of
`P` leaves a text with no standalone token of shape `P`. -/
theorem subAux_elim (re : RE) (repl : List Char) (P : List Char → Prop)
    (ctest : Char → Bool)
    (hre : MatchShapeOK re)
    (hcomp : ∀ prev mt b, P mt → wordB prev = false → NonWordAt b →
      re.m prev (mt ++ b) ≠ [])
    (hPword : ∀ mt, P mt → mt ≠ [] ∧ ∀ c ∈ mt, isWordChar c = true)
    (hsep : ∀ mt, P mt → ∃ c ∈ mt, ctest c = true)
    (hrepl : ∀ c ∈ repl, ctest c = false) :
    ∀ (n : Nat) (s : List Char) (prev : Option Char), s.length ≤ n →
      ¬ StandaloneFrom P (wordB prev) (subAux re repl prev s) := by
  intro n
  induction n with
  | zero =>
    intro s prev hlen
    have hs : s = [] := List.length_eq_zero.mp (Nat.le_zero.mp hlen)
    subst hs
    rw [subAux_nil]
    exact SF_nil P (fun mt hP => (hPword mt hP).1) _
  | succ n ih =>
    intro s prev hlen
    cases s with
    | nil =>
      rw [subAux_nil]
      exact SF_nil P (fun mt hP => (hPword mt hP).1) _
    | cons c rest =>
      have hrest_le : rest.length ≤ n := by
        simp only [List.length_cons] at hlen
        omega
      cases hm : (re.m prev (c :: rest)).head? with
      | none =>
        rw [subAux_cons_none re repl prev c rest hm]
        rintro ⟨a, mt, b, heq, hP, hL, hR⟩
        obtain ⟨hmne, hmword⟩ := hPword mt hP
        cases a with
        | nil =>
          cases mt with
          | nil => exact hmne rfl
          | cons cm mt' =>
            rw [List.nil_append, List.cons_append] at heq
            obtain ⟨hc, hrest⟩ := List.cons.injEq .. ▸ heq
            subst hc
            have hprevF : wordB prev = false := hL.1 rfl
            have hcw : isWordChar c = true := hmword c (List.mem_cons_self c mt')
            have hmw' : ∀ x ∈ mt', isWordChar x = true :=
              fun x hx => hmword x (List.mem_cons_of_mem _ hx)
            obtain ⟨rest2, hr2, hb2⟩ := subAux_uncopyRun hre repl mt' (some c) rest b
              (by simp [wordB, hcw]) hmw' hrest
            have hwb2 : wordB (lastC (some c) mt') = true :=
              lastC_word hmw' (by simp [wordB, hcw])
            have hhead : b.head? = rest2.head? := by
              rw [hb2]; exact subAux_head hre repl hwb2 rest2
            have hR2 : NonWordAt rest2 := fun ch hch => hR ch (by rw [hhead]; exact hch)
            apply hcomp prev (c :: mt') rest2 hP hprevF hR2
            have hco : (c :: mt') ++ rest2 = c :: rest := by rw [List.cons_append, hr2]
            rw [hco]
            exact List.head?_eq_none_iff.mp hm
        | cons c0 a' =>
          rw [List.cons_append] at heq
          obtain ⟨hc, hout⟩ := List.cons.injEq .. ▸ heq
          subst hc
          refine ih rest (some c) hrest_le ⟨a', mt, b, hout, hP, ⟨?_, ?_⟩, hR⟩
          · intro ha'
            subst ha'
            have := hL.2 c (by simp)
            simp [wordB, this]
          · intro x hx
            have ha'ne : a' ≠ [] := by
              intro hh; subst hh; simp at hx
            exact hL.2 x (by rw [getLast?_cons_ne ha'ne]; exact hx)
      | some tr =>
        obtain ⟨t, r⟩ := tr
        have hmem : (t, r) ∈ re.m prev (c :: rest) :=
          List.mem_of_mem_head? (Option.mem_def.mpr hm)
        obtain ⟨htne, htword, hprevF, hRr⟩ := hre prev (c :: rest) t r hmem
        rw [subAux_cons_some re repl prev c rest t r hm htne]
        have hwp' : wordB (lastC prev t) = true := lastC_word_of_ne htne htword prev
        have hdec := m_decomp re prev (c :: rest) t r hmem
        have hr_le : r.length ≤ n := by
          have h1 : (c :: rest).length = t.length + r.length := by rw [hdec]; simp
          have h2 : 0 < t.length := List.length_pos.mpr htne
          simp only [List.length_cons] at h1 hlen
          omega
        rintro ⟨a, mt, b, heq, hP, hL, hR⟩
        obtain ⟨hmne, hmword⟩ := hPword mt hP
        have hh : (subAux re repl (lastC prev t) r).head? = r.head? :=
          subAux_head hre repl hwp' r
        rcases List.append_eq_append_iff.mp heq with ⟨w, hw1, hw2⟩ | ⟨w, hw1, hw2⟩
        · cases w with
          | nil =>
            rw [List.nil_append] at hw2
            cases mt with
            | nil => exact hmne rfl
            | cons m0 mrest =>
              have hsome : (subAux re repl (lastC prev t) r).head? = some m0 := by
                rw [hw2]; simp
              have hnw := hRr m0 (by rw [← hh]; exact hsome)
              have hword := hmword m0 (List.mem_cons_self m0 mrest)
              rw [hword] at hnw
              exact absurd hnw (by simp)
          | cons w0 w' =>
            refine ih r (lastC prev t) hr_le ⟨w0 :: w', mt, b, hw2, hP, ⟨?_, ?_⟩, hR⟩
            · intro habs; exact absurd habs (by simp)
            · intro x hx
              exact hL.2 x (by rw [hw1, getLast?_append_ne (by simp)]; exact hx)
        · cases w with
          | nil =>
            rw [List.nil_append] at hw2
            cases mt with
            | nil => exact hmne rfl
            | cons m0 mrest =>
              have hsome : (subAux re repl (lastC prev t) r).head? = some m0 := by
                rw [← hw2]; simp
              have hnw := hRr m0 (by rw [← hh]; exact hsome)
              have hword := hmword m0 (List.mem_cons_self m0 mrest)
              rw [hword] at hnw
              exact absurd hnw (by simp)
          | cons w0 w' =>
            rcases List.append_eq_append_iff.mp hw2 with ⟨v, hv1, hv2⟩ | ⟨v, hv1, hv2⟩
            · obtain ⟨cm, hcm, hct⟩ := hsep mt hP
              have hcmr : cm ∈ repl := by
                rw [hw1]
                apply List.mem_append.mpr
                right
                rw [hv1]
                exact List.mem_append.mpr (Or.inl hcm)
              rw [hrepl cm hcmr] at hct
              exact absurd hct (by simp)
            · cases v with
              | nil =>
                rw [List.append_nil] at hv1
                obtain ⟨cm, hcm, hct⟩ := hsep mt hP
                have hcmr : cm ∈ repl := by
                  rw [hw1]
                  apply List.mem_append.mpr
                  right
                  rw [← hv1]
                  exact hcm
                rw [hrepl cm hcmr] at hct
                exact absurd hct (by simp)
              | cons v0 v' =>
                have hsome : (subAux re repl (lastC prev t) r).head? = some v0 := by
                  rw [hv2]; simp
                have hnw := hRr v0 (by rw [← hh]; exact hsome)
                have hword := hmword v0 (by rw [hv1]; exact List.mem_append.mpr (Or.inr (by simp)))
                rw [hword] at hnw
                exact absurd hnw (by simp)

/-- Core preservation lemma: if the input has no standalone token of shape
`Q`, neither does the output of substituting whole-word matches of `re` with
a replacement free of the marking characters of `Q`. -/
theorem subAux_preserve (re : RE) (repl : List Char) (Q : List Char → Prop)
    (qtest : Char → Bool)
    (hre : MatchShapeOK re)
    (hQword : ∀ mt, Q mt → mt ≠ [] ∧ ∀ c ∈ mt, isWordChar c = true)
    (hsep : ∀ mt, Q mt → ∃ c ∈ mt, qtest c = true)
    (hrepl : ∀ c ∈ repl, qtest c = false) :
    ∀ (n : Nat) (s : List Char) (prev : Option Char), s.length ≤ n →
      ¬ StandaloneFrom Q (wordB prev) s →
      ¬ StandaloneFrom Q (wordB prev) (subAux re repl prev s) := by
  intro n
  induction n with
  | zero =>
    intro s prev hlen hS
    have hs : s = [] := List.length_eq_zero.mp (Nat.le_zero.mp hlen)
    subst hs
    rw [subAux_nil]
    exact SF_nil Q (fun mt hQ => (hQword mt hQ).1) _
  | succ n ih =>
    intro s prev hlen hS
    cases s with
    | nil =>
      rw [subAux_nil]
      exact SF_nil Q (fun mt hQ => (hQword mt hQ).1) _
    | cons c rest =>
      have hrest_le : rest.length ≤ n := by
        simp only [List.length_cons] at hlen
        omega
      cases hm : (re.m prev (c :: rest)).head? with
      | none =>
        rw [subAux_cons_none re repl prev c rest hm]
        rintro ⟨a, mt, b, heq, hQ, hL, hR⟩
        obtain ⟨hmne, hmword⟩ := hQword mt hQ
        cases a with
        | nil =>
          cases mt with
          | nil => exact hmne rfl
          | cons cm mt' =>
            rw [List.nil_append, List.cons_append] at heq
            obtain ⟨hc, hrest⟩ := List.cons.injEq .. ▸ heq
            subst hc
            have hprevF : wordB prev = false := hL.1 rfl
            have hcw : isWordChar c = true := hmword c (List.mem_cons_self c mt')
            have hmw' : ∀ x ∈ mt', isWordChar x = true :=
              fun x hx => hmword x (List.mem_cons_of_mem _ hx)
            obtain ⟨rest2, hr2, hb2⟩ := subAux_uncopyRun hre repl mt' (some c) rest b
              (by simp [wordB, hcw]) hmw' hrest
            have hwb2 : wordB (lastC (some c) mt') = true :=
              lastC_word hmw' (by simp [wordB, hcw])
            have hhead : b.head? = rest2.head? := by
              rw [hb2]; exact subAux_head hre repl hwb2 rest2
            have hR2 : NonWordAt rest2 := fun ch hch => hR ch (by rw [hhead]; exact hch)
            apply hS
            refine ⟨[], c :: mt', rest2, ?_, hQ, ⟨fun _ => hprevF, fun x hx => by simp at hx⟩, hR2⟩
            rw [List.nil_append, List.cons_append, hr2]
        | cons c0 a' =>
          rw [List.cons_append] at heq
          obtain ⟨hc, hout⟩ := List.cons.injEq .. ▸ heq
          subst hc
          have hS' : ¬ StandaloneFrom Q (wordB (some c)) rest := by
            rintro ⟨a2, m2, b2, he2, hq2, hl2, hr2⟩
            apply hS
            refine ⟨c :: a2, m2, b2, by rw [he2, List.cons_append], hq2, ⟨?_, ?_⟩, hr2⟩
            · intro habs; exact absurd habs (by simp)
            · intro x hx
              by_cases ha2 : a2 = []
              · subst ha2
                simp only [List.getLast?_singleton, Option.some.injEq] at hx
                subst hx
                have := hl2.1 rfl
                simpa [wordB] using this
              · rw [getLast?_cons_ne ha2] at hx
                exact hl2.2 x hx
          refine ih rest (some c) hrest_le hS' ⟨a', mt, b, hout, hQ, ⟨?_, ?_⟩, hR⟩
          · intro ha'
            subst ha'
            have := hL.2 c (by simp)
            simp [wordB, this]
          · intro x hx
            have ha'ne : a' ≠ [] := by
              intro hh; subst hh; simp at hx
            exact hL.2 x (by rw [getLast?_cons_ne ha'ne]; exact hx)
      | some tr =>
        obtain ⟨t, r⟩ := tr
        have hmem : (t, r) ∈ re.m prev (c :: rest) :=
          List.mem_of_mem_head? (Option.mem_def.mpr hm)
        obtain ⟨htne, htword, hprevF, hRr⟩ := hre prev (c :: rest) t r hmem
        rw [subAux_cons_some re repl prev c rest t r hm htne]
        have hwp' : wordB (lastC prev t) = true := lastC_word_of_ne htne htword prev
        have hdec := m_decomp re prev (c :: rest) t r hmem
        have hr_le : r.length ≤ n := by
          have h1 : (c :: rest).length = t.length + r.length := by rw [hdec]; simp
          have h2 : 0 < t.length := List.length_pos.mpr htne
          simp only [List.length_cons] at h1 hlen
          omega
        have hS' : ¬ StandaloneFrom Q (wordB (lastC prev t)) r := by
          rintro ⟨a2, m2, b2, he2, hq2, hl2, hr2⟩
          have ha2ne : a2 ≠ [] := by
            intro hh
            subst hh
            have := hl2.1 rfl
            rw [hwp'] at this
            exact absurd this (by simp)
          apply hS
          refine ⟨t ++ a2, m2, b2, ?_, hq2, ⟨?_, ?_⟩, hr2⟩
          · rw [hdec, he2, List.append_assoc]
          · intro habs
            obtain ⟨ht', _⟩ := List.append_eq_nil.mp habs
            exact absurd ht' htne
          · intro x hx
            rw [getLast?_append_ne ha2ne] at hx
            exact hl2.2 x hx
        rintro ⟨a, mt, b, heq, hQ, hL, hR⟩
        obtain ⟨hmne, hmword⟩ := hQword mt hQ
        have hh : (subAux re repl (lastC prev t) r).head? = r.head? :=
          subAux_head hre repl hwp' r
        rcases List.append_eq_append_iff.mp heq with ⟨w, hw1, hw2⟩ | ⟨w, hw1, hw2⟩
        · cases w with
          | nil =>
            rw [List.nil_append] at hw2
            cases mt with
            | nil => exact hmne rfl
            | cons m0 mrest =>
              have hsome : (subAux re repl (lastC prev t) r).head? = some m0 := by
                rw [hw2]; simp
              have hnw := hRr m0 (by rw [← hh]; exact hsome)
              have hword := hmword m0 (List.mem_cons_self m0 mrest)
              rw [hword] at hnw
              exact absurd hnw (by simp)
          | cons w0 w' =>
            refine ih r (lastC prev t) hr_le hS' ⟨w0 :: w', mt, b, hw2, hQ, ⟨?_, ?_⟩, hR⟩
            · intro habs; exact absurd habs (by simp)
            · intro x hx
              exact hL.2 x (by rw [hw1, getLast?_append_ne (by simp)]; exact hx)
        · cases w with
          | nil =>
            rw [List.nil_append] at hw2
            cases mt with
            | nil => exact hmne rfl
            | cons m0 mrest =>
              have hsome : (subAux re repl (lastC prev t) r).head? = some m0 := by
                rw [← hw2]; simp
              have hnw := hRr m0 (by rw [← hh]; exact hsome)
              have hword := hmword m0 (List.mem_cons_self m0 mrest)
              rw [hword] at hnw
              exact absurd hnw (by simp)
          | cons w0 w' =>
            rcases List.append_eq_append_iff.mp hw2 with ⟨v, hv1, hv2⟩ | ⟨v, hv1, hv2⟩
            · obtain ⟨cm, hcm, hct⟩ := hsep mt hQ
              have hcmr : cm ∈ repl := by
                rw [hw1]
                apply List.mem_append.mpr
                right
                rw [hv1]
                exact List.mem_append.mpr (Or.inl hcm)
              rw [hrepl cm hcmr] at hct
              exact absurd hct (by simp)
            · cases v with
              | nil =>
                rw [List.append_nil] at hv1
                obtain ⟨cm, hcm, hct⟩ := hsep mt hQ
                have hcmr : cm ∈ repl := by
                  rw [hw1]
                  apply List.mem_append.mpr
                  right
                  rw [← hv1]
                  exact hcm
                rw [hrepl cm hcmr] at hct
                exact absurd hct (by simp)
              | cons v0 v' =>
                have hsome : (subAux re repl (lastC prev t) r).head? = some v0 := by
                  rw [hv2]; simp
                have hnw := hRr v0 (by rw [← hh]; exact hsome)
                have hword := hmword v0 (by rw [hv1]; exact List.mem_append.mpr (Or.inr (by simp)))
                rw [hword] at hnw
                exact absurd hnw (by simp)

theorem word_of_upper {c : Char} (h : isUpperAZ c = true) : isWordChar c = true := by
  simp [isWordChar, h]

theorem wbHead_false_iff (r : List Char) : wbHead r = false ↔ NonWordAt r := by
  cases r with
  | nil =>
    simp only [wbHead]
    constructor
    · intro _ c hc; simp at hc
    · intro _; trivial
  | cons c0 l =>
    simp only [wbHead]
    constructor
    · intro h c hc
      simp only [List.head?_cons, Option.some.injEq] at hc
      subst hc
      exact h
    · intro h
      exact h c0 rfl

theorem atBoundary_headword {prev : Option Char} {s : List Char}
    (h : atBoundary prev s = true) (hw : wbHead s = true) : wordB prev = false := by
  unfold atBoundary at h
  rw [hw] at h
  cases hp : wordB prev with
  | false => rfl
  | true => rw [hp] at h; simp at h

theorem atBoundary_prevword {prev : Option Char} {s : List Char}
    (h : atBoundary prev s = true) (hw : wordB prev = true) : wbHead s = false := by
  unfold atBoundary at h
  rw [hw] at h
  cases hp : wbHead s with
  | false => rfl
  | true => rw [hp] at h; simp at h

theorem atBoundary_intro_left {prev : Option Char} {s : List Char}
    (hp : wordB prev = false) (hs : wbHead s = true) : atBoundary prev s = true := by
  unfold atBoundary
  rw [hp, hs]
  rfl

theorem atBoundary_intro_right {prev : Option Char} {s : List Char}
    (hp : wordB prev = true) (hs : wbHead s = false) : atBoundary prev s = true := by
  unfold atBoundary
  rw [hp, hs]
  rfl

theorem mem_m_seq_intro {a b : RE} {prev : Option Char} {s t1 r1 t2 r : List Char}
    (h1 : (t1, r1) ∈ a.m prev s) (h2 : (t2, r) ∈ b.m (lastC prev t1) r1) :
    (t1 ++ t2, r) ∈ (RE.seq a b).m prev s :=
  (mem_m_seq a b prev s (t1 ++ t2) r).mpr ⟨t1, r1, t2, h1, h2, rfl⟩

theorem mem_m_bnd_intro {prev : Option Char} {s : List Char}
    (h : atBoundary prev s = true) : (([] : List Char), s) ∈ RE.bnd.m prev s :=
  (mem_m_bnd prev s [] s).mpr ⟨h, rfl, rfl⟩

theorem mem_m_tok_intro {p : Char → Bool} {prev : Option Char} {c : Char}
    {r : List Char} (hp : p c = true) : ([c], r) ∈ (RE.tok p).m prev (c :: r) :=
  (mem_m_tok p prev (c :: r) [c] r).mpr ⟨c, rfl, hp, rfl⟩

theorem mem_m_eps_intro {prev : Option Char} {s : List Char} :
    (([] : List Char), s) ∈ RE.eps.m prev s :=
  (mem_m_eps prev s [] s).mpr ⟨rfl, rfl⟩

theorem optUp_cases {prev : Option Char} {s t r : List Char}
    (h : (t, r) ∈ optUp.m prev s) :
    (t = [] ∧ r = s) ∨ ∃ c, s = c :: r ∧ isUpperAZ c = true ∧ t = [c] := by
  rcases (mem_m_alt upTok RE.eps prev s t r).mp h with h | h
  · right; exact (mem_m_tok isUpperAZ prev s t r).mp h
  · left; exact (mem_m_eps prev s t r).mp h

theorem optUp_skip {prev : Option Char} {s : List Char} :
    (([] : List Char), s) ∈ optUp.m prev s :=
  (mem_m_alt upTok RE.eps prev s [] s).mpr (Or.inr mem_m_eps_intro)

theorem optUp_take {prev : Option Char} {c : Char} {r : List Char}
    (hc : isUpperAZ c = true) : ([c], r) ∈ optUp.m prev (c :: r) :=
  (mem_m_alt upTok RE.eps prev (c :: r) [c] r).mpr (Or.inl (mem_m_tok_intro hc))

theorem optUp_upper {prev : Option Char} {s t r : List Char}
    (h : (t, r) ∈ optUp.m prev s) : ∀ c ∈ t, isUpperAZ c = true := by
  rcases optUp_cases h with ⟨ht, _⟩ | ⟨c, _, hc, ht⟩
  · subst ht; intro c hc; simp at hc
  · subst ht
    intro x hx
    simp only [List.mem_singleton] at hx
    subst hx
    exact hc

theorem optUp_len {prev : Option Char} {s t r : List Char}
    (h : (t, r) ∈ optUp.m prev s) : t.length ≤ 1 := by
  rcases optUp_cases h with ⟨ht, _⟩ | ⟨c, _, _, ht⟩ <;> subst ht <;> simp

/-- Every match of the ticker pattern is a standalone run of one to five
uppercase letters. -/
theorem ticker_matchShape : MatchShapeOK tickerRE := by
  intro prev s t r hmem
  unfold tickerRE at hmem
  obtain ⟨tb, rb, t1r, hb, hrest, htEq⟩ :=
    (mem_m_seq _ _ _ _ _ _).mp hmem
  obtain ⟨hbd0, htb, hrb⟩ := (mem_m_bnd _ _ _ _).mp hb
  subst htb
  subst hrb
  rw [lastC_nil] at hrest
  obtain ⟨t1, r1, t2r, h1, h2, he1⟩ := (mem_m_seq _ _ _ _ _ _).mp hrest
  obtain ⟨c1, hs1, hc1, ht1⟩ := (mem_m_tok _ _ _ _ _).mp h1
  subst ht1
  have hl1 : lastC prev [c1] = some c1 := by simp [lastC]
  rw [hl1] at h2
  have hw1 : wordB (some c1) = true := by simp [wordB, word_of_upper hc1]
  obtain ⟨t2, r2, t3r, hA2, h3, he2⟩ := (mem_m_seq _ _ _ _ _ _).mp h2
  have hu2 := optUp_upper hA2
  have hw2 : wordB (lastC (some c1) t2) = true :=
    lastC_word (fun c hc => word_of_upper (hu2 c hc)) hw1
  obtain ⟨t3, r3, t4r, hA3, h4, he3⟩ := (mem_m_seq _ _ _ _ _ _).mp h3
  have hu3 := optUp_upper hA3
  have hw3 : wordB (lastC (lastC (some c1) t2) t3) = true :=
    lastC_word (fun c hc => word_of_upper (hu3 c hc)) hw2
  obtain ⟨t4, r4, t5r, hA4, h5, he4⟩ := (mem_m_seq _ _ _ _ _ _).mp h4
  have hu4 := optUp_upper hA4
  have hw4 : wordB (lastC (lastC (lastC (some c1) t2) t3) t4) = true :=
    lastC_word (fun c hc => word_of_upper (hu4 c hc)) hw3
  obtain ⟨t5, r5, t6, hA5, h6, he5⟩ := (mem_m_seq _ _ _ _ _ _).mp h5
  have hu5 := optUp_upper hA5
  have hw5 : wordB (lastC (lastC (lastC (lastC (some c1) t2) t3) t4) t5) = true :=
    lastC_word (fun c hc => word_of_upper (hu5 c hc)) hw4
  obtain ⟨hbd6, ht6, hr6⟩ := (mem_m_bnd _ _ _ _).mp h6
  subst ht6
  have hupper : ∀ c ∈ t, isUpperAZ c = true := by
    intro x hx
    rw [htEq, he1, he2, he3, he4, he5] at hx
    have hx' : x = c1 ∨ x ∈ t2 ∨ x ∈ t3 ∨ x ∈ t4 ∨ x ∈ t5 := by
      simpa using hx
    rcases hx' with hx | hx | hx | hx | hx
    · rw [hx]; exact hc1
    · exact hu2 x hx
    · exact hu3 x hx
    · exact hu4 x hx
    · exact hu5 x hx
  refine ⟨?_, fun c hc => word_of_upper (hupper c hc), ?_, ?_⟩
  · rw [htEq, he1]
    simp
  · apply atBoundary_headword hbd0
    rw [hs1]
    exact word_of_upper hc1
  · rw [← wbHead_false_iff]
    subst hr6
    exact atBoundary_prevword hbd6 hw5

/-- A standalone run of one to five uppercase letters is matched by the
ticker pattern. -/
theorem ticker_complete (prev : Option Char) (mt b : List Char)
    (hP : TickerShape mt) (hprev : wordB prev = false) (hb : NonWordAt b) :
    tickerRE.m prev (mt ++ b) ≠ [] := by
  obtain ⟨hlen1, hlen5, hupper⟩ := hP
  have hwb : wbHead b = false := (wbHead_false_iff b).mpr hb
  unfold tickerRE
  rcases mt with _ | ⟨c1, _ | ⟨c2, _ | ⟨c3, _ | ⟨c4, _ | ⟨c5, rest⟩⟩⟩⟩⟩
  · simp at hlen1
  · refine List.ne_nil_of_mem (mem_m_seq_intro (mem_m_bnd_intro ?_)
      (mem_m_seq_intro (mem_m_tok_intro ?_)
        (mem_m_seq_intro optUp_skip (mem_m_seq_intro optUp_skip
          (mem_m_seq_intro optUp_skip (mem_m_seq_intro optUp_skip
            (mem_m_bnd_intro ?_)))))))
    · exact atBoundary_intro_left hprev
        (by simp [wbHead, word_of_upper (hupper c1 (by simp))])
    · exact hupper c1 (by simp)
    · simp only [lastC_nil]
      have h1 : lastC prev [c1] = some c1 := by simp [lastC]
      rw [h1]
      exact atBoundary_intro_right (by simp [wordB, word_of_upper (hupper c1 (by simp))]) hwb
  · refine List.ne_nil_of_mem (mem_m_seq_intro (mem_m_bnd_intro ?_)
      (mem_m_seq_intro (mem_m_tok_intro ?_)
        (mem_m_seq_intro (optUp_take ?_) (mem_m_seq_intro optUp_skip
          (mem_m_seq_intro optUp_skip (mem_m_seq_intro optUp_skip
            (mem_m_bnd_intro ?_)))))))
    · exact atBoundary_intro_left hprev
        (by simp [wbHead, word_of_upper (hupper c1 (by simp))])
    · exact hupper c1 (by simp)
    · exact hupper c2 (by simp)
    · simp only [lastC_nil]
      have h1 : lastC prev [c1] = some c1 := by simp [lastC]
      have h2 : ∀ p : Option Char, lastC p [c2] = some c2 := by intro p; simp [lastC]
      rw [h1, h2]
      exact atBoundary_intro_right (by simp [wordB, word_of_upper (hupper c2 (by simp))]) hwb
  · refine List.ne_nil_of_mem (mem_m_seq_intro (mem_m_bnd_intro ?_)
      (mem_m_seq_intro (mem_m_tok_intro ?_)
        (mem_m_seq_intro (optUp_take ?_) (mem_m_seq_intro (optUp_take ?_)
          (mem_m_seq_intro optUp_skip (mem_m_seq_intro optUp_skip
            (mem_m_bnd_intro ?_)))))))
    · exact atBoundary_intro_left hprev
        (by simp [wbHead, word_of_upper (hupper c1 (by simp))])
    · exact hupper c1 (by simp)
    · exact hupper c2 (by simp)
    · exact hupper c3 (by simp)
    · simp only [lastC_nil]
      have h1 : lastC prev [c1] = some c1 := by simp [lastC]
      have h2 : ∀ p : Option Char, lastC p [c2] = some c2 := by intro p; simp [lastC]
      have h3 : ∀ p : Option Char, lastC p [c3] = some c3 := by intro p; simp [lastC]
      rw [h1, h2, h3]
      exact atBoundary_intro_right (by simp [wordB, word_of_upper (hupper c3 (by simp))]) hwb
  · refine List.ne_nil_of_mem (mem_m_seq_intro (mem_m_bnd_intro ?_)
      (mem_m_seq_intro (mem_m_tok_intro ?_)
        (mem_m_seq_intro (optUp_take ?_) (mem_m_seq_intro (optUp_take ?_)
          (mem_m_seq_intro (optUp_take ?_) (mem_m_seq_intro optUp_skip
            (mem_m_bnd_intro ?_)))))))
    · exact atBoundary_intro_left hprev
        (by simp [wbHead, word_of_upper (hupper c1 (by simp))])
    · exact hupper c1 (by simp)
    · exact hupper c2 (by simp)
    · exact hupper c3 (by simp)
    · exact hupper c4 (by simp)
    · simp only [lastC_nil]
      have h1 : lastC prev [c1] = some c1 := by simp [lastC]
      have h2 : ∀ p : Option Char, lastC p [c2] = some c2 := by intro p; simp [lastC]
      have h3 : ∀ p : Option Char, lastC p [c3] = some c3 := by intro p; simp [lastC]
      have h4 : ∀ p : Option Char, lastC p [c4] = some c4 := by intro p; simp [lastC]
      rw [h1, h2, h3, h4]
      exact atBoundary_intro_right (by simp [wordB, word_of_upper (hupper c4 (by simp))]) hwb
  · cases rest with
    | cons c6 rest' => simp at hlen5
    | nil =>
      refine List.ne_nil_of_mem (mem_m_seq_intro (mem_m_bnd_intro ?_)
        (mem_m_seq_intro (mem_m_tok_intro ?_)
          (mem_m_seq_intro (optUp_take ?_) (mem_m_seq_intro (optUp_take ?_)
            (mem_m_seq_intro (optUp_take ?_) (mem_m_seq_intro (optUp_take ?_)
              (mem_m_bnd_intro ?_)))))))
      · exact atBoundary_intro_left hprev
          (by simp [wbHead, word_of_upper (hupper c1 (by simp))])
      · exact hupper c1 (by simp)
      · exact hupper c2 (by simp)
      · exact hupper c3 (by simp)
      · exact hupper c4 (by simp)
      · exact hupper c5 (by simp)
      · simp only [lastC_nil]
        have h1 : lastC prev [c1] = some c1 := by simp [lastC]
        have h2 : ∀ p : Option Char, lastC p [c2] = some c2 := by intro p; simp [lastC]
        have h3 : ∀ p : Option Char, lastC p [c3] = some c3 := by intro p; simp [lastC]
        have h4 : ∀ p : Option Char, lastC p [c4] = some c4 := by intro p; simp [lastC]
        have h5 : ∀ p : Option Char, lastC p [c5] = some c5 := by intro p; simp [lastC]
        rw [h1, h2, h3, h4, h5]
        exact atBoundary_intro_right (by simp [wordB, word_of_upper (hupper c5 (by simp))]) hwb

theorem word_of_lower {x c : Char} (h : lowerChar x = c) (hc : isLowerAZ c = true) :
    isWordChar x = true := by
  unfold lowerChar at h
  by_cases hu : isUpperAZ x = true
  · simp [isWordChar, hu]
  · rw [if_neg (by simp [hu])] at h
    subst h
    simp [isWordChar, hc]

theorem chC_destruct {c : Char} {prev : Option Char} {s t r : List Char}
    (h : (t, r) ∈ (chC c).m prev s) :
    ∃ x, s = x :: r ∧ lowerChar x = c ∧ t = [x] := by
  obtain ⟨x, hs, hp, ht⟩ := (mem_m_tok _ _ _ _ _).mp h
  exact ⟨x, hs, of_decide_eq_true hp, ht⟩

theorem chC_intro {c x : Char} {prev : Option Char} {r : List Char}
    (h : lowerChar x = c) : ([x], r) ∈ (chC c).m prev (x :: r) :=
  mem_m_tok_intro (decide_eq_true h)

theorem strCI_buy_eq : strCI "buy" = .seq (chC 'b') (.seq (chC 'u') (.seq (chC 'y') .eps)) := rfl

theorem strCI_sell_eq :
    strCI "sell" = .seq (chC 's') (.seq (chC 'e') (.seq (chC 'l') (.seq (chC 'l') .eps))) := rfl

/-- Every match of the buy-sell pattern is a standalone word equal to buy or
sell up to letter case. -/
theorem buySell_matchShape : MatchShapeOK buySellRE := by
  intro prev s t r hmem
  unfold buySellRE at hmem
  obtain ⟨t0, r0, t1r, hb0, hrest, htEq⟩ := (mem_m_seq _ _ _ _ _ _).mp hmem
  obtain ⟨hbd0, ht0, hr0⟩ := (mem_m_bnd _ _ _ _).mp hb0
  subst ht0
  subst hr0
  rw [lastC_nil] at hrest
  obtain ⟨tw, rw0, t2, hw, hbnd2, he⟩ := (mem_m_seq _ _ _ _ _ _).mp hrest
  obtain ⟨hbd2, ht2, hr2⟩ := (mem_m_bnd _ _ _ _).mp hbnd2
  subst ht2
  have hword : tw ≠ [] ∧ ∀ c ∈ tw, isWordChar c = true := by
    rcases (mem_m_alt _ _ _ _ _ _).mp hw with hbuy | hsell
    · rw [strCI_buy_eq] at hbuy
      obtain ⟨ta, ra, tbc, ha, hbc, hea⟩ := (mem_m_seq _ _ _ _ _ _).mp hbuy
      obtain ⟨x1, hsx1, hl1, hta⟩ := chC_destruct ha
      obtain ⟨tb, rb2, tcc, hb2, hcc, heb⟩ := (mem_m_seq _ _ _ _ _ _).mp hbc
      obtain ⟨x2, hsx2, hl2, htb⟩ := chC_destruct hb2
      obtain ⟨tc, rc2, td, hc2, hd2, hec⟩ := (mem_m_seq _ _ _ _ _ _).mp hcc
      obtain ⟨x3, hsx3, hl3, htc⟩ := chC_destruct hc2
      obtain ⟨htd, _⟩ := (mem_m_eps _ _ _ _).mp hd2
      subst hta htb htc htd
      constructor
      · rw [hea]; simp
      · intro x hx
        rw [hea, heb, hec] at hx
        simp only [List.append_nil, List.cons_append, List.nil_append, List.mem_cons,
          List.not_mem_nil, or_false] at hx
        rcases hx with hx | hx | hx
        · rw [hx]; exact word_of_lower hl1 (by decide)
        · rw [hx]; exact word_of_lower hl2 (by decide)
        · rw [hx]; exact word_of_lower hl3 (by decide)
    · rw [strCI_sell_eq] at hsell
      obtain ⟨ta, ra, tbc, ha, hbc, hea⟩ := (mem_m_seq _ _ _ _ _ _).mp hsell
      obtain ⟨x1, hsx1, hl1, hta⟩ := chC_destruct ha
      obtain ⟨tb, rb2, tcc, hb2, hcc, heb⟩ := (mem_m_seq _ _ _ _ _ _).mp hbc
      obtain ⟨x2, hsx2, hl2, htb⟩ := chC_destruct hb2
      obtain ⟨tc, rc2, tdd, hc2, hdd, hec⟩ := (mem_m_seq _ _ _ _ _ _).mp hcc
      obtain ⟨x3, hsx3, hl3, htc⟩ := chC_destruct hc2
      obtain ⟨td, rd2, te, hd2, he2, hed⟩ := (mem_m_seq _ _ _ _ _ _).mp hdd
      obtain ⟨x4, hsx4, hl4, htd⟩ := chC_destruct hd2
      obtain ⟨hte, _⟩ := (mem_m_eps _ _ _ _).mp he2
      subst hta htb htc htd hte
      constructor
      · rw [hea]; simp
      · intro x hx
        rw [hea, heb, hec, hed] at hx
        simp only [List.append_nil, List.cons_append, List.nil_append, List.mem_cons,
          List.not_mem_nil, or_false] at hx
        rcases hx with hx | hx | hx | hx
        · rw [hx]; exact word_of_lower hl1 (by decide)
        · rw [hx]; exact word_of_lower hl2 (by decide)
        · rw [hx]; exact word_of_lower hl3 (by decide)
        · rw [hx]; exact word_of_lower hl4 (by decide)
  obtain ⟨htwne, htwword⟩ := hword
  have hdw := m_decomp _ _ _ _ _ hw
  refine ⟨?_, ?_, ?_, ?_⟩
  · rw [htEq, List.nil_append, he]
    intro habs
    obtain ⟨h1, _⟩ := List.append_eq_nil.mp habs
    exact htwne h1
  · intro c hc
    rw [htEq, List.nil_append, he, List.append_nil] at hc
    exact htwword c hc
  · apply atBoundary_headword hbd0
    cases htw : tw with
    | nil => exact absurd htw htwne
    | cons w0 wr =>
      rw [hdw, htw]
      simp only [wbHead, List.cons_append]
      exact htwword w0 (by rw [htw]; simp)
  · rw [← wbHead_false_iff]
    subst hr2
    apply atBoundary_prevword hbd2
    exact lastC_word_of_ne htwne htwword prev

/-- A standalone occurrence of buy or sell (any letter case) is matched by
the buy-sell pattern. -/
theorem buySell_complete (prev : Option Char) (mt b : List Char)
    (hP : BuySellShape mt) (hprev : wordB prev = false) (hb : NonWordAt b) :
    buySellRE.m prev (mt ++ b) ≠ [] := by
  have hwb : wbHead b = false := (wbHead_false_iff b).mpr hb
  unfold buySellRE
  rcases hP with hbuy | hsell
  · rcases mt with _ | ⟨x1, _ | ⟨x2, _ | ⟨x3, _ | ⟨x4, rest⟩⟩⟩⟩ <;>
      simp only [List.map_cons, List.map_nil] at hbuy <;>
      [skip; skip; skip; skip; exact absurd hbuy (by simp)]
    · exact absurd hbuy (by simp)
    · exact absurd hbuy (by simp)
    · exact absurd hbuy (by simp)
    · have hl1 : lowerChar x1 = 'b' := by
        have := List.cons.injEq .. ▸ hbuy
        exact this.1
      have hl2 : lowerChar x2 = 'u' := by
        have h2 := (List.cons.injEq .. ▸ hbuy).2
        exact (List.cons.injEq .. ▸ h2).1
      have hl3 : lowerChar x3 = 'y' := by
        have h2 := (List.cons.injEq .. ▸ hbuy).2
        have h3 := (List.cons.injEq .. ▸ h2).2
        exact (List.cons.injEq .. ▸ h3).1
      have hbuyMem : ([x1] ++ ([x2] ++ ([x3] ++ [])), b) ∈
          (RE.alt (strCI "buy") (strCI "sell")).m (lastC prev ([] : List Char))
            ([x1, x2, x3] ++ b) := by
        apply (mem_m_alt _ _ _ _ _ _).mpr
        left
        rw [strCI_buy_eq]
        exact mem_m_seq_intro (chC_intro hl1)
          (mem_m_seq_intro (chC_intro hl2)
            (mem_m_seq_intro (chC_intro hl3) mem_m_eps_intro))
      refine List.ne_nil_of_mem (mem_m_seq_intro (mem_m_bnd_intro ?_)
        (mem_m_seq_intro hbuyMem (mem_m_bnd_intro ?_)))
      · exact atBoundary_intro_left hprev
          (by simp [wbHead, word_of_lower hl1 (by decide)])
      · simp only [lastC_nil]
        have hlast : ∀ p : Option Char, lastC p ([x1] ++ ([x2] ++ ([x3] ++ []))) = some x3 := by
          intro p; simp [lastC]
        rw [hlast]
        exact atBoundary_intro_right
          (by simp [wordB, word_of_lower hl3 (by decide)]) hwb
  · rcases mt with _ | ⟨x1, _ | ⟨x2, _ | ⟨x3, _ | ⟨x4, _ | ⟨x5, rest⟩⟩⟩⟩⟩ <;>
      simp only [List.map_cons, List.map_nil] at hsell <;>
      [skip; skip; skip; skip; skip; exact absurd hsell (by simp)]
    · exact absurd hsell (by simp)
    · exact absurd hsell (by simp)
    · exact absurd hsell (by simp)
    · exact absurd hsell (by simp)
    · have hl1 : lowerChar x1 = 's' := (List.cons.injEq .. ▸ hsell).1
      have hl2 : lowerChar x2 = 'e' := by
        have h2 := (List.cons.injEq .. ▸ hsell).2
        exact (List.cons.injEq .. ▸ h2).1
      have hl3 : lowerChar x3 = 'l' := by
        have h2 := (List.cons.injEq .. ▸ hsell).2
        have h3 := (List.cons.injEq .. ▸ h2).2
        exact (List.cons.injEq .. ▸ h3).1
      have hl4 : lowerChar x4 = 'l' := by
        have h2 := (List.cons.injEq .. ▸ hsell).2
        have h3 := (List.cons.injEq .. ▸ h2).2
        have h4 := (List.cons.injEq .. ▸ h3).2
        exact (List.cons.injEq .. ▸ h4).1
      have hsellMem : ([x1] ++ ([x2] ++ ([x3] ++ ([x4] ++ []))), b) ∈
          (RE.alt (strCI "buy") (strCI "sell")).m (lastC prev ([] : List Char))
            ([x1, x2, x3, x4] ++ b) := by
        apply (mem_m_alt _ _ _ _ _ _).mpr
        right
        rw [strCI_sell_eq]
        exact mem_m_seq_intro (chC_intro hl1)
          (mem_m_seq_intro (chC_intro hl2)
            (mem_m_seq_intro (chC_intro hl3)
              (mem_m_seq_intro (chC_intro hl4) mem_m_eps_intro)))
      refine List.ne_nil_of_mem (mem_m_seq_intro (mem_m_bnd_intro ?_)
        (mem_m_seq_intro hsellMem (mem_m_bnd_intro ?_)))
      · exact atBoundary_intro_left hprev
          (by simp [wbHead, word_of_lower hl1 (by decide)])
      · simp only [lastC_nil]
        have hlast : ∀ p : Option Char,
            lastC p ([x1] ++ ([x2] ++ ([x3] ++ ([x4] ++ [])))) = some x4 := by
          intro p; simp [lastC]
        rw [hlast]
        exact atBoundary_intro_right
          (by simp [wordB, word_of_lower hl4 (by decide)]) hwb

theorem amount_mem_ne {prev : Option Char} {s t r : List Char}
    (h : (t, r) ∈ amountRE.m prev s) : t ≠ [] := by
  unfold amountRE at h
  obtain ⟨t1, r1, t2, h1, h2, he⟩ := (mem_m_seq _ _ _ _ _ _).mp h
  obtain ⟨td, rd, t3, hd, h3, he2⟩ := (mem_m_seq _ _ _ _ _ _).mp h2
  obtain ⟨d, hsd, hdp, htd⟩ := (mem_m_tok _ _ _ _ _).mp hd
  subst htd
  subst he2
  subst he
  simp

theorem amount_match_exists {c : Char} (hd : isDigitCh c = true)
    (rest : List Char) (prev : Option Char) :
    amountRE.m prev (c :: rest) ≠ [] := by
  unfold amountRE
  refine List.ne_nil_of_mem (mem_m_seq_intro
    ((mem_m_alt _ _ _ _ _ _).mpr (Or.inr mem_m_eps_intro))
    (mem_m_seq_intro (mem_m_tok_intro hd)
      (mem_m_seq_intro (starSplits_self _ rest)
        ((mem_m_alt _ _ _ _ _ _).mpr (Or.inr mem_m_eps_intro)))))

theorem subAux_amount_nodigit :
    ∀ (n : Nat) (s : List Char) (prev : Option Char), s.length ≤ n →
      ∀ c ∈ subAux amountRE ("[amount]".data) prev s, isDigitCh c = false := by
  intro n
  induction n with
  | zero =>
    intro s prev hlen c hc
    have hs : s = [] := List.length_eq_zero.mp (Nat.le_zero.mp hlen)
    subst hs
    rw [subAux_nil] at hc
    simp at hc
  | succ n ih =>
    intro s prev hlen c hc
    cases s with
    | nil =>
      rw [subAux_nil] at hc
      simp at hc
    | cons c0 rest =>
      have hrest_le : rest.length ≤ n := by
        simp only [List.length_cons] at hlen
        omega
      cases hm : (amountRE.m prev (c0 :: rest)).head? with
      | none =>
        rw [subAux_cons_none _ _ _ _ _ hm] at hc
        rcases List.mem_cons.mp hc with hc | hc
        · subst hc
          by_cases hdg : isDigitCh c = true
          · exact absurd (List.head?_eq_none_iff.mp hm) (amount_match_exists hdg rest prev)
          · simpa using hdg
        · exact ih rest (some c0) hrest_le c hc
      | some tr =>
        obtain ⟨t, r⟩ := tr
        have hmem : (t, r) ∈ amountRE.m prev (c0 :: rest) :=
          List.mem_of_mem_head? (Option.mem_def.mpr hm)
        have htne := amount_mem_ne hmem
        rw [subAux_cons_some _ _ _ _ _ _ _ hm htne] at hc
        rcases List.mem_append.mp hc with hc | hc
        · exact (by decide : ∀ x ∈ ("[amount]".data), isDigitCh x = false) c hc
        · have hdec := m_decomp _ _ _ _ _ hmem
          have hr_le : r.length ≤ n := by
            have h1 : (c0 :: rest).length = t.length + r.length := by rw [hdec]; simp
            have h2 : 0 < t.length := List.length_pos.mpr htne
            simp only [List.length_cons] at h1 hlen
            omega
          exact ih r (lastC prev t) hr_le c hc

/-- Every character of a substitution output comes from the input or from
the replacement string. -/
theorem subAux_chars (re : RE) (repl : List Char) :
    ∀ (n : Nat) (s : List Char) (prev : Option Char), s.length ≤ n →
      ∀ c ∈ subAux re repl prev s, c ∈ s ∨ c ∈ repl := by
  intro n
  induction n with
  | zero =>
    intro s prev hlen c hc
    have hs : s = [] := List.length_eq_zero.mp (Nat.le_zero.mp hlen)
    subst hs
    rw [subAux_nil] at hc
    simp at hc
  | succ n ih =>
    intro s prev hlen c hc
    cases s with
    | nil =>
      rw [subAux_nil] at hc
      simp at hc
    | cons c0 rest =>
      have hrest_le : rest.length ≤ n := by
        simp only [List.length_cons] at hlen
        omega
      cases hm : (re.m prev (c0 :: rest)).head? with
      | none =>
        rw [subAux_cons_none _ _ _ _ _ hm] at hc
        rcases List.mem_cons.mp hc with hc | hc
        · subst hc; left; simp
        · rcases ih rest (some c0) hrest_le c hc with h | h
          · left; exact List.mem_cons_of_mem c0 h
          · right; exact h
      | some tr =>
        obtain ⟨t, r⟩ := tr
        have hmem : (t, r) ∈ re.m prev (c0 :: rest) :=
          List.mem_of_mem_head? (Option.mem_def.mpr hm)
        by_cases htne : t = []
        · subst htne
          rw [subAux_cons_some_nil _ _ _ _ _ _ hm] at hc
          rcases List.mem_cons.mp hc with hc | hc
          · subst hc; left; simp
          · rcases ih rest (some c0) hrest_le c hc with h | h
            · left; exact List.mem_cons_of_mem c0 h
            · right; exact h
        · rw [subAux_cons_some _ _ _ _ _ _ _ hm htne] at hc
          rcases List.mem_append.mp hc with hc | hc
          · right; exact hc
          · have hdec := m_decomp _ _ _ _ _ hmem
            have hr_le : r.length ≤ n := by
              have h1 : (c0 :: rest).length = t.length + r.length := by rw [hdec]; simp
              have h2 : 0 < t.length := List.length_pos.mpr htne
              simp only [List.length_cons] at h1 hlen
              omega
            rcases ih r (lastC prev t) hr_le c hc with h | h
            · left; rw [hdec]; exact List.mem_append.mpr (Or.inr h)
            · right; exact h

theorem ws_not_word {c : Char} (h : wsChar c = true) : isWordChar c = false := by
  simp only [wsChar, Bool.or_eq_true, decide_eq_true_eq] at h
  rcases h with (((((h | h) | h) | h) | h) | h) <;> subst h <;> decide

/-- The text decomposes as leading whitespace, the stripped core, and
trailing whitespace. -/
theorem pyStrip_decomp (l : List Char) :
    ∃ lead trail, l = lead ++ (pyStrip l ++ trail) ∧
      (∀ c ∈ lead, wsChar c = true) ∧ (∀ c ∈ trail, wsChar c = true) := by
  refine ⟨l.takeWhile wsChar, ((l.dropWhile wsChar).reverse.takeWhile wsChar).reverse,
    ?_, ?_, ?_⟩
  · unfold pyStrip
    conv_lhs => rw [← List.takeWhile_append_dropWhile wsChar l]
    congr 1
    set u := l.dropWhile wsChar
    have h1 : u.reverse.takeWhile wsChar ++ u.reverse.dropWhile wsChar = u.reverse :=
      List.takeWhile_append_dropWhile wsChar u.reverse
    have h2 := congrArg List.reverse h1
    rw [List.reverse_append, List.reverse_reverse] at h2
    exact h2.symm
  · intro c hc
    exact List.mem_takeWhile_imp hc
  · intro c hc
    rw [List.mem_reverse] at hc
    exact List.mem_takeWhile_imp hc

theorem mem_pyStrip {l : List Char} {c : Char} (h : c ∈ pyStrip l) : c ∈ l := by
  obtain ⟨lead, trail, heq, _, _⟩ := pyStrip_decomp l
  rw [heq]
  exact List.mem_append.mpr (Or.inr (List.mem_append.mpr (Or.inl h)))

theorem head?_append_ne {b trail : List Char} (hb : b ≠ []) :
    (b ++ trail).head? = b.head? := by
  cases b with
  | nil => exact absurd rfl hb
  | cons x l => rfl

/-- Stripping whitespace from the ends cannot create a standalone token. -/
theorem SF_strip {Q : List Char → Prop} {l : List Char}
    (h : ¬ StandaloneFrom Q false l) : ¬ StandaloneFrom Q false (pyStrip l) := by
  rintro ⟨a, mt, b, heq, hQ, hL, hR⟩
  obtain ⟨lead, trail, hdec, hlead, htrail⟩ := pyStrip_decomp l
  apply h
  refine ⟨lead ++ a, mt, b ++ trail, ?_, hQ, ⟨?_, ?_⟩, ?_⟩
  · rw [hdec, heq]
    simp [List.append_assoc]
  · intro _
    rfl
  · intro x hx
    by_cases ha : a = []
    · subst ha
      rw [List.append_nil] at hx
      exact ws_not_word (hlead x (mem_of_getLastSome hx))
    · rw [getLast?_append_ne ha] at hx
      exact hL.2 x hx
  · intro x hx
    by_cases hb : b = []
    · subst hb
      rw [List.nil_append] at hx
      have hxmem : x ∈ trail := by
        cases trail with
        | nil => simp at hx
        | cons t0 tl =>
          simp only [List.head?_cons, Option.some.injEq] at hx
          exact hx ▸ List.mem_cons_self t0 tl
      exact ws_not_word (htrail x hxmem)
    · rw [head?_append_ne hb] at hx
      exact hR x hx

theorem tickerShape_word : ∀ mt, TickerShape mt → mt ≠ [] ∧ ∀ c ∈ mt, isWordChar c = true := by
  rintro mt ⟨h1, _, hup⟩
  constructor
  · intro habs
    subst habs
    simp at h1
  · exact fun c hc => word_of_upper (hup c hc)

theorem tickerShape_sep : ∀ mt, TickerShape mt → ∃ c ∈ mt, isUpperAZ c = true := by
  rintro mt ⟨h1, _, hup⟩
  cases mt with
  | nil => simp at h1
  | cons c l => exact ⟨c, by simp, hup c (by simp)⟩

/-- The marking characters of the buy-sell shape: letters lowering to u
(which buy contains) or to s (which sell contains); the replacement word
trade contains neither. -/
def buySellMark (c : Char) : Bool :=
  decide (lowerChar c = 'u') || decide (lowerChar c = 's')

theorem buySellShape_word : ∀ mt, BuySellShape mt → mt ≠ [] ∧ ∀ c ∈ mt, isWordChar c = true := by
  rintro mt (hm | hm)
  · constructor
    · intro habs
      subst habs
      simp at hm
    · intro c hc
      have : lowerChar c ∈ "buy".data := by
        rw [← hm]
        exact List.mem_map_of_mem lowerChar hc
      have hlow : isLowerAZ (lowerChar c) = true := by
        rcases (by simpa using this : lowerChar c = 'b' ∨ lowerChar c = 'u' ∨ lowerChar c = 'y')
          with h | h | h <;> rw [h] <;> decide
      exact word_of_lower rfl hlow
  · constructor
    · intro habs
      subst habs
      simp at hm
    · intro c hc
      have : lowerChar c ∈ "sell".data := by
        rw [← hm]
        exact List.mem_map_of_mem lowerChar hc
      have hlow : isLowerAZ (lowerChar c) = true := by
        rcases (by simpa using this : lowerChar c = 's' ∨ lowerChar c = 'e' ∨ lowerChar c = 'l' ∨ lowerChar c = 'l')
          with h | h | h | h <;> rw [h] <;> decide
      exact word_of_lower rfl hlow

theorem buySellShape_sep : ∀ mt, BuySellShape mt → ∃ c ∈ mt, buySellMark c = true := by
  rintro mt (hm | hm)
  · have : 'u' ∈ mt.map lowerChar := by rw [hm]; simp
    obtain ⟨c, hc, hcu⟩ := List.mem_map.mp this
    exact ⟨c, hc, by simp [buySellMark, hcu]⟩
  · have : 's' ∈ mt.map lowerChar := by rw [hm]; simp
    obtain ⟨c, hc, hcs⟩ := List.mem_map.mp this
    exact ⟨c, hc, by simp [buySellMark, hcs]⟩

theorem amountShaped_digit {l : List Char} (h : AmountShaped l) :
    ∃ c ∈ l, isDigitCh c = true := by
  obtain ⟨pre, mid, post, heq, _, ⟨d, ds, hmid, hd, _⟩, _⟩ := h
  refine ⟨d, ?_, hd⟩
  rw [heq, hmid]
  simp

/-- C3: the sanitizer output never contains a currency-amount-shaped
substring, a standalone one-to-five-letter all-uppercase token, or a
standalone occurrence of the word buy or sell in any letter case. -/
theorem claim_C3 (s : String) :
    (¬ ∃ l, OccursIn l (sanitizeRewrite s.data) ∧ AmountShaped l) ∧
    ¬ StandaloneFrom TickerShape false (sanitizeRewrite s.data) ∧
    ¬ StandaloneFrom BuySellShape false (sanitizeRewrite s.data) := by
  have hsan : sanitizeRewrite s.data =
      pyStrip (reSub buySellRE ("trade".data)
        (reSub tickerRE ("[asset]".data)
          (reSub amountRE ("[amount]".data) s.data))) := rfl
  have hnd1 : ∀ c ∈ reSub amountRE ("[amount]".data) s.data, isDigitCh c = false :=
    subAux_amount_nodigit s.data.length s.data none le_rfl
  have hnd2 : ∀ c ∈ reSub tickerRE ("[asset]".data)
      (reSub amountRE ("[amount]".data) s.data), isDigitCh c = false := by
    intro c hc
    rcases subAux_chars tickerRE ("[asset]".data) _ _ none le_rfl c hc with h | h
    · exact hnd1 c h
    · exact (by decide : ∀ x ∈ ("[asset]".data), isDigitCh x = false) c h
  have hnd3 : ∀ c ∈ reSub buySellRE ("trade".data) (reSub tickerRE ("[asset]".data)
      (reSub amountRE ("[amount]".data) s.data)), isDigitCh c = false := by
    intro c hc
    rcases subAux_chars buySellRE ("trade".data) _ _ none le_rfl c hc with h | h
    · exact hnd2 c h
    · exact (by decide : ∀ x ∈ ("trade".data), isDigitCh x = false) c h
  have hnd : ∀ c ∈ sanitizeRewrite s.data, isDigitCh c = false := by
    intro c hc
    rw [hsan] at hc
    exact hnd3 c (mem_pyStrip hc)
  have ht2 : ¬ StandaloneFrom TickerShape false
      (reSub tickerRE ("[asset]".data) (reSub amountRE ("[amount]".data) s.data)) :=
    subAux_elim tickerRE ("[asset]".data) TickerShape isUpperAZ ticker_matchShape
      ticker_complete tickerShape_word tickerShape_sep
      (by decide : ∀ x ∈ ("[asset]".data), isUpperAZ x = false)
      _ _ none le_rfl
  have ht3 : ¬ StandaloneFrom TickerShape false
      (reSub buySellRE ("trade".data) (reSub tickerRE ("[asset]".data)
        (reSub amountRE ("[amount]".data) s.data))) :=
    subAux_preserve buySellRE ("trade".data) TickerShape isUpperAZ buySell_matchShape
      tickerShape_word tickerShape_sep
      (by decide : ∀ x ∈ ("trade".data), isUpperAZ x = false)
      _ _ none le_rfl ht2
  have hb3 : ¬ StandaloneFrom BuySellShape false
      (reSub buySellRE ("trade".data) (reSub tickerRE ("[asset]".data)
        (reSub amountRE ("[amount]".data) s.data))) :=
    subAux_elim buySellRE ("trade".data) BuySellShape buySellMark buySell_matchShape
      buySell_complete buySellShape_word buySellShape_sep
      (by decide : ∀ x ∈ ("trade".data), buySellMark x = false)
      _ _ none le_rfl
  refine ⟨?_, by rw [hsan]; exact SF_strip ht3, by rw [hsan]; exact SF_strip hb3⟩
  rintro ⟨l, ⟨u, v, hocc⟩, hAmt⟩
  obtain ⟨d, hd, hdig⟩ := amountShaped_digit hAmt
  have hmem : d ∈ sanitizeRewrite s.data := by
    rw [hocc]
    exact List.mem_append.mpr (Or.inl (List.mem_append.mpr (Or.inr hd)))
  rw [hnd d hmem] at hdig
  exact absurd hdig (by simp)

theorem claim_C3_witness :
    ¬ StandaloneFrom TickerShape false (sanitizeRewrite ("buy AAPL for $100").data) :=
  (claim_C3 "buy AAPL for $100").2.1

/-- Python str.strip on a String. -/
def pyStripS (s : String) : String := String.mk (pyStrip s.data)

/-- _PLACEHOLDER_RE of validator.py: angle-bracket markup. -/
def placeholderRE : RE :=
  .seq (chE '<') (.seq (.tok (fun c => !(c = '>')))
    (.seq (.starTok (fun c => !(c = '>'))) (chE '>')))

def containsPlaceholder (s : String) : Bool := reSearch placeholderRE s.data

/-- _SECOND_PERSON_RE of validator.py. -/
def secondPersonRE : RE :=
  .seq .bnd (.seq (.alt (strCI "you") (.alt (strCI "your")
    (.alt (strCI "yours") (strCI "yourself")))) .bnd)

/-- The YYYY-MM-DD date pattern of validator.py. -/
def dateRE : RE :=
  .seq (.tok isDigitCh) (.seq (.tok isDigitCh) (.seq (.tok isDigitCh)
    (.seq (.tok isDigitCh) (.seq (chE '-') (.seq (.tok isDigitCh)
      (.seq (.tok isDigitCh) (.seq (chE '-') (.seq (.tok isDigitCh)
        (.tok isDigitCh)))))))))

/-- The snake-case id pattern of validator.py. -/
def idRE : RE :=
  .seq (.tok isLowerAZ) (.starTok (fun c => isLowerAZ c || isDigitCh c || c = '_'))

inductive Category where
  | budgeting | credit | investing | taxes | banking | insurance | debt
deriving DecidableEq

def Category.value : Category → String
  | .budgeting => "budgeting"
  | .credit => "credit"
  | .investing => "investing"
  | .taxes => "taxes"
  | .banking => "banking"
  | .insurance => "insurance"
  | .debt => "debt"

def allCategories : List Category :=
  [.budgeting, .credit, .investing, .taxes, .banking, .insurance, .debt]

def Category.ofValue (s : String) : Option Category :=
  (allCategories.filter (fun c => c.value = s)).head?

inductive Difficulty where
  | beginner | intermediate | advanced
deriving DecidableEq

def Difficulty.value : Difficulty → String
  | .beginner => "beginner"
  | .intermediate => "intermediate"
  | .advanced => "advanced"

def allDifficulties : List Difficulty := [.beginner, .intermediate, .advanced]

def Difficulty.ofValue (s : String) : Option Difficulty :=
  (allDifficulties.filter (fun c => c.value = s)).head?

inductive Intent where
  | educational_explanation | definition_lookup | personal_advice
  | score_optimization | product_recommendation
deriving DecidableEq

def Intent.value : Intent → String
  | .educational_explanation => "educational_explanation"
  | .definition_lookup => "definition_lookup"
  | .personal_advice => "personal_advice"
  | .score_optimization => "score_optimization"
  | .product_recommendation => "product_recommendation"

/-- Declaration order of Intent, as iterated for error messages. -/
def allIntents : List Intent :=
  [.educational_explanation, .definition_lookup, .personal_advice,
   .score_optimization, .product_recommendation]

/-- The Intent values in sorted (value string) order, as produced by
sorted(..., key=value) in the validator error paths. -/
def sortedIntents : List Intent :=
  [.definition_lookup, .educational_explanation, .personal_advice,
   .product_recommendation, .score_optimization]

def Intent.ofValue (s : String) : Option Intent :=
  (allIntents.filter (fun c => c.value = s)).head?

structure ConceptExample where
  scenario : String
  explanation : String
deriving DecidableEq

structure ConceptCard where
  id : String
  title : String
  category : Category
  difficulty : Difficulty
  summary : List String
  core_mechanics : List String
  examples : List ConceptExample
  misconceptions : List String
  non_goals : List String
  allowed_intents : List Intent
  forbidden_intents : List Intent
  sources : List String
  last_updated : String
deriving DecidableEq

/-- An untrusted value decoded from YAML: a string, a list, a mapping, or
anything else (numbers, booleans, null). -/
inductive Value where
  | str (s : String) : Value
  | list (l : List Value) : Value
  | dict (l : List (String × Value)) : Value
  | other : Value

/-- Python dict lookup (first binding; Python dicts have unique keys). -/
def dictGet : List (String × Value) → String → Option Value
  | [], _ => none
  | (k, v) :: rest, key => if k = key then some v else dictGet rest key

/-- The formatted message of ConceptValidationError as raised by _raise. -/
def mkErr (cardId field msg : String) : String :=
  "[ConceptCard id=" ++ cardId ++ "] " ++ field ++ ": " ++ msg

def _card_id_for_errors (raw : List (String × Value)) : String :=
  match dictGet raw "id" with
  | some (.str s) => if (pyStrip s.data).isEmpty then "<missing-id>" else s
  | _ => "<missing-id>"

def _require_key (raw : List (String × Value)) (cardId key : String) :
    Except String Value :=
  match dictGet raw key with
  | some v => .ok v
  | none => .error (mkErr cardId key "missing required field")

def _require_str (raw : List (String × Value)) (cardId key : String) :
    Except String String := do
  let v ← _require_key raw cardId key
  match v with
  | .str s =>
    if (pyStrip s.data).isEmpty then
      .error (mkErr cardId key "must be a non-empty string")
    else if containsPlaceholder s then
      .error (mkErr cardId key "contains placeholder text like <...>")
    else
      .ok (pyStripS s)
  | _ => .error (mkErr cardId key "must be a non-empty string")

def reqStrItems (cardId key : String) : Nat → List Value → Except String (List String)
  | _, [] => .ok []
  | i, v :: rest =>
    match v with
    | .str s =>
      if (pyStrip s.data).isEmpty then
        .error (mkErr cardId (key ++ "[" ++ toString i ++ "]") "must be a non-empty string")
      else if containsPlaceholder s then
        .error (mkErr cardId (key ++ "[" ++ toString i ++ "]") "contains placeholder text like <...>")
      else do
        let out ← reqStrItems cardId key (i + 1) rest
        pure (pyStripS s :: out)
    | _ => .error (mkErr cardId (key ++ "[" ++ toString i ++ "]") "must be a non-empty string")

def _require_list_of_str (raw : List (String × Value)) (cardId key : String)
    (minLen : Nat) : Except String (List String) := do
  let v ← _require_key raw cardId key
  match v with
  | .list items => do
    let out ← reqStrItems cardId key 0 items
    if out.length < minLen then
      .error (mkErr cardId key ("must contain at least " ++ toString minLen ++ " item(s)"))
    else
      pure out
  | _ => .error (mkErr cardId key "must be a list of strings")

def categoryAllowedStr : String := String.intercalate ", " (allCategories.map Category.value)

def difficultyAllowedStr : String := String.intercalate ", " (allDifficulties.map Difficulty.value)

def intentAllowedStr : String := String.intercalate ", " (allIntents.map Intent.value)

def toCategory (cardId field s : String) : Except String Category :=
  match Category.ofValue s with
  | some c => .ok c
  | none => .error (mkErr cardId field
      ("invalid value '" ++ s ++ "'. Allowed: " ++ categoryAllowedStr))

def toDifficulty (cardId field s : String) : Except String Difficulty :=
  match Difficulty.ofValue s with
  | some c => .ok c
  | none => .error (mkErr cardId field
      ("invalid value '" ++ s ++ "'. Allowed: " ++ difficultyAllowedStr))

def toIntent (cardId field s : String) : Except String Intent :=
  match Intent.ofValue s with
  | some c => .ok c
  | none => .error (mkErr cardId field
      ("invalid value '" ++ s ++ "'. Allowed: " ++ intentAllowedStr))

def _require_category (raw : List (String × Value)) (cardId : String) :
    Except String Category := do
  let s ← _require_str raw cardId "category"
  toCategory cardId "category" s

def _require_difficulty (raw : List (String × Value)) (cardId : String) :
    Except String Difficulty := do
  let s ← _require_str raw cardId "difficulty"
  toDifficulty cardId "difficulty" s

def reqExamples (cardId : String) : Nat → List Value → Except String (List ConceptExample)
  | _, [] => .ok []
  | i, v :: rest =>
    match v with
    | .dict ex =>
      match dictGet ex "scenario" with
      | some (.str sc) =>
        if (pyStrip sc.data).isEmpty then
          .error (mkErr cardId ("examples[" ++ toString i ++ "].scenario") "must be a non-empty string")
        else
          match dictGet ex "explanation" with
          | some (.str expl) =>
            if (pyStrip expl.data).isEmpty then
              .error (mkErr cardId ("examples[" ++ toString i ++ "].explanation") "must be a non-empty string")
            else if containsPlaceholder sc then
              .error (mkErr cardId ("examples[" ++ toString i ++ "].scenario") "contains placeholder text like <...>")
            else if containsPlaceholder expl then
              .error (mkErr cardId ("examples[" ++ toString i ++ "].explanation") "contains placeholder text like <...>")
            else do
              let out ← reqExamples cardId (i + 1) rest
              pure (ConceptExample.mk (pyStripS sc) (pyStripS expl) :: out)
          | _ => .error (mkErr cardId ("examples[" ++ toString i ++ "].explanation") "must be a non-empty string")
      | _ => .error (mkErr cardId ("examples[" ++ toString i ++ "].scenario") "must be a non-empty string")
    | _ => .error (mkErr cardId ("examples[" ++ toString i ++ "]") "must be a mapping with scenario/explanation")

def _require_examples (raw : List (String × Value)) (cardId : String) :
    Except String (List ConceptExample) := do
  let v ← _require_key raw cardId "examples"
  match v with
  | .list items => reqExamples cardId 0 items
  | _ => .error (mkErr cardId "examples" "must be a list of example objects")

def isStrV : Value → Bool
  | .str _ => true
  | _ => false

def parseIntents (cardId field : String) : Nat → List Value → Except String (List Intent)
  | _, [] => .ok []
  | i, v :: rest =>
    match v with
    | .str s =>
      let s2 := pyStripS s
      if s2.data.isEmpty then
        .error (mkErr cardId (field ++ "[" ++ toString i ++ "]") "must be a non-empty string")
      else if containsPlaceholder s2 then
        .error (mkErr cardId (field ++ "[" ++ toString i ++ "]") "contains placeholder text like <...>")
      else do
        let intent ← toIntent cardId (field ++ "[" ++ toString i ++ "]") s2
        let out ← parseIntents cardId field (i + 1) rest
        pure (intent :: out)
    | _ => .error (mkErr cardId (field ++ "[" ++ toString i ++ "]") "must be a non-empty string")

def _require_safety (raw : List (String × Value)) (cardId : String) :
    Except String (List Intent × List Intent) := do
  let v ← _require_key raw cardId "safety"
  match v with
  | .dict safety =>
    match dictGet safety "allowed_intents" with
    | some (.list aItems) =>
      if !(aItems.all isStrV) then
        .error (mkErr cardId "safety.allowed_intents" "must be a list of strings")
      else
        match dictGet safety "forbidden_intents" with
        | some (.list fItems) =>
          if !(fItems.all isStrV) then
            .error (mkErr cardId "safety.forbidden_intents" "must be a list of strings")
          else do
            let allowed ← parseIntents cardId "safety.allowed_intents" 0 aItems
            let forbidden ← parseIntents cardId "safety.forbidden_intents" 0 fItems
            let hasPA := forbidden.contains Intent.personal_advice
            let hasPR := forbidden.contains Intent.product_recommendation
            if !hasPA && !hasPR then
              .error (mkErr cardId "safety.forbidden_intents"
                "must include: personal_advice, product_recommendation")
            else if !hasPA then
              .error (mkErr cardId "safety.forbidden_intents" "must include: personal_advice")
            else if !hasPR then
              .error (mkErr cardId "safety.forbidden_intents" "must include: product_recommendation")
            else
              let overlap := sortedIntents.filter
                (fun x => allowed.contains x && forbidden.contains x)
              if overlap.isEmpty then
                pure (allowed, forbidden)
              else
                .error (mkErr cardId "safety"
                  ("allowed_intents and forbidden_intents overlap: "
                    ++ String.intercalate ", " (overlap.map Intent.value)))
        | _ => .error (mkErr cardId "safety.forbidden_intents" "must be a list of strings")
    | _ => .error (mkErr cardId "safety.allowed_intents" "must be a list of strings")
  | _ => .error (mkErr cardId "safety" "must be a mapping with allowed_intents/forbidden_intents")

def parseSources (cardId : String) : Nat → List Value → Except String (List String)
  | _, [] => .ok []
  | i, v :: rest =>
    match v with
    | .str s =>
      if (pyStrip s.data).isEmpty then
        .error (mkErr cardId ("metadata.sources[" ++ toString i ++ "]") "must be a non-empty string")
      else if containsPlaceholder s then
        .error (mkErr cardId ("metadata.sources[" ++ toString i ++ "]") "contains placeholder text like <...>")
      else do
        let out ← parseSources cardId (i + 1) rest
        pure (pyStripS s :: out)
    | _ => .error (mkErr cardId ("metadata.sources[" ++ toString i ++ "]") "must be a non-empty string")

def _require_metadata (raw : List (String × Value)) (cardId : String) :
    Except String (List String × String) := do
  let v ← _require_key raw cardId "metadata"
  match v with
  | .dict meta =>
    match dictGet meta "sources" with
    | some (.list items) =>
      if items.isEmpty then
        .error (mkErr cardId "metadata.sources" "must be a non-empty list of strings")
      else do
        let cleanSources ← parseSources cardId 0 items
        match dictGet meta "last_updated" with
        | some (.str s) =>
          if (pyStrip s.data).isEmpty then
            .error (mkErr cardId "metadata.last_updated"
              "must be a non-empty string in YYYY-MM-DD format")
          else
            let lu := pyStripS s
            if containsPlaceholder lu then
              .error (mkErr cardId "metadata.last_updated" "contains placeholder text like <...>")
            else if !(reFullmatch dateRE lu.data) then
              .error (mkErr cardId "metadata.last_updated" "must match YYYY-MM-DD")
            else
              pure (cleanSources, lu)
        | _ => .error (mkErr cardId "metadata.last_updated"
            "must be a non-empty string in YYYY-MM-DD format")
    | _ => .error (mkErr cardId "metadata.sources" "must be a non-empty list of strings")
  | _ => .error (mkErr cardId "metadata" "must be a mapping with sources/last_updated")

def checkSummary (cardId : String) : Nat → List Value → Except String Unit
  | _, [] => .ok ()
  | i, v :: rest =>
    match v with
    | .str s =>
      if reSearch secondPersonRE s.data then
        .error (mkErr cardId ("summary[" ++ toString i ++ "]")
          "should avoid second-person phrasing (you/your)")
      else checkSummary cardId (i + 1) rest
    | _ => checkSummary cardId (i + 1) rest

def strOnly : List Value → List String
  | [] => []
  | (.str s) :: rest => s :: strOnly rest
  | _ :: rest => strOnly rest

/-- Python " ".join. -/
def joinSp : List String → List Char
  | [] => []
  | [s] => s.data
  | s :: rest => s.data ++ (' ' :: joinSp rest)

def startsWithB : List Char → List Char → Bool
  | [], _ => true
  | _ :: _, [] => false
  | c :: t, d :: s => c = d && startsWithB t s

/-- Python substring containment (the `in` operator on str). -/
def occursB (t : List Char) : List Char → Bool
  | [] => t.isEmpty
  | c :: rest => startsWithB t (c :: rest) || occursB t rest

def advTerms : List String := ["advice", "recommend", "optimiz", "personal", "product"]

def hasAdvTerm (joined : List Char) : Bool :=
  advTerms.any (fun term => occursB term.data joined)

def sweepItems (cardId : String) : List (String × Value) → Except String Unit
  | [] => .ok ()
  | (k, v) :: rest =>
    match v with
    | .str s =>
      if containsPlaceholder s then
        .error (mkErr cardId k "contains placeholder text like <...>")
      else sweepItems cardId rest
    | _ => sweepItems cardId rest

def _education_only_heuristics (cardId : String) (raw : List (String × Value)) :
    Except String Unit := do
  let _ ← (match dictGet raw "summary" with
    | some (.list items) => checkSummary cardId 0 items
    | _ => .ok ())
  let _ ← (match dictGet raw "non_goals" with
    | some (.list items) =>
      if hasAdvTerm (pyLower (joinSp (strOnly items))) then
        (.ok () : Except String Unit)
      else
        .error (mkErr cardId "non_goals"
          "must explicitly block advice/recommendation/optimization scope")
    | _ => .ok ())
  sweepItems cardId raw

/-- validate_conceptcard of validator.py. -/
def validate_conceptcard (raw : Value) : Except String ConceptCard :=
  match raw with
  | .dict d =>
    let cardId := _card_id_for_errors d
    do
      let cid ← _require_str d cardId "id"
      let title ← _require_str d cardId "title"
      let category ← _require_category d cardId
      let difficulty ← _require_difficulty d cardId
      let summary ← _require_list_of_str d cardId "summary" 1
      let coreMechanics ← _require_list_of_str d cardId "core_mechanics" 1
      let misconceptions ← _require_list_of_str d cardId "misconceptions" 1
      let nonGoals ← _require_list_of_str d cardId "non_goals" 1
      let examples ← _require_examples d cardId
      let saf ← _require_safety d cardId
      let meta ← _require_metadata d cardId
      let _ ← _education_only_heuristics cardId d
      if reFullmatch idRE cid.data then
        pure { id := cid, title := title, category := category, difficulty := difficulty,
               summary := summary, core_mechanics := coreMechanics, examples := examples,
               misconceptions := misconceptions, non_goals := nonGoals,
               allowed_intents := saf.1, forbidden_intents := saf.2,
               sources := meta.1, last_updated := meta.2 }
      else
        .error (mkErr cardId "id" "must be snake_case (lowercase letters, digits, underscores)")
  | _ => .error "ConceptCard raw value must be a dict"

def validateAllGo (seen : List String) : List Value → Except String (List ConceptCard)
  | [] => .ok []
  | r :: rest => do
    let card ← validate_conceptcard r
    if card.id ∈ seen then
      .error ("Duplicate ConceptCard id detected: " ++ card.id)
    else do
      let out ← validateAllGo (card.id :: seen) rest
      pure (card :: out)

/-- validate_all_conceptcards of validator.py. -/
def validate_all_conceptcards (raws : List Value) : Except String (List ConceptCard) :=
  validateAllGo [] raws

theorem bind_ok {α β : Type} {x : Except String α} {f : α → Except String β} {b : β}
    (h : (x >>= f) = .ok b) : ∃ a, x = .ok a ∧ f a = .ok b := by
  cases x with
  | ok a => exact ⟨a, rfl, h⟩
  | error e => exact Except.noConfusion h

theorem mem_sortedIntents (i : Intent) : i ∈ sortedIntents := by
  cases i <;> simp [sortedIntents]

/-- Success of _require_safety forces the hard safety invariants. -/
theorem safety_ok_facts {d : List (String × Value)} {cardId : String}
    {af : List Intent × List Intent}
    (h : _require_safety d cardId = .ok af) :
    Intent.personal_advice ∈ af.2 ∧ Intent.product_recommendation ∈ af.2 ∧
    ∀ i ∈ af.1, i ∉ af.2 := by
  unfold _require_safety at h
  obtain ⟨v, hv, h⟩ := bind_ok h
  cases v with
  | dict safety =>
    simp only at h
    cases hga : dictGet safety "allowed_intents" with
    | none => rw [hga] at h; exact Except.noConfusion h
    | some va =>
      rw [hga] at h
      cases va with
      | list aItems =>
        simp only at h
        by_cases hall : aItems.all isStrV
        · rw [if_neg (by simp [hall])] at h
          cases hgf : dictGet safety "forbidden_intents" with
          | none => rw [hgf] at h; exact Except.noConfusion h
          | some vf =>
            rw [hgf] at h
            cases vf with
            | list fItems =>
              simp only at h
              by_cases hallf : fItems.all isStrV
              · rw [if_neg (by simp [hallf])] at h
                obtain ⟨allowed, hA, h⟩ := bind_ok h
                obtain ⟨forbidden, hF, h⟩ := bind_ok h
                cases hPA : forbidden.contains Intent.personal_advice with
                | false =>
                  rw [hPA] at h
                  cases hPR : forbidden.contains Intent.product_recommendation with
                  | false => rw [hPR] at h; simp at h
                  | true => rw [hPR] at h; simp at h
                | true =>
                  rw [hPA] at h
                  cases hPR : forbidden.contains Intent.product_recommendation with
                  | false => rw [hPR] at h; simp at h
                  | true =>
                    rw [hPR] at h
                    by_cases hov : (sortedIntents.filter
                        (fun x => allowed.contains x && forbidden.contains x)).isEmpty = true
                    · rw [if_neg (by simp), if_neg (by simp), if_neg (by simp),
                        if_pos hov] at h
                      have haf : af = (allowed, forbidden) := by
                        cases h
                        rfl
                      subst haf
                      refine ⟨by simpa using hPA, by simpa using hPR, ?_⟩
                      intro i hiA hiF
                      have hnil : sortedIntents.filter
                          (fun x => allowed.contains x && forbidden.contains x) = [] := by
                        simpa [List.isEmpty_iff] using hov
                      have hfa := List.filter_eq_nil_iff.mp hnil i (mem_sortedIntents i)
                      simp only [Bool.and_eq_true, not_and] at hfa
                      exact absurd (by simpa using hiF)
                        (by simpa using hfa (by simpa using hiA))
                    · rw [if_neg (by simp), if_neg (by simp), if_neg (by simp),
                        if_neg hov] at h
                      exact Except.noConfusion h
              · rw [if_pos (by simp [hallf])] at h
                exact Except.noConfusion h
            | str s => exact Except.noConfusion h
            | dict l => exact Except.noConfusion h
            | other => exact Except.noConfusion h
        · rw [if_pos (by simp [hall])] at h
          exact Except.noConfusion h
      | str s => exact Except.noConfusion h
      | dict l => exact Except.noConfusion h
      | other => exact Except.noConfusion h
  | str s => exact Except.noConfusion h
  | list l => exact Except.noConfusion h
  | other => exact Except.noConfusion h

/-- Inverting a successful validation into the success of every component
check, in the order the validator applies them. -/
theorem validate_ok_inv {raw : Value} {card : ConceptCard}
    (h : validate_conceptcard raw = .ok card) :
    ∃ d, raw = .dict d ∧
      _require_str d (_card_id_for_errors d) "id" = .ok card.id ∧
      _require_str d (_card_id_for_errors d) "title" = .ok card.title ∧
      _require_category d (_card_id_for_errors d) = .ok card.category ∧
      _require_difficulty d (_card_id_for_errors d) = .ok card.difficulty ∧
      _require_list_of_str d (_card_id_for_errors d) "summary" 1 = .ok card.summary ∧
      _require_list_of_str d (_card_id_for_errors d) "core_mechanics" 1 = .ok card.core_mechanics ∧
      _require_list_of_str d (_card_id_for_errors d) "misconceptions" 1 = .ok card.misconceptions ∧
      _require_list_of_str d (_card_id_for_errors d) "non_goals" 1 = .ok card.non_goals ∧
      _require_examples d (_card_id_for_errors d) = .ok card.examples ∧
      _require_safety d (_card_id_for_errors d) = .ok (card.allowed_intents, card.forbidden_intents) ∧
      _require_metadata d (_card_id_for_errors d) = .ok (card.sources, card.last_updated) ∧
      _education_only_heuristics (_card_id_for_errors d) d = .ok () ∧
      reFullmatch idRE card.id.data = true := by
  cases raw with
  | dict d =>
    refine ⟨d, rfl, ?_⟩
    simp only [validate_conceptcard] at h
    obtain ⟨cid, hcid, h⟩ := bind_ok h
    obtain ⟨title, htitle, h⟩ := bind_ok h
    obtain ⟨category, hcat, h⟩ := bind_ok h
    obtain ⟨difficulty, hdiff, h⟩ := bind_ok h
    obtain ⟨summary, hsum, h⟩ := bind_ok h
    obtain ⟨coreM, hcm, h⟩ := bind_ok h
    obtain ⟨misc, hmis, h⟩ := bind_ok h
    obtain ⟨nonG, hng, h⟩ := bind_ok h
    obtain ⟨examples, hex, h⟩ := bind_ok h
    obtain ⟨saf, hsaf, h⟩ := bind_ok h
    obtain ⟨meta, hmeta, h⟩ := bind_ok h
    obtain ⟨u, hheur, h⟩ := bind_ok h
    obtain ⟨⟩ := u
    cases saf with
    | mk allowed forbidden =>
      cases meta with
      | mk sources lastUpdated =>
        by_cases hid : reFullmatch idRE cid.data = true
        · rw [if_pos hid] at h
          have hcard : card = ConceptCard.mk cid title category difficulty summary
              coreM examples misc nonG allowed forbidden sources lastUpdated := by
            cases h
            rfl
          subst hcard
          exact ⟨hcid, htitle, hcat, hdiff, hsum, hcm, hmis, hng, hex, hsaf, hmeta, hheur, hid⟩
        · rw [if_neg hid] at h
          exact Except.noConfusion h
  | str s => exact Except.noConfusion h
  | list l => exact Except.noConfusion h
  | other => exact Except.noConfusion h

/-- C1: every validated card forbids personal_advice and
product_recommendation, and its allowed and forbidden intents are disjoint. -/
theorem claim_C1 (raw : Value) (card : ConceptCard)
    (h : validate_conceptcard raw = .ok card) :
    (Intent.personal_advice ∈ card.forbidden_intents ∧
      Intent.product_recommendation ∈ card.forbidden_intents) ∧
    ∀ i ∈ card.allowed_intents, i ∉ card.forbidden_intents := by
  obtain ⟨d, -, -, -, -, -, -, -, -, -, -, hsaf, -, -, -⟩ := validate_ok_inv h
  obtain ⟨h1, h2, h3⟩ := safety_ok_facts hsaf
  exact ⟨⟨h1, h2⟩, h3⟩

/-- A concrete well-formed raw record used to witness the validator claims. -/
def sampleFields : List (String × Value) := [
  ("id", Value.str "compound_interest"),
  ("title", Value.str "Compound Interest"),
  ("category", Value.str "investing"),
  ("difficulty", Value.str "beginner"),
  ("summary", Value.list [Value.str "Interest on interest."]),
  ("core_mechanics", Value.list [Value.str "Growth compounds."]),
  ("misconceptions", Value.list [Value.str "It is linear."]),
  ("non_goals", Value.list [Value.str "No personal advice."]),
  ("examples", Value.list [Value.dict [
    ("scenario", Value.str "A savings account."),
    ("explanation", Value.str "Balances grow faster over time.")]]),
  ("safety", Value.dict [
    ("allowed_intents", Value.list [Value.str "educational_explanation"]),
    ("forbidden_intents", Value.list [Value.str "personal_advice",
      Value.str "product_recommendation"])]),
  ("metadata", Value.dict [
    ("sources", Value.list [Value.str "textbook"]),
    ("last_updated", Value.str "2024-01-01")])]

def sampleCard : ConceptCard :=
  ConceptCard.mk "compound_interest" "Compound Interest" Category.investing
    Difficulty.beginner ["Interest on interest."] ["Growth compounds."]
    [ConceptExample.mk "A savings account." "Balances grow faster over time."]
    ["It is linear."] ["No personal advice."]
    [Intent.educational_explanation]
    [Intent.personal_advice, Intent.product_recommendation]
    ["textbook"] "2024-01-01"

theorem sample_validates : validate_conceptcard (Value.dict sampleFields) = .ok sampleCard := by
  rfl

theorem claim_C1_witness :
    (Intent.personal_advice ∈ sampleCard.forbidden_intents ∧
      Intent.product_recommendation ∈ sampleCard.forbidden_intents) ∧
    ∀ i ∈ sampleCard.allowed_intents, i ∉ sampleCard.forbidden_intents :=
  claim_C1 (Value.dict sampleFields) sampleCard sample_validates

/-- Success of the heuristics pass forces each of its three checks. -/
theorem heuristics_ok_inv {cardId : String} {d : List (String × Value)}
    (h : _education_only_heuristics cardId d = .ok ()) :
    sweepItems cardId d = .ok () ∧
    (∀ items, dictGet d "non_goals" = some (Value.list items) →
      hasAdvTerm (pyLower (joinSp (strOnly items))) = true) ∧
    (∀ items, dictGet d "summary" = some (Value.list items) →
      checkSummary cardId 0 items = .ok ()) := by
  unfold _education_only_heuristics at h
  obtain ⟨u1, h1, h⟩ := bind_ok h
  obtain ⟨u2, h2, h⟩ := bind_ok h
  refine ⟨h, ?_, ?_⟩
  · intro items hng
    rw [hng] at h2
    dsimp only at h2
    by_cases hterm : hasAdvTerm (pyLower (joinSp (strOnly items))) = true
    · exact hterm
    · rw [if_neg hterm] at h2
      exact Except.noConfusion h2
  · intro items hsum
    rw [hsum] at h1
    dsimp only at h1
    obtain ⟨⟩ := u1
    exact h1

theorem sweep_ok {cardId : String} :
    ∀ items, sweepItems cardId items = .ok () →
      ∀ k s, (k, Value.str s) ∈ items → containsPlaceholder s = false := by
  intro items
  induction items with
  | nil =>
    intro _ k s hmem
    simp at hmem
  | cons kv rest ih =>
    intro h k s hmem
    obtain ⟨k0, v0⟩ := kv
    rcases List.mem_cons.mp hmem with heq | hmem'
    · obtain ⟨hk, hv⟩ := Prod.mk.injEq .. ▸ heq.symm
      subst hv
      unfold sweepItems at h
      dsimp only at h
      by_cases hp : containsPlaceholder s = true
      · rw [if_pos hp] at h
        exact Except.noConfusion h
      · simpa using hp
    · unfold sweepItems at h
      cases v0 with
      | str s0 =>
        dsimp only at h
        by_cases hp : containsPlaceholder s0 = true
        · rw [if_pos hp] at h
          exact Except.noConfusion h
        · rw [if_neg hp] at h
          exact ih h k s hmem'
      | list l => exact ih h k s hmem'
      | dict l => exact ih h k s hmem'
      | other => exact ih h k s hmem'

/-- C4, amended to the top level: every top-level string-valued field of a
record that validates is free of placeholder markup (including fields not
enumerated by the schema). -/
theorem claim_C4 (d : List (String × Value)) (card : ConceptCard)
    (h : validate_conceptcard (Value.dict d) = .ok card) :
    ∀ k s, (k, Value.str s) ∈ d → containsPlaceholder s = false := by
  obtain ⟨d', hd', rest⟩ := validate_ok_inv h
  have hde : d = d' := by injection hd'
  subst hde
  obtain ⟨-, -, -, -, -, -, -, -, -, -, -, hheur, -⟩ := rest
  exact sweep_ok d (heuristics_ok_inv hheur).1

mutual

/-- All strings in a value, at any nesting depth. -/
def Value.deepStrings : Value → List String
  | .str s => [s]
  | .list l => valuesDeepStrings l
  | .dict l => pairsDeepStrings l
  | .other => []

def valuesDeepStrings : List Value → List String
  | [] => []
  | v :: rest => v.deepStrings ++ valuesDeepStrings rest

def pairsDeepStrings : List (String × Value) → List String
  | [] => []
  | (_, v) :: rest => v.deepStrings ++ pairsDeepStrings rest

end

def recordDeepStrings (d : List (String × Value)) : List String :=
  (Value.dict d).deepStrings

def exceptIsOk {e a : Type} : Except e a → Bool
  | .ok _ => true
  | .error _ => false

/-- A record identical to the sample but with an extra unenumerated field
holding a nested list whose string carries placeholder markup. -/
def cexFields4 : List (String × Value) :=
  sampleFields ++ [("notes", Value.list [Value.str "<todo>"])]

/-- C4 counterexample: the record validates although a string at nesting
depth two (inside an unenumerated field) contains placeholder markup, so
the claim is false for strings at arbitrary nesting depth. -/
theorem claim_C4_counterexample :
    exceptIsOk (validate_conceptcard (Value.dict cexFields4)) = true ∧
    ∃ s ∈ recordDeepStrings cexFields4, containsPlaceholder s = true := by
  constructor
  · rfl
  · refine ⟨"<todo>", by decide, by rfl⟩

theorem claim_C4_witness :
    containsPlaceholder "Compound Interest" = false :=
  claim_C4 sampleFields sampleCard sample_validates "title" "Compound Interest"
    (by unfold sampleFields; exact List.mem_cons_of_mem _ (List.mem_cons_self _ _))

theorem dropWhile_head_not {p : Char → Bool} :
    ∀ (l : List Char) (c : Char), (l.dropWhile p).head? = some c → p c = false := by
  intro l
  induction l with
  | nil => intro c hc; simp at hc
  | cons a rest ih =>
    intro c hc
    by_cases hp : p a = true
    · rw [List.dropWhile_cons_of_pos hp] at hc
      exact ih c hc
    · rw [List.dropWhile_cons_of_neg hp] at hc
      simp only [List.head?_cons, Option.some.injEq] at hc
      subst hc
      simpa using hp

theorem getLast?_of_suffix {l₁ l₂ : List Char} (h : l₁ <:+ l₂) (hne : l₁ ≠ []) :
    l₁.getLast? = l₂.getLast? := by
  obtain ⟨pre, hpre⟩ := h
  rw [← hpre, getLast?_append_ne hne]

theorem pyStrip_head {l : List Char} {c : Char}
    (h : (pyStrip l).head? = some c) : wsChar c = false := by
  unfold pyStrip at h
  rw [List.head?_reverse] at h
  have hne : (l.dropWhile wsChar).reverse.dropWhile wsChar ≠ [] := by
    intro habs
    rw [habs] at h
    simp at h
  rw [getLast?_of_suffix (List.dropWhile_suffix wsChar) hne, List.getLast?_reverse] at h
  exact dropWhile_head_not _ c h

theorem pyStrip_last {l : List Char} {c : Char}
    (h : (pyStrip l).getLast? = some c) : wsChar c = false := by
  unfold pyStrip at h
  rw [List.getLast?_reverse] at h
  exact dropWhile_head_not _ c h

theorem dropWhile_eq_self_of_head {p : Char → Bool} {l : List Char}
    (h : ∀ c, l.head? = some c → p c = false) : l.dropWhile p = l := by
  cases l with
  | nil => rfl
  | cons a rest =>
    rw [List.dropWhile_cons_of_neg]
    simp [h a rfl]

theorem pyStrip_idem (l : List Char) : pyStrip (pyStrip l) = pyStrip l := by
  have h1 : (pyStrip l).dropWhile wsChar = pyStrip l :=
    dropWhile_eq_self_of_head (fun c hc => pyStrip_head hc)
  have h2 : (pyStrip l).reverse.dropWhile wsChar = (pyStrip l).reverse :=
    dropWhile_eq_self_of_head (fun c hc => by
      rw [List.head?_reverse] at hc
      exact pyStrip_last hc)
  show (((pyStrip l).dropWhile wsChar).reverse.dropWhile wsChar).reverse = pyStrip l
  rw [h1, h2, List.reverse_reverse]

/-- A string equal to its own strip. -/
def Trimmed (s : String) : Prop := pyStripS s = s

theorem trimmed_pyStripS (s : String) : Trimmed (pyStripS s) := by
  unfold Trimmed pyStripS
  exact congrArg String.mk (pyStrip_idem s.data)

theorem require_str_trimmed {d : List (String × Value)} {cardId key s : String}
    (h : _require_str d cardId key = .ok s) : Trimmed s := by
  unfold _require_str at h
  obtain ⟨v, hv, h⟩ := bind_ok h
  cases v with
  | str s0 =>
    dsimp only at h
    by_cases h1 : (pyStrip s0.data).isEmpty = true
    · rw [if_pos h1] at h
      exact Except.noConfusion h
    · rw [if_neg h1] at h
      by_cases h2 : containsPlaceholder s0 = true
      · rw [if_pos h2] at h
        exact Except.noConfusion h
      · rw [if_neg h2] at h
        have : s = pyStripS s0 := by cases h; rfl
        subst this
        exact trimmed_pyStripS s0
  | list l => exact Except.noConfusion h
  | dict l => exact Except.noConfusion h
  | other => exact Except.noConfusion h

theorem reqStrItems_trimmed {cardId key : String} :
    ∀ (items : List Value) (i : Nat) (out : List String),
      reqStrItems cardId key i items = .ok out → ∀ s ∈ out, Trimmed s := by
  intro items
  induction items with
  | nil =>
    intro i out h s hs
    unfold reqStrItems at h
    have : out = [] := by cases h; rfl
    subst this
    simp at hs
  | cons v rest ih =>
    intro i out h s hs
    unfold reqStrItems at h
    cases v with
    | str s0 =>
      dsimp only at h
      by_cases h1 : (pyStrip s0.data).isEmpty = true
      · rw [if_pos h1] at h
        exact Except.noConfusion h
      · rw [if_neg h1] at h
        by_cases h2 : containsPlaceholder s0 = true
        · rw [if_pos h2] at h
          exact Except.noConfusion h
        · rw [if_neg h2] at h
          obtain ⟨out', hout', h⟩ := bind_ok h
          have : out = pyStripS s0 :: out' := by cases h; rfl
          subst this
          rcases List.mem_cons.mp hs with hs | hs
          · subst hs; exact trimmed_pyStripS s0
          · exact ih (i + 1) out' hout' s hs
    | list l => exact Except.noConfusion h
    | dict l => exact Except.noConfusion h
    | other => exact Except.noConfusion h

theorem require_list_trimmed {d : List (String × Value)} {cardId key : String}
    {minLen : Nat} {out : List String}
    (h : _require_list_of_str d cardId key minLen = .ok out) : ∀ s ∈ out, Trimmed s := by
  unfold _require_list_of_str at h
  obtain ⟨v, hv, h⟩ := bind_ok h
  cases v with
  | list items =>
    dsimp only at h
    obtain ⟨out', hout', h⟩ := bind_ok h
    by_cases hlen : out'.length < minLen
    · rw [if_pos hlen] at h
      exact Except.noConfusion h
    · rw [if_neg hlen] at h
      have : out = out' := by cases h; rfl
      subst this
      exact reqStrItems_trimmed items 0 out hout'
  | str s => exact Except.noConfusion h
  | dict l => exact Except.noConfusion h
  | other => exact Except.noConfusion h

theorem reqExamples_trimmed {cardId : String} :
    ∀ (items : List Value) (i : Nat) (out : List ConceptExample),
      reqExamples cardId i items = .ok out →
      ∀ e ∈ out, Trimmed e.scenario ∧ Trimmed e.explanation := by
  intro items
  induction items with
  | nil =>
    intro i out h e he
    unfold reqExamples at h
    have : out = [] := by cases h; rfl
    subst this
    simp at he
  | cons v rest ih =>
    intro i out h e he
    unfold reqExamples at h
    cases v with
    | dict ex =>
      dsimp only at h
      cases hsc : dictGet ex "scenario" with
      | none => rw [hsc] at h; exact Except.noConfusion h
      | some vs =>
        rw [hsc] at h
        cases vs with
        | str sc =>
          dsimp only at h
          by_cases h1 : (pyStrip sc.data).isEmpty = true
          · rw [if_pos h1] at h; exact Except.noConfusion h
          · rw [if_neg h1] at h
            cases hex : dictGet ex "explanation" with
            | none => rw [hex] at h; exact Except.noConfusion h
            | some ve =>
              rw [hex] at h
              cases ve with
              | str expl =>
                dsimp only at h
                by_cases h2 : (pyStrip expl.data).isEmpty = true
                · rw [if_pos h2] at h; exact Except.noConfusion h
                · rw [if_neg h2] at h
                  by_cases h3 : containsPlaceholder sc = true
                  · rw [if_pos h3] at h; exact Except.noConfusion h
                  · rw [if_neg h3] at h
                    by_cases h4 : containsPlaceholder expl = true
                    · rw [if_pos h4] at h; exact Except.noConfusion h
                    · rw [if_neg h4] at h
                      obtain ⟨out', hout', h⟩ := bind_ok h
                      have : out = ConceptExample.mk (pyStripS sc) (pyStripS expl) :: out' := by
                        cases h; rfl
                      subst this
                      rcases List.mem_cons.mp he with he | he
                      · subst he
                        exact ⟨trimmed_pyStripS sc, trimmed_pyStripS expl⟩
                      · exact ih (i + 1) out' hout' e he
              | list l => exact Except.noConfusion h
              | dict l => exact Except.noConfusion h
              | other => exact Except.noConfusion h
        | list l => exact Except.noConfusion h
        | dict l => exact Except.noConfusion h
        | other => exact Except.noConfusion h
    | str s => exact Except.noConfusion h
    | list l => exact Except.noConfusion h
    | other => exact Except.noConfusion h

theorem require_examples_trimmed {d : List (String × Value)} {cardId : String}
    {out : List ConceptExample} (h : _require_examples d cardId = .ok out) :
    ∀ e ∈ out, Trimmed e.scenario ∧ Trimmed e.explanation := by
  unfold _require_examples at h
  obtain ⟨v, hv, h⟩ := bind_ok h
  cases v with
  | list items => exact reqExamples_trimmed items 0 out h
  | str s => exact Except.noConfusion h
  | dict l => exact Except.noConfusion h
  | other => exact Except.noConfusion h

theorem parseSources_trimmed {cardId : String} :
    ∀ (items : List Value) (i : Nat) (out : List String),
      parseSources cardId i items = .ok out → ∀ s ∈ out, Trimmed s := by
  intro items
  induction items with
  | nil =>
    intro i out h s hs
    unfold parseSources at h
    have : out = [] := by cases h; rfl
    subst this
    simp at hs
  | cons v rest ih =>
    intro i out h s hs
    unfold parseSources at h
    cases v with
    | str s0 =>
      dsimp only at h
      by_cases h1 : (pyStrip s0.data).isEmpty = true
      · rw [if_pos h1] at h; exact Except.noConfusion h
      · rw [if_neg h1] at h
        by_cases h2 : containsPlaceholder s0 = true
        · rw [if_pos h2] at h; exact Except.noConfusion h
        · rw [if_neg h2] at h
          obtain ⟨out', hout', h⟩ := bind_ok h
          have : out = pyStripS s0 :: out' := by cases h; rfl
          subst this
          rcases List.mem_cons.mp hs with hs | hs
          · subst hs; exact trimmed_pyStripS s0
          · exact ih (i + 1) out' hout' s hs
    | list l => exact Except.noConfusion h
    | dict l => exact Except.noConfusion h
    | other => exact Except.noConfusion h

theorem require_metadata_trimmed {d : List (String × Value)} {cardId : String}
    {out : List String × String} (h : _require_metadata d cardId = .ok out) :
    (∀ s ∈ out.1, Trimmed s) ∧ Trimmed out.2 := by
  unfold _require_metadata at h
  obtain ⟨v, hv, h⟩ := bind_ok h
  cases v with
  | dict meta =>
    dsimp only at h
    cases hsrc : dictGet meta "sources" with
    | none => rw [hsrc] at h; exact Except.noConfusion h
    | some vs =>
      rw [hsrc] at h
      cases vs with
      | list items =>
        dsimp only at h
        by_cases h1 : items.isEmpty = true
        · rw [if_pos h1] at h; exact Except.noConfusion h
        · rw [if_neg h1] at h
          obtain ⟨clean, hclean, h⟩ := bind_ok h
          cases hlu : dictGet meta "last_updated" with
          | none => rw [hlu] at h; exact Except.noConfusion h
          | some vl =>
            rw [hlu] at h
            cases vl with
            | str s =>
              dsimp only at h
              by_cases h2 : (pyStrip s.data).isEmpty = true
              · rw [if_pos h2] at h; exact Except.noConfusion h
              · rw [if_neg h2] at h
                by_cases h3 : containsPlaceholder (pyStripS s) = true
                · rw [if_pos h3] at h; exact Except.noConfusion h
                · rw [if_neg h3] at h
                  by_cases h4 : reFullmatch dateRE (pyStripS s).data = true
                  · rw [if_neg (by simp [h4])] at h
                    have : out = (clean, pyStripS s) := by cases h; rfl
                    subst this
                    exact ⟨parseSources_trimmed items 0 clean hclean, trimmed_pyStripS s⟩
                  · rw [if_pos (by simp [h4])] at h
                    exact Except.noConfusion h
            | list l => exact Except.noConfusion h
            | dict l => exact Except.noConfusion h
            | other => exact Except.noConfusion h
      | str s => exact Except.noConfusion h
      | dict l => exact Except.noConfusion h
      | other => exact Except.noConfusion h
  | str s => exact Except.noConfusion h
  | list l => exact Except.noConfusion h
  | other => exact Except.noConfusion h

/-- C10: every string stored in a validated card is trimmed of leading and
trailing whitespace. -/
theorem claim_C10 (raw : Value) (card : ConceptCard)
    (h : validate_conceptcard raw = .ok card) :
    Trimmed card.id ∧ Trimmed card.title ∧ Trimmed card.last_updated ∧
    (∀ s ∈ card.summary, Trimmed s) ∧ (∀ s ∈ card.core_mechanics, Trimmed s) ∧
    (∀ s ∈ card.misconceptions, Trimmed s) ∧ (∀ s ∈ card.non_goals, Trimmed s) ∧
    (∀ s ∈ card.sources, Trimmed s) ∧
    ∀ e ∈ card.examples, Trimmed e.scenario ∧ Trimmed e.explanation := by
  obtain ⟨d, -, hid, htitle, -, -, hsum, hcm, hmis, hng, hex, -, hmeta, -, -⟩ :=
    validate_ok_inv h
  have hm := require_metadata_trimmed hmeta
  exact ⟨require_str_trimmed hid, require_str_trimmed htitle, hm.2,
    require_list_trimmed hsum, require_list_trimmed hcm, require_list_trimmed hmis,
    require_list_trimmed hng, hm.1, require_examples_trimmed hex⟩

theorem claim_C10_witness :
    Trimmed sampleCard.id ∧ Trimmed sampleCard.title ∧ Trimmed sampleCard.last_updated ∧
    (∀ s ∈ sampleCard.summary, Trimmed s) ∧ (∀ s ∈ sampleCard.core_mechanics, Trimmed s) ∧
    (∀ s ∈ sampleCard.misconceptions, Trimmed s) ∧ (∀ s ∈ sampleCard.non_goals, Trimmed s) ∧
    (∀ s ∈ sampleCard.sources, Trimmed s) ∧
    ∀ e ∈ sampleCard.examples, Trimmed e.scenario ∧ Trimmed e.explanation :=
  claim_C10 (Value.dict sampleFields) sampleCard sample_validates

/-- The id a raw record validates to (empty string when validation fails);
used to state the duplicate-id behaviour of the corpus validator. -/
def validatedId (r : Value) : String :=
  match validate_conceptcard r with
  | .ok c => c.id
  | .error _ => ""

theorem isOk_exists {e a : Type} {x : Except e a} (h : exceptIsOk x = true) :
    ∃ v, x = .ok v := by
  cases x with
  | ok v => exact ⟨v, rfl⟩
  | error err => simp [exceptIsOk] at h

theorem validatedId_ok {r : Value} {card : ConceptCard}
    (h : validate_conceptcard r = .ok card) : validatedId r = card.id := by
  simp [validatedId, h]

theorem go_cons {seen : List String} {r : Value} {rest : List Value} {card : ConceptCard}
    (hcard : validate_conceptcard r = .ok card) :
    validateAllGo seen (r :: rest) =
      if card.id ∈ seen then .error ("Duplicate ConceptCard id detected: " ++ card.id)
      else (validateAllGo (card.id :: seen) rest) >>= (fun out => pure (card :: out)) := by
  conv_lhs => rw [validateAllGo]
  rw [hcard]
  rfl

theorem go_cons_err {seen : List String} {r : Value} {rest : List Value} {e : String}
    (herr : validate_conceptcard r = .error e) :
    validateAllGo seen (r :: rest) = .error e := by
  conv_lhs => rw [validateAllGo]
  rw [herr]
  rfl

theorem goA : ∀ (raws : List Value) (seen : List String),
    (∀ r ∈ raws, exceptIsOk (validate_conceptcard r) = true) →
    (raws.map validatedId).Nodup →
    (∀ x ∈ raws.map validatedId, x ∉ seen) →
    ∃ cards, validateAllGo seen raws = .ok cards ∧
      List.Forall₂ (fun r c => validate_conceptcard r = .ok c) raws cards := by
  intro raws
  induction raws with
  | nil => intro seen _ _ _; exact ⟨[], rfl, List.Forall₂.nil⟩
  | cons r rest ih =>
    intro seen hok hnd hseen
    obtain ⟨card, hcard⟩ := isOk_exists (hok r (List.mem_cons_self r rest))
    have hvid : validatedId r = card.id := validatedId_ok hcard
    have hnotin : card.id ∉ seen := by
      rw [← hvid]
      exact hseen (validatedId r) (by simp)
    rw [List.map_cons] at hnd hseen
    have hndtail : (rest.map validatedId).Nodup := (List.nodup_cons.mp hnd).2
    have hheadnot : validatedId r ∉ rest.map validatedId := (List.nodup_cons.mp hnd).1
    obtain ⟨cards, hgo, hfa⟩ := ih (card.id :: seen)
      (fun x hx => hok x (List.mem_cons_of_mem r hx)) hndtail
      (by
        intro x hx hxin
        rcases List.mem_cons.mp hxin with hx1 | hx1
        · rw [hx1, ← hvid] at hx
          exact hheadnot hx
        · exact hseen x (List.mem_cons_of_mem _ hx) hx1)
    refine ⟨card :: cards, ?_, List.Forall₂.cons hcard hfa⟩
    rw [go_cons hcard, if_neg hnotin, hgo]
    rfl

theorem goB : ∀ (raws : List Value) (seen : List String) (j : Nat) (hj : j < raws.length),
    (∀ r ∈ raws, exceptIsOk (validate_conceptcard r) = true) →
    ((raws.take j).map validatedId).Nodup →
    (∀ x ∈ (raws.take j).map validatedId, x ∉ seen) →
    (validatedId (raws.get ⟨j, hj⟩) ∈ seen ∨
      validatedId (raws.get ⟨j, hj⟩) ∈ (raws.take j).map validatedId) →
    validateAllGo seen raws =
      .error ("Duplicate ConceptCard id detected: " ++ validatedId (raws.get ⟨j, hj⟩)) := by
  intro raws
  induction raws with
  | nil => intro seen j hj; simp at hj
  | cons r rest ih =>
    intro seen j hj hok hnd hseen hdup
    obtain ⟨card, hcard⟩ := isOk_exists (hok r (List.mem_cons_self r rest))
    have hvid : validatedId r = card.id := validatedId_ok hcard
    cases j with
    | zero =>
      simp only [List.take_zero, List.map_nil, List.not_mem_nil, or_false] at hdup
      have hget : (r :: rest).get ⟨0, hj⟩ = r := rfl
      rw [hget] at hdup ⊢
      rw [go_cons hcard, if_pos (hvid ▸ hdup), hvid]
    | succ j' =>
      have hj' : j' < rest.length := by simpa using hj
      have hget : (r :: rest).get ⟨j' + 1, hj⟩ = rest.get ⟨j', hj'⟩ := rfl
      rw [List.take_succ_cons, List.map_cons] at hnd hseen hdup
      have hrnot : validatedId r ∉ seen := hseen (validatedId r) (by simp)
      have hndtail := (List.nodup_cons.mp hnd).2
      have hheadnot := (List.nodup_cons.mp hnd).1
      rw [hget] at hdup ⊢
      rw [go_cons hcard, if_neg (hvid ▸ hrnot)]
      have hrec := ih (card.id :: seen) j' hj'
        (fun x hx => hok x (List.mem_cons_of_mem r hx)) hndtail
        (by
          intro x hx hxin
          rcases List.mem_cons.mp hxin with hx1 | hx1
          · rw [hx1, ← hvid] at hx
            exact hheadnot hx
          · exact hseen x (List.mem_cons_of_mem _ hx) hx1)
        (by
          rcases hdup with hd | hd
          · left; exact List.mem_cons_of_mem _ hd
          · rcases List.mem_cons.mp hd with hd1 | hd1
            · left; rw [hd1, hvid]; exact List.mem_cons_self _ _
            · right; exact hd1)
      rw [hrec]
      rfl

theorem goC : ∀ (raws : List Value) (seen : List String),
    (∃ r ∈ raws, exceptIsOk (validate_conceptcard r) = false) →
    exceptIsOk (validateAllGo seen raws) = false := by
  intro raws
  induction raws with
  | nil => intro seen h; simp at h
  | cons r rest ih =>
    intro seen h
    cases hval : validate_conceptcard r with
    | error e => rw [go_cons_err hval]; rfl
    | ok card =>
      have hrest : ∃ x ∈ rest, exceptIsOk (validate_conceptcard x) = false := by
        obtain ⟨x, hx, hxf⟩ := h
        rcases List.mem_cons.mp hx with hx1 | hx1
        · rw [hx1, hval] at hxf
          exact absurd hxf (by simp [exceptIsOk])
        · exact ⟨x, hx1, hxf⟩
      rw [go_cons hval]
      by_cases hin : card.id ∈ seen
      · rw [if_pos hin]; rfl
      · rw [if_neg hin]
        have := ih (card.id :: seen) hrest
        cases hgo : validateAllGo (card.id :: seen) rest with
        | error e => rfl
        | ok cards => rw [hgo] at this; exact absurd this (by simp [exceptIsOk])

/-- C6: the corpus validator returns the validated cards in input order when
all records are valid with distinct ids; with all records valid it raises on
the first duplicated id in input order; and any single record failure makes
the whole batch fail with no list returned. -/
theorem claim_C6 (raws : List Value) :
    ((∀ r ∈ raws, exceptIsOk (validate_conceptcard r) = true) →
      (raws.map validatedId).Nodup →
      ∃ cards, validate_all_conceptcards raws = .ok cards ∧
        List.Forall₂ (fun r c => validate_conceptcard r = .ok c) raws cards) ∧
    (∀ (j : Nat) (hj : j < raws.length),
      (∀ r ∈ raws, exceptIsOk (validate_conceptcard r) = true) →
      ((raws.take j).map validatedId).Nodup →
      validatedId (raws.get ⟨j, hj⟩) ∈ (raws.take j).map validatedId →
      validate_all_conceptcards raws =
        .error ("Duplicate ConceptCard id detected: " ++ validatedId (raws.get ⟨j, hj⟩))) ∧
    ((∃ r ∈ raws, exceptIsOk (validate_conceptcard r) = false) →
      exceptIsOk (validate_all_conceptcards raws) = false) := by
  refine ⟨?_, ?_, ?_⟩
  · intro hok hnd
    exact goA raws [] hok hnd (by simp)
  · intro j hj hok hnd hdup
    exact goB raws [] j hj hok hnd (by simp) (Or.inr hdup)
  · intro h
    exact goC raws [] h

def sampleFields2 : List (String × Value) :=
  [("id", Value.str "index_funds"), ("title", Value.str "Index Funds"),
   ("category", Value.str "investing"), ("difficulty", Value.str "beginner"),
   ("summary", Value.list [Value.str "Broad market exposure."]),
   ("core_mechanics", Value.list [Value.str "Track an index."]),
   ("misconceptions", Value.list [Value.str "They never lose value."]),
   ("non_goals", Value.list [Value.str "No product recommendation."]),
   ("examples", Value.list []),
   ("safety", Value.dict [
     ("allowed_intents", Value.list [Value.str "definition_lookup"]),
     ("forbidden_intents", Value.list [Value.str "personal_advice",
       Value.str "product_recommendation"])]),
   ("metadata", Value.dict [
     ("sources", Value.list [Value.str "handbook"]),
     ("last_updated", Value.str "2024-02-02")])]

theorem claim_C6_witness :
    (∃ cards, validate_all_conceptcards [Value.dict sampleFields, Value.dict sampleFields2]
        = .ok cards ∧
      List.Forall₂ (fun r c => validate_conceptcard r = .ok c)
        [Value.dict sampleFields, Value.dict sampleFields2] cards) ∧
    exceptIsOk (validate_all_conceptcards [Value.dict sampleFields, Value.other]) = false :=
  ⟨(claim_C6 [Value.dict sampleFields, Value.dict sampleFields2]).1
      (by decide) (by decide),
   (claim_C6 [Value.dict sampleFields, Value.other]).2.2
      ⟨Value.other, by simp, by decide⟩⟩

theorem require_key_inv {d : List (String × Value)} {cardId key : String} {v : Value}
    (h : _require_key d cardId key = .ok v) : dictGet d key = some v := by
  unfold _require_key at h
  cases hg : dictGet d key with
  | some w => rw [hg] at h; injection h with h1; rw [h1]
  | none => rw [hg] at h; exact Except.noConfusion h

theorem require_list_inv {d : List (String × Value)} {cardId key : String}
    {n : Nat} {out : List String}
    (h : _require_list_of_str d cardId key n = .ok out) :
    ∃ items, dictGet d key = some (Value.list items) := by
  unfold _require_list_of_str at h
  obtain ⟨v, hv, h⟩ := bind_ok h
  cases v with
  | list items => exact ⟨items, require_key_inv hv⟩
  | str s => dsimp only at h; exact Except.noConfusion h
  | dict pairs => dsimp only at h; exact Except.noConfusion h
  | other => dsimp only at h; exact Except.noConfusion h

/-- C9 (corrected): every record on which validate_conceptcard succeeds has a
non_goals list whose lowercased space-joined string elements contain one of
the stems "advice", "recommend", "optimiz", "personal", "product"; and a
record whose non_goals list text contains none of the stems never validates.
(The original claim further asserted that such a record fails with an error
naming non_goals; that is false when an earlier check fails first — see the
counterexample, where the error addresses the missing title instead.) -/
theorem claim_C9 (d : List (String × Value)) :
    (∀ card, validate_conceptcard (Value.dict d) = .ok card →
      ∃ items, dictGet d "non_goals" = some (Value.list items) ∧
        ∃ term ∈ advTerms, occursB term.data (pyLower (joinSp (strOnly items))) = true) ∧
    (∀ items, dictGet d "non_goals" = some (Value.list items) →
      hasAdvTerm (pyLower (joinSp (strOnly items))) = false →
      ∀ card, validate_conceptcard (Value.dict d) ≠ .ok card) := by
  constructor
  · intro card h
    obtain ⟨d', hd', rest⟩ := validate_ok_inv h
    have hde : d = d' := by injection hd'
    subst hde
    obtain ⟨-, -, -, -, -, -, -, hng, -, -, -, hheur, -⟩ := rest
    obtain ⟨items, hitems⟩ := require_list_inv hng
    have hterm := (heuristics_ok_inv hheur).2.1 items hitems
    rw [hasAdvTerm, List.any_eq_true] at hterm
    obtain ⟨term, htm, hocc⟩ := hterm
    exact ⟨items, hitems, term, htm, hocc⟩
  · intro items hitems hfalse card h
    obtain ⟨d', hd', rest⟩ := validate_ok_inv h
    have hde : d = d' := by injection hd'
    subst hde
    obtain ⟨-, -, -, -, -, -, -, -, -, -, -, hheur, -⟩ := rest
    have hterm := (heuristics_ok_inv hheur).2.1 items hitems
    rw [hterm] at hfalse
    exact Bool.noConfusion hfalse

/-- Record whose non_goals text has no advice-blocking stem but whose title is
missing: validation fails on the title, so the error does not mention
non_goals, refuting the error-addressing half of the original C9. -/
def cexFields9 : List (String × Value) :=
  [("id", Value.str "a"), ("non_goals", Value.list [Value.str "unrelated text"])]

theorem claim_C9_counterexample :
    (∃ items, dictGet cexFields9 "non_goals" = some (Value.list items) ∧
      hasAdvTerm (pyLower (joinSp (strOnly items))) = false) ∧
    ∃ e, validate_conceptcard (Value.dict cexFields9) = .error e ∧
      occursB "non_goals".data e.data = false := by
  refine ⟨⟨[Value.str "unrelated text"], rfl, by decide⟩, ?_⟩
  exact ⟨mkErr "a" "title" "missing required field", by rfl, by decide⟩

theorem claim_C9_witness :
    (∃ items, dictGet sampleFields "non_goals" = some (Value.list items) ∧
      ∃ term ∈ advTerms, occursB term.data (pyLower (joinSp (strOnly items))) = true) ∧
    (∀ card, validate_conceptcard (Value.dict cexFields9) ≠ .ok card) :=
  ⟨(claim_C9 sampleFields).1 sampleCard sample_validates,
   fun card => (claim_C9 cexFields9).2 [Value.str "unrelated text"] rfl (by decide) card⟩

theorem lastC_wordB {p1 p2 : Option Char} (h : wordB p1 = wordB p2) (l : List Char) :
    wordB (lastC p1 l) = wordB (lastC p2 l) := by
  unfold lastC
  cases l.getLast? with
  | some c => rfl
  | none => exact h

/-- The matcher depends on the preceding character only through its
wordness. -/
theorem m_wordB : ∀ (re : RE) (p1 p2 : Option Char), wordB p1 = wordB p2 →
    ∀ s, re.m p1 s = re.m p2 s := by
  intro re
  induction re with
  | eps => intro p1 p2 h s; rfl
  | tok p => intro p1 p2 h s; rfl
  | starTok p => intro p1 p2 h s; rfl
  | bnd =>
    intro p1 p2 h s
    show (if atBoundary p1 s then _ else _) = (if atBoundary p2 s then _ else _)
    rw [show atBoundary p1 s = atBoundary p2 s from by unfold atBoundary; rw [h]]
  | seq a b iha ihb =>
    intro p1 p2 h s
    show (a.m p1 s).flatMap _ = (a.m p2 s).flatMap _
    rw [← iha p1 p2 h s]
    apply List.flatMap_congr
    intro tr _
    rw [ihb (lastC p1 tr.1) (lastC p2 tr.1) (lastC_wordB h tr.1) tr.2]
  | alt a b iha ihb =>
    intro p1 p2 h s
    show a.m p1 s ++ b.m p1 s = a.m p2 s ++ b.m p2 s
    rw [iha p1 p2 h s, ihb p1 p2 h s]

theorem wbHead_append_ne {r w : List Char} (hr : r ≠ []) :
    wbHead (r ++ w) = wbHead r := by
  cases r with
  | nil => exact absurd rfl hr
  | cons c l => rfl

/-- A match extends over appended trailing text, provided the wordness seen
just after the remainder is unchanged. -/
theorem m_ext : ∀ (re : RE) (prev : Option Char) (s w t r : List Char),
    (t, r) ∈ re.m prev s → wbHead (r ++ w) = wbHead r →
    (t, r ++ w) ∈ re.m prev (s ++ w) := by
  intro re
  induction re with
  | eps =>
    intro prev s w t r h hw
    obtain ⟨ht, hr⟩ := (mem_m_eps prev s t r).mp h
    subst ht
    rw [hr]
    exact (mem_m_eps prev (s ++ w) [] (s ++ w)).mpr ⟨rfl, rfl⟩
  | alt a b iha ihb =>
    intro prev s w t r h hw
    rcases (mem_m_alt a b prev s t r).mp h with h1 | h1
    · exact (mem_m_alt a b prev (s ++ w) t (r ++ w)).mpr (Or.inl (iha _ _ _ _ _ h1 hw))
    · exact (mem_m_alt a b prev (s ++ w) t (r ++ w)).mpr (Or.inr (ihb _ _ _ _ _ h1 hw))
  | tok p =>
    intro prev s w t r h hw
    obtain ⟨c, hs, hp, ht⟩ := (mem_m_tok p prev s t r).mp h
    subst hs; subst ht
    exact (mem_m_tok p prev ((c :: r) ++ w) [c] (r ++ w)).mpr ⟨c, rfl, hp, rfl⟩
  | starTok p =>
    intro prev s w t r h hw
    obtain ⟨hs, hall⟩ := (mem_m_star p prev s t r).mp h
    exact (mem_m_star p prev (s ++ w) t (r ++ w)).mpr
      ⟨by rw [hs, List.append_assoc], hall⟩
  | bnd =>
    intro prev s w t r h hw
    obtain ⟨hb, ht, hr⟩ := (mem_m_bnd prev s t r).mp h
    subst ht; subst hr
    refine (mem_m_bnd prev (r ++ w) [] (r ++ w)).mpr ⟨?_, rfl, rfl⟩
    unfold atBoundary at hb ⊢
    rw [hw]
    exact hb
  | seq a b iha ihb =>
    intro prev s w t r h hw
    obtain ⟨t1, r1, t2, h1, h2, ht⟩ := (mem_m_seq a b prev s t r).mp h
    have hr1 : r1 = t2 ++ r := m_decomp b (lastC prev t1) r1 t2 r h2
    have h2' : (t2, r ++ w) ∈ b.m (lastC prev t1) (r1 ++ w) := ihb _ _ _ _ _ h2 hw
    have hcond : wbHead (r1 ++ w) = wbHead r1 := by
      cases ht2 : t2 with
      | nil => rw [hr1, ht2, List.nil_append]; exact hw
      | cons c l =>
        rw [hr1, ht2, List.cons_append, List.cons_append]
        rfl
    have h1' : (t1, r1 ++ w) ∈ a.m prev (s ++ w) := iha _ _ _ _ _ h1 hcond
    exact (mem_m_seq a b prev (s ++ w) t (r ++ w)).mpr ⟨t1, r1 ++ w, t2, h1', h2', ht⟩

theorem searchAux_wordB (re : RE) : ∀ (l : List Char) (p1 p2 : Option Char),
    wordB p1 = wordB p2 → searchAux re p1 l = searchAux re p2 l := by
  intro l
  induction l with
  | nil =>
    intro p1 p2 h
    simp only [searchAux]
    rw [m_wordB re p1 p2 h]
  | cons c rest ih =>
    intro p1 p2 h
    simp only [searchAux]
    rw [m_wordB re p1 p2 h]

theorem search_of_at (re : RE) : ∀ (a b : List Char) (prev : Option Char),
    re.m (lastC prev a) b ≠ [] → searchAux re prev (a ++ b) = true := by
  intro a
  induction a with
  | nil =>
    intro b prev h
    rw [lastC_nil] at h
    cases b with
    | nil =>
      simp only [List.nil_append, searchAux]
      simpa using h
    | cons c rest =>
      simp only [List.nil_append, searchAux, Bool.or_eq_true]
      left
      simpa using h
  | cons c a' ih =>
    intro b prev h
    rw [lastC_cons] at h
    simp only [List.cons_append, searchAux, Bool.or_eq_true]
    right
    exact ih b (some c) h

theorem search_elim (re : RE) : ∀ (s : List Char) (prev : Option Char),
    searchAux re prev s = true →
    ∃ a b, s = a ++ b ∧ re.m (lastC prev a) b ≠ [] := by
  intro s
  induction s with
  | nil =>
    intro prev h
    refine ⟨[], [], rfl, ?_⟩
    simp only [searchAux] at h
    simpa using h
  | cons c rest ih =>
    intro prev h
    simp only [searchAux, Bool.or_eq_true] at h
    rcases h with h1 | h1
    · exact ⟨[], c :: rest, rfl, by simpa using h1⟩
    · obtain ⟨a, b, heq, hm⟩ := ih (some c) h1
      refine ⟨c :: a, b, by rw [heq, List.cons_append], ?_⟩
      rw [lastC_cons]
      exact hm

/-- A whitespace-only prefix or suffix never hides a regex match: searching
the stripped text succeeds only if searching the full text does. -/
theorem strip_transfer (re : RE) (l : List Char)
    (h : reSearch re (pyStrip l) = true) : reSearch re l = true := by
  obtain ⟨lead, trail, hdec, hlead, htrail⟩ := pyStrip_decomp l
  obtain ⟨a, b, hsplit, hm⟩ := search_elim re (pyStrip l) none h
  obtain ⟨⟨t0, r0⟩, hmem⟩ := List.exists_mem_of_ne_nil _ hm
  have hcond : wbHead (r0 ++ trail) = wbHead r0 := by
    cases hr0 : r0 with
    | nil =>
      rw [List.nil_append]
      cases htr : trail with
      | nil => rfl
      | cons x xs =>
        show isWordChar x = false
        exact ws_not_word (htrail x (htr ▸ List.mem_cons_self x xs))
    | cons x xs => rfl
  have hext : (t0, r0 ++ trail) ∈ re.m (lastC none a) (b ++ trail) :=
    m_ext re (lastC none a) b trail t0 r0 hmem hcond
  have hwb : wordB (lastC none (lead ++ a)) = wordB (lastC none a) := by
    cases ha : a with
    | nil =>
      rw [List.append_nil, lastC_nil]
      unfold lastC
      cases hg : lead.getLast? with
      | none => rfl
      | some x =>
        show isWordChar x = false
        exact ws_not_word (hlead x (mem_of_getLastSome hg))
    | cons x xs =>
      unfold lastC
      rw [getLast?_append_ne (List.cons_ne_nil x xs)]
  have hm2 : re.m (lastC none (lead ++ a)) (b ++ trail) ≠ [] := by
    rw [m_wordB re _ _ hwb]
    intro habs
    rw [habs] at hext
    simp at hext
  have := search_of_at re (lead ++ a) (b ++ trail) none hm2
  have heq : l = (lead ++ a) ++ (b ++ trail) := by
    rw [hdec, hsplit]
    simp [List.append_assoc]
  rw [reSearch, heq]
  exact this

theorem startsWithB_iff : ∀ (t s : List Char), startsWithB t s = true ↔ ∃ r, s = t ++ r := by
  intro t
  induction t with
  | nil => intro s; simp [startsWithB]
  | cons c t' ih =>
    intro s
    cases s with
    | nil => simp [startsWithB]
    | cons d s' =>
      simp only [startsWithB, Bool.and_eq_true, decide_eq_true_eq, ih s']
      constructor
      · rintro ⟨hcd, r, hr⟩
        refine ⟨r, ?_⟩
        rw [hcd, hr, List.cons_append]
      · rintro ⟨r, hr⟩
        obtain ⟨h1, h2⟩ := List.cons.injEq .. ▸ hr
        exact ⟨h1.symm, r, h2⟩

theorem occursB_iff : ∀ (s t : List Char), occursB t s = true ↔ OccursIn t s := by
  intro s
  induction s with
  | nil =>
    intro t
    simp only [occursB, List.isEmpty_iff, OccursIn]
    constructor
    · intro h; exact ⟨[], [], by rw [h]; rfl⟩
    · rintro ⟨u, v, huv⟩
      have := huv.symm
      rw [List.append_eq_nil, List.append_eq_nil] at this
      exact this.1.2
  | cons c rest ih =>
    intro t
    simp only [occursB, Bool.or_eq_true, startsWithB_iff, ih]
    constructor
    · rintro (⟨r, hr⟩ | ⟨u, v, huv⟩)
      · exact ⟨[], r, by rw [hr, List.nil_append]⟩
      · exact ⟨c :: u, v, by rw [huv, List.cons_append, List.cons_append]⟩
    · rintro ⟨u, v, huv⟩
      cases u with
      | nil =>
        left
        exact ⟨v, by simpa using huv⟩
      | cons d u' =>
        right
        rw [List.cons_append, List.cons_append] at huv
        obtain ⟨h1, h2⟩ := List.cons.injEq .. ▸ huv
        exact ⟨u', v, h2⟩

theorem occ_cons_ws {t rest : List Char} {c : Char} (hc : wsChar c = true)
    (hne : t ≠ []) (hnws : ∀ x ∈ t, wsChar x = false)
    (h : OccursIn t (c :: rest)) : OccursIn t rest := by
  obtain ⟨u, v, huv⟩ := h
  cases u with
  | nil =>
    rw [List.nil_append] at huv
    cases t with
    | nil => exact absurd rfl hne
    | cons x t' =>
      obtain ⟨h1, _⟩ := List.cons.injEq .. ▸ huv
      have := hnws x (List.mem_cons_self x t')
      rw [h1] at hc
      rw [this] at hc
      exact Bool.noConfusion hc
  | cons d u' =>
    rw [List.cons_append, List.cons_append] at huv
    obtain ⟨_, h2⟩ := List.cons.injEq .. ▸ huv
    exact ⟨u', v, by rw [h2, List.append_assoc]⟩

theorem occ_drop_lead : ∀ (lead rest t : List Char), (∀ c ∈ lead, wsChar c = true) →
    t ≠ [] → (∀ x ∈ t, wsChar x = false) →
    OccursIn t (lead ++ rest) → OccursIn t rest := by
  intro lead
  induction lead with
  | nil => intro rest t _ _ _ h; simpa using h
  | cons c lead' ih =>
    intro rest t hws hne hnws h
    rw [List.cons_append] at h
    exact ih rest t (fun x hx => hws x (List.mem_cons_of_mem c hx)) hne hnws
      (occ_cons_ws (hws c (List.mem_cons_self c lead')) hne hnws h)

theorem OccursIn.rev {t s : List Char} (h : OccursIn t s) :
    OccursIn t.reverse s.reverse := by
  obtain ⟨u, v, huv⟩ := h
  exact ⟨v.reverse, u.reverse, by rw [huv]; simp⟩

theorem occ_drop_trail {rest trail t : List Char} (hws : ∀ c ∈ trail, wsChar c = true)
    (hne : t ≠ []) (hnws : ∀ x ∈ t, wsChar x = false)
    (h : OccursIn t (rest ++ trail)) : OccursIn t rest := by
  have hrev := h.rev
  rw [List.reverse_append] at hrev
  have hres := occ_drop_lead trail.reverse rest.reverse t.reverse
    (fun c hc => hws c (List.mem_reverse.mp hc))
    (by simpa using hne)
    (fun x hx => hnws x (List.mem_reverse.mp hx)) hrev
  have := hres.rev
  simpa using this

theorem occ_strip {t l : List Char} (hne : t ≠ []) (hnws : ∀ x ∈ t, wsChar x = false)
    (h : OccursIn t l) : OccursIn t (pyStrip l) := by
  obtain ⟨lead, trail, hdec, hlead, htrail⟩ := pyStrip_decomp l
  rw [hdec] at h
  have h1 : OccursIn t (pyStrip l ++ trail) := occ_drop_lead lead _ t hlead hne hnws h
  exact occ_drop_trail htrail hne hnws h1

/-- A whitespace-free token occurring around a whitespace separator lies
entirely on one side of it. -/
theorem occ_split_sep {t a b : List Char} {sep : Char} (hsep : wsChar sep = true)
    (hne : t ≠ []) (hnws : ∀ x ∈ t, wsChar x = false)
    (h : OccursIn t (a ++ sep :: b)) : OccursIn t a ∨ OccursIn t b := by
  obtain ⟨u, v, huv⟩ := h
  have hsepnot : ∀ x ∈ t, ¬(x = sep) := by
    intro x hx hxe
    have := hnws x hx
    rw [hxe, hsep] at this
    exact Bool.noConfusion this
  rw [List.append_assoc] at huv
  rcases List.append_eq_append_iff.mp huv with ⟨w, hu, hw⟩ | ⟨w, ha, hw⟩
  · right
    cases w with
    | nil =>
      rw [List.nil_append] at hw
      cases t with
      | nil => exact absurd rfl hne
      | cons x t' =>
        rw [List.cons_append] at hw
        obtain ⟨h1, _⟩ := List.cons.injEq .. ▸ hw
        exact absurd h1.symm (hsepnot x (List.mem_cons_self x t'))
    | cons w0 w' =>
      rw [List.cons_append] at hw
      obtain ⟨_, h2⟩ := List.cons.injEq .. ▸ hw
      exact ⟨w', v, by rw [h2, ← List.append_assoc]⟩
  · left
    rcases List.append_eq_append_iff.mp hw with ⟨w2, hww, hv⟩ | ⟨c2, ht, hcb⟩
    · exact ⟨u, w2, by rw [ha, hww, List.append_assoc]⟩
    · cases c2 with
      | nil =>
        rw [List.append_nil] at ht
        exact ⟨u, [], by rw [List.append_nil, ha, ht]⟩
      | cons x0 x2 =>
        rw [List.cons_append] at hcb
        obtain ⟨h1, _⟩ := List.cons.injEq .. ▸ hcb
        have hx0t : x0 ∈ t := by
          rw [ht]
          exact List.mem_append_right w (List.mem_cons_self x0 x2)
        exact absurd h1.symm (hsepnot x0 hx0t)

theorem occ_join : ∀ (strs : List String) (s : String) (t : List Char), s ∈ strs →
    OccursIn t s.data → OccursIn t (joinSp strs) := by
  intro strs
  induction strs with
  | nil => intro s t hs _; simp at hs
  | cons s0 rest ih =>
    intro s t hs hocc
    rcases List.mem_cons.mp hs with h1 | h1
    · subst h1
      cases rest with
      | nil => exact hocc
      | cons r1 rs =>
        show OccursIn t (s.data ++ ' ' :: joinSp (r1 :: rs))
        obtain ⟨u, v, huv⟩ := hocc
        exact ⟨u, v ++ ' ' :: joinSp (r1 :: rs), by rw [huv]; simp [List.append_assoc]⟩
    · cases rest with
      | nil => simp at h1
      | cons r1 rs =>
        have hrec := ih s t h1 hocc
        show OccursIn t (s0.data ++ ' ' :: joinSp (r1 :: rs))
        obtain ⟨u, v, huv⟩ := hrec
        exact ⟨s0.data ++ ' ' :: u, v, by rw [huv]; simp [List.append_assoc]⟩

theorem joinSp_split : ∀ (strs : List String) (t : List Char), t ≠ [] →
    (∀ x ∈ t, wsChar x = false) → OccursIn t (joinSp strs) →
    ∃ s ∈ strs, OccursIn t s.data := by
  intro strs
  induction strs with
  | nil =>
    intro t hne _ h
    obtain ⟨u, v, huv⟩ := h
    have huv2 : u ++ t ++ v = ([] : List Char) := huv.symm
    rw [List.append_eq_nil, List.append_eq_nil] at huv2
    exact absurd huv2.1.2 hne
  | cons s0 rest ih =>
    intro t hne hnws h
    cases rest with
    | nil => exact ⟨s0, List.mem_cons_self s0 [], h⟩
    | cons r1 rs =>
      have h' : OccursIn t (s0.data ++ ' ' :: joinSp (r1 :: rs)) := h
      rcases occ_split_sep (by decide) hne hnws h' with hl | hr
      · exact ⟨s0, List.mem_cons_self s0 _, hl⟩
      · obtain ⟨s, hs, hocc⟩ := ih t hne hnws hr
        exact ⟨s, List.mem_cons_of_mem s0 hs, hocc⟩

theorem wsChar_lowerChar (c : Char) : wsChar (lowerChar c) = wsChar c := by
  unfold lowerChar
  by_cases h : isUpperAZ c = true
  · rw [if_pos h]
    have h1 : (65 : Nat) ≤ c.toNat := of_decide_eq_true ((Bool.and_eq_true _ _).mp h).1
    have h2 : c.toNat ≤ (90 : Nat) := of_decide_eq_true ((Bool.and_eq_true _ _).mp h).2
    set n := c.toNat with hn
    interval_cases n <;>
      (rw [show c = Char.ofNat c.toNat from (Char.ofNat_toNat c).symm, ← hn]; decide)
  · rw [if_neg h]

/-- Lowercasing commutes with stripping: whitespace status is preserved by
lowering. -/
theorem pyStrip_pyLower (l : List Char) : pyStrip (pyLower l) = pyLower (pyStrip l) := by
  have hws : (wsChar ∘ lowerChar) = wsChar := funext wsChar_lowerChar
  unfold pyStrip pyLower
  rw [List.dropWhile_map, hws, ← List.map_reverse, List.dropWhile_map, hws,
    ← List.map_reverse]

/-- The lowercased form of a string. -/
def lowerS (s : String) : String := String.mk (pyLower s.data)

theorem pyLower_joinSp : ∀ (strs : List String),
    pyLower (joinSp strs) = joinSp (strs.map lowerS) := by
  intro strs
  induction strs with
  | nil => rfl
  | cons s0 rest ih =>
    cases rest with
    | nil => rfl
    | cons r1 rs =>
      show pyLower (s0.data ++ ' ' :: joinSp (r1 :: rs)) =
        (lowerS s0).data ++ ' ' :: joinSp ((r1 :: rs).map lowerS)
      unfold pyLower
      rw [List.map_append, List.map_cons]
      rw [show lowerChar ' ' = ' ' from rfl]
      rw [show (List.map lowerChar (joinSp (r1 :: rs))) = pyLower (joinSp (r1 :: rs)) from rfl,
        ih]
      rfl

theorem advTerm_facts {term : String} (h : term ∈ advTerms) :
    term.data ≠ [] ∧ ∀ x ∈ term.data, wsChar x = false := by
  have h5 : term = "advice" ∨ term = "recommend" ∨ term = "optimiz" ∨
      term = "personal" ∨ term = "product" := by simpa [advTerms] using h
  rcases h5 with h1 | h1 | h1 | h1 | h1 <;> (subst h1; exact ⟨by decide, by decide⟩)

/-- Stripping the joined strings cannot remove an advice-blocking stem. -/
theorem hasAdvTerm_strip {strs : List String}
    (h : hasAdvTerm (pyLower (joinSp strs)) = true) :
    hasAdvTerm (pyLower (joinSp (strs.map pyStripS))) = true := by
  unfold hasAdvTerm at h ⊢
  rw [List.any_eq_true] at h ⊢
  obtain ⟨term, htm, hocc⟩ := h
  obtain ⟨hne, hnws⟩ := advTerm_facts htm
  rw [occursB_iff, pyLower_joinSp] at hocc
  obtain ⟨ls, hls, hocc2⟩ := joinSp_split (strs.map lowerS) term.data hne hnws hocc
  obtain ⟨s, hs, hlseq⟩ := List.mem_map.mp hls
  rw [← hlseq] at hocc2
  have hocc3 : OccursIn term.data (pyLower s.data) := hocc2
  have hocc4 : OccursIn term.data (pyStrip (pyLower s.data)) := occ_strip hne hnws hocc3
  rw [pyStrip_pyLower] at hocc4
  have hocc5 : OccursIn term.data (lowerS (pyStripS s)).data := hocc4
  refine ⟨term, htm, ?_⟩
  rw [occursB_iff, pyLower_joinSp]
  exact occ_join ((strs.map pyStripS).map lowerS) (lowerS (pyStripS s)) term.data
    (List.mem_map_of_mem lowerS (List.mem_map_of_mem pyStripS hs)) hocc5

/-- A string in the form validation stores it: equal to its own strip,
non-empty after stripping, and free of placeholder markup. -/
def CanonStr (s : String) : Prop :=
  Trimmed s ∧ (pyStrip s.data).isEmpty = false ∧ containsPlaceholder s = false

theorem contains_strip {s : String} (h : containsPlaceholder s = false) :
    containsPlaceholder (pyStripS s) = false := by
  cases hc : containsPlaceholder (pyStripS s) with
  | false => rfl
  | true =>
    have h1 : reSearch placeholderRE (pyStrip s.data) = true := hc
    have h2 := strip_transfer placeholderRE s.data h1
    rw [show reSearch placeholderRE s.data = containsPlaceholder s from rfl, h] at h2
    exact Bool.noConfusion h2

theorem secondPerson_strip {s : String} (h : reSearch secondPersonRE s.data = false) :
    reSearch secondPersonRE (pyStripS s).data = false := by
  cases hc : reSearch secondPersonRE (pyStripS s).data with
  | false => rfl
  | true =>
    have h1 : reSearch secondPersonRE (pyStrip s.data) = true := hc
    have h2 := strip_transfer secondPersonRE s.data h1
    rw [h] at h2
    exact Bool.noConfusion h2

theorem canonStr_of_checks {s0 : String} (h1 : (pyStrip s0.data).isEmpty = false)
    (h2 : containsPlaceholder s0 = false) : CanonStr (pyStripS s0) := by
  refine ⟨trimmed_pyStripS s0, ?_, contains_strip h2⟩
  show (pyStrip (pyStrip s0.data)).isEmpty = false
  rw [pyStrip_idem]
  exact h1

theorem require_str_canon {d : List (String × Value)} {cardId key s : String}
    (h : _require_str d cardId key = .ok s) : CanonStr s := by
  unfold _require_str at h
  obtain ⟨v, hv, h⟩ := bind_ok h
  cases v with
  | str s0 =>
    dsimp only at h
    by_cases h1 : (pyStrip s0.data).isEmpty = true
    · rw [if_pos h1] at h
      exact Except.noConfusion h
    · rw [if_neg h1] at h
      by_cases h2 : containsPlaceholder s0 = true
      · rw [if_pos h2] at h
        exact Except.noConfusion h
      · rw [if_neg h2] at h
        have : s = pyStripS s0 := by cases h; rfl
        subst this
        exact canonStr_of_checks (Bool.not_eq_true _ ▸ h1) (Bool.not_eq_true _ ▸ h2)
  | list l => exact Except.noConfusion h
  | dict l => exact Except.noConfusion h
  | other => exact Except.noConfusion h

theorem mem_strOnly : ∀ (items : List Value) (s : String),
    s ∈ strOnly items ↔ Value.str s ∈ items := by
  intro items
  induction items with
  | nil => intro s; simp [strOnly]
  | cons v rest ih =>
    intro s
    cases v with
    | str s0 =>
      simp only [strOnly, List.mem_cons, ih]
      constructor
      · rintro (h | h)
        · left; rw [h]
        · right; exact h
      · rintro (h | h)
        · left; injection h
        · right; exact h
    | list l => simp only [strOnly, List.mem_cons, ih]; tauto
    | dict l => simp only [strOnly, List.mem_cons, ih]; tauto
    | other => simp only [strOnly, List.mem_cons, ih]; tauto

theorem reqStrItems_canon {cardId key : String} :
    ∀ (items : List Value) (i : Nat) (out : List String),
      reqStrItems cardId key i items = .ok out →
      out = (strOnly items).map pyStripS ∧ (∀ v ∈ items, isStrV v = true) ∧
        ∀ s ∈ out, CanonStr s := by
  intro items
  induction items with
  | nil =>
    intro i out h
    unfold reqStrItems at h
    have : out = [] := by cases h; rfl
    subst this
    exact ⟨rfl, by simp, by simp⟩
  | cons v rest ih =>
    intro i out h
    unfold reqStrItems at h
    cases v with
    | str s0 =>
      dsimp only at h
      by_cases h1 : (pyStrip s0.data).isEmpty = true
      · rw [if_pos h1] at h
        exact Except.noConfusion h
      · rw [if_neg h1] at h
        by_cases h2 : containsPlaceholder s0 = true
        · rw [if_pos h2] at h
          exact Except.noConfusion h
        · rw [if_neg h2] at h
          obtain ⟨out', hout', h⟩ := bind_ok h
          have : out = pyStripS s0 :: out' := by cases h; rfl
          subst this
          obtain ⟨hmap, hstr, hcanon⟩ := ih (i + 1) out' hout'
          refine ⟨?_, ?_, ?_⟩
          · show pyStripS s0 :: out' = pyStripS s0 :: (strOnly rest).map pyStripS
            rw [hmap]
          · intro v hv
            rcases List.mem_cons.mp hv with hv | hv
            · rw [hv]; rfl
            · exact hstr v hv
          · intro s hs
            rcases List.mem_cons.mp hs with hs | hs
            · subst hs
              exact canonStr_of_checks (Bool.not_eq_true _ ▸ h1) (Bool.not_eq_true _ ▸ h2)
            · exact hcanon s hs
    | list l => exact Except.noConfusion h
    | dict l => exact Except.noConfusion h
    | other => exact Except.noConfusion h

theorem require_list_canon {d : List (String × Value)} {cardId key : String}
    {out : List String}
    (h : _require_list_of_str d cardId key 1 = .ok out) :
    out ≠ [] ∧ (∀ s ∈ out, CanonStr s) ∧
      ∃ items, dictGet d key = some (Value.list items) ∧
        out = (strOnly items).map pyStripS ∧ ∀ v ∈ items, isStrV v = true := by
  unfold _require_list_of_str at h
  obtain ⟨v, hv, h⟩ := bind_ok h
  cases v with
  | list items =>
    dsimp only at h
    obtain ⟨out', hout', h⟩ := bind_ok h
    by_cases hlen : out'.length < 1
    · rw [if_pos hlen] at h
      exact Except.noConfusion h
    · rw [if_neg hlen] at h
      have : out = out' := by cases h; rfl
      subst this
      obtain ⟨hmap, hstr, hcanon⟩ := reqStrItems_canon items 0 out hout'
      refine ⟨?_, hcanon, items, require_key_inv hv, hmap, hstr⟩
      intro habs
      rw [habs] at hlen
      simp at hlen
  | str s => exact Except.noConfusion h
  | dict l => exact Except.noConfusion h
  | other => exact Except.noConfusion h

theorem checkSummary_ok {cardId : String} :
    ∀ (items : List Value) (i : Nat), checkSummary cardId i items = .ok () →
      ∀ s : String, Value.str s ∈ items → reSearch secondPersonRE s.data = false := by
  intro items
  induction items with
  | nil => intro i _ s hs; simp at hs
  | cons v rest ih =>
    intro i h s hs
    unfold checkSummary at h
    rcases List.mem_cons.mp hs with hs1 | hs1
    · rw [← hs1] at h
      dsimp only at h
      by_cases hsp : reSearch secondPersonRE s.data = true
      · rw [if_pos hsp] at h
        exact Except.noConfusion h
      · exact Bool.not_eq_true _ ▸ hsp
    · cases v with
      | str s0 =>
        dsimp only at h
        by_cases hsp : reSearch secondPersonRE s0.data = true
        · rw [if_pos hsp] at h
          exact Except.noConfusion h
        · rw [if_neg hsp] at h
          exact ih (i + 1) h s hs1
      | list l => exact ih (i + 1) h s hs1
      | dict l => exact ih (i + 1) h s hs1
      | other => exact ih (i + 1) h s hs1

theorem reqExamples_canon {cardId : String} :
    ∀ (items : List Value) (i : Nat) (out : List ConceptExample),
      reqExamples cardId i items = .ok out →
      ∀ e ∈ out, CanonStr e.scenario ∧ CanonStr e.explanation := by
  intro items
  induction items with
  | nil =>
    intro i out h e he
    unfold reqExamples at h
    have : out = [] := by cases h; rfl
    subst this
    simp at he
  | cons v rest ih =>
    intro i out h e he
    unfold reqExamples at h
    cases v with
    | dict ex =>
      dsimp only at h
      cases hsc : dictGet ex "scenario" with
      | none => rw [hsc] at h; exact Except.noConfusion h
      | some vs =>
        rw [hsc] at h
        cases vs with
        | str sc =>
          dsimp only at h
          by_cases h1 : (pyStrip sc.data).isEmpty = true
          · rw [if_pos h1] at h; exact Except.noConfusion h
          · rw [if_neg h1] at h
            cases hex : dictGet ex "explanation" with
            | none => rw [hex] at h; exact Except.noConfusion h
            | some ve =>
              rw [hex] at h
              cases ve with
              | str expl =>
                dsimp only at h
                by_cases h2 : (pyStrip expl.data).isEmpty = true
                · rw [if_pos h2] at h; exact Except.noConfusion h
                · rw [if_neg h2] at h
                  by_cases h3 : containsPlaceholder sc = true
                  · rw [if_pos h3] at h; exact Except.noConfusion h
                  · rw [if_neg h3] at h
                    by_cases h4 : containsPlaceholder expl = true
                    · rw [if_pos h4] at h; exact Except.noConfusion h
                    · rw [if_neg h4] at h
                      obtain ⟨out', hout', h⟩ := bind_ok h
                      have : out = ConceptExample.mk (pyStripS sc) (pyStripS expl) :: out' := by
                        cases h; rfl
                      subst this
                      rcases List.mem_cons.mp he with he | he
                      · subst he
                        exact ⟨canonStr_of_checks (Bool.not_eq_true _ ▸ h1)
                            (Bool.not_eq_true _ ▸ h3),
                          canonStr_of_checks (Bool.not_eq_true _ ▸ h2)
                            (Bool.not_eq_true _ ▸ h4)⟩
                      · exact ih (i + 1) out' hout' e he
              | list l => exact Except.noConfusion h
              | dict l => exact Except.noConfusion h
              | other => exact Except.noConfusion h
        | list l => exact Except.noConfusion h
        | dict l => exact Except.noConfusion h
        | other => exact Except.noConfusion h
    | str s => exact Except.noConfusion h
    | list l => exact Except.noConfusion h
    | other => exact Except.noConfusion h

theorem require_examples_canon {d : List (String × Value)} {cardId : String}
    {out : List ConceptExample} (h : _require_examples d cardId = .ok out) :
    ∀ e ∈ out, CanonStr e.scenario ∧ CanonStr e.explanation := by
  unfold _require_examples at h
  obtain ⟨v, hv, h⟩ := bind_ok h
  cases v with
  | list items => exact reqExamples_canon items 0 out h
  | str s => exact Except.noConfusion h
  | dict l => exact Except.noConfusion h
  | other => exact Except.noConfusion h

theorem parseSources_canon {cardId : String} :
    ∀ (items : List Value) (i : Nat) (out : List String),
      parseSources cardId i items = .ok out →
      (∀ s ∈ out, CanonStr s) ∧ (items ≠ [] → out ≠ []) := by
  intro items
  induction items with
  | nil =>
    intro i out h
    unfold parseSources at h
    have : out = [] := by cases h; rfl
    subst this
    exact ⟨by simp, fun habs => absurd rfl habs⟩
  | cons v rest ih =>
    intro i out h
    unfold parseSources at h
    cases v with
    | str s0 =>
      dsimp only at h
      by_cases h1 : (pyStrip s0.data).isEmpty = true
      · rw [if_pos h1] at h; exact Except.noConfusion h
      · rw [if_neg h1] at h
        by_cases h2 : containsPlaceholder s0 = true
        · rw [if_pos h2] at h; exact Except.noConfusion h
        · rw [if_neg h2] at h
          obtain ⟨out', hout', h⟩ := bind_ok h
          have : out = pyStripS s0 :: out' := by cases h; rfl
          subst this
          refine ⟨?_, fun _ => by simp⟩
          intro s hs
          rcases List.mem_cons.mp hs with hs | hs
          · subst hs
            exact canonStr_of_checks (Bool.not_eq_true _ ▸ h1) (Bool.not_eq_true _ ▸ h2)
          · exact (ih (i + 1) out' hout').1 s hs
    | list l => exact Except.noConfusion h
    | dict l => exact Except.noConfusion h
    | other => exact Except.noConfusion h

theorem require_metadata_canon {d : List (String × Value)} {cardId : String}
    {out : List String × String} (h : _require_metadata d cardId = .ok out) :
    out.1 ≠ [] ∧ (∀ s ∈ out.1, CanonStr s) ∧ CanonStr out.2 ∧
      reFullmatch dateRE out.2.data = true := by
  unfold _require_metadata at h
  obtain ⟨v, hv, h⟩ := bind_ok h
  cases v with
  | dict meta =>
    dsimp only at h
    cases hsrc : dictGet meta "sources" with
    | none => rw [hsrc] at h; exact Except.noConfusion h
    | some vs =>
      rw [hsrc] at h
      cases vs with
      | list items =>
        dsimp only at h
        by_cases h1 : items.isEmpty = true
        · rw [if_pos h1] at h; exact Except.noConfusion h
        · rw [if_neg h1] at h
          obtain ⟨clean, hclean, h⟩ := bind_ok h
          cases hlu : dictGet meta "last_updated" with
          | none => rw [hlu] at h; exact Except.noConfusion h
          | some vl =>
            rw [hlu] at h
            cases vl with
            | str s =>
              dsimp only at h
              by_cases h2 : (pyStrip s.data).isEmpty = true
              · rw [if_pos h2] at h; exact Except.noConfusion h
              · rw [if_neg h2] at h
                by_cases h3 : containsPlaceholder (pyStripS s) = true
                · rw [if_pos h3] at h; exact Except.noConfusion h
                · rw [if_neg h3] at h
                  by_cases h4 : reFullmatch dateRE (pyStripS s).data = true
                  · rw [if_neg (by simp [h4])] at h
                    have : out = (clean, pyStripS s) := by cases h; rfl
                    subst this
                    obtain ⟨hcanon, hne⟩ := parseSources_canon items 0 clean hclean
                    refine ⟨hne (by simpa using h1), hcanon, ?_, h4⟩
                    refine ⟨trimmed_pyStripS s, ?_, Bool.not_eq_true _ ▸ h3⟩
                    show (pyStrip (pyStrip s.data)).isEmpty = false
                    rw [pyStrip_idem]
                    exact Bool.not_eq_true _ ▸ h2
                  · rw [if_pos (by simp [h4])] at h
                    exact Except.noConfusion h
            | list l => exact Except.noConfusion h
            | dict l => exact Except.noConfusion h
            | other => exact Except.noConfusion h
      | str s => exact Except.noConfusion h
      | dict l => exact Except.noConfusion h
      | other => exact Except.noConfusion h
  | str s => exact Except.noConfusion h
  | list l => exact Except.noConfusion h
  | other => exact Except.noConfusion h

/-- Everything validation guarantees about the fields of a returned card,
as needed to re-validate its serialized form. -/
def CanonCard (card : ConceptCard) : Prop :=
  CanonStr card.id ∧ reFullmatch idRE card.id.data = true ∧
  CanonStr card.title ∧
  card.summary ≠ [] ∧ (∀ s ∈ card.summary, CanonStr s) ∧
  (∀ s ∈ card.summary, reSearch secondPersonRE s.data = false) ∧
  card.core_mechanics ≠ [] ∧ (∀ s ∈ card.core_mechanics, CanonStr s) ∧
  card.misconceptions ≠ [] ∧ (∀ s ∈ card.misconceptions, CanonStr s) ∧
  card.non_goals ≠ [] ∧ (∀ s ∈ card.non_goals, CanonStr s) ∧
  hasAdvTerm (pyLower (joinSp card.non_goals)) = true ∧
  (∀ e ∈ card.examples, CanonStr e.scenario ∧ CanonStr e.explanation) ∧
  Intent.personal_advice ∈ card.forbidden_intents ∧
  Intent.product_recommendation ∈ card.forbidden_intents ∧
  (∀ i ∈ card.allowed_intents, i ∉ card.forbidden_intents) ∧
  card.sources ≠ [] ∧ (∀ s ∈ card.sources, CanonStr s) ∧
  CanonStr card.last_updated ∧ reFullmatch dateRE card.last_updated.data = true

theorem canon_of_ok {raw : Value} {card : ConceptCard}
    (h : validate_conceptcard raw = .ok card) : CanonCard card := by
  obtain ⟨d, -, hid, htitle, -, -, hsum, hcm, hmis, hng, hex, hsaf, hmeta, hheur, hidm⟩ :=
    validate_ok_inv h
  obtain ⟨hsumne, hsumc, sitems, hsget, hsmap, -⟩ := require_list_canon hsum
  obtain ⟨hcmne, hcmc, -, -, -, -⟩ := require_list_canon hcm
  obtain ⟨hmisne, hmisc, -, -, -, -⟩ := require_list_canon hmis
  obtain ⟨hngne, hngc, nitems, hnget, hnmap, -⟩ := require_list_canon hng
  obtain ⟨-, hadvterm, hcksum⟩ := heuristics_ok_inv hheur
  obtain ⟨hPA, hPR, hdisj⟩ := safety_ok_facts hsaf
  obtain ⟨hsrcne, hsrcc, hluc, hlud⟩ := require_metadata_canon hmeta
  refine ⟨require_str_canon hid, hidm, require_str_canon htitle,
    hsumne, hsumc, ?_, hcmne, hcmc, hmisne, hmisc, hngne, hngc, ?_,
    require_examples_canon hex, hPA, hPR, hdisj, hsrcne, hsrcc, hluc, hlud⟩
  · intro s hs
    rw [hsmap] at hs
    obtain ⟨s0, hs0, hseq⟩ := List.mem_map.mp hs
    rw [← hseq]
    exact secondPerson_strip
      (checkSummary_ok sitems 0 (hcksum sitems hsget) s0 ((mem_strOnly sitems s0).mp hs0))
  · rw [hnmap]
    exact hasAdvTerm_strip (hadvterm nitems hnget)

theorem ok_bind {α β : Type} (a : α) (f : α → Except String β) :
    (Except.ok a >>= f) = f a := rfl

theorem require_str_fwd {d : List (String × Value)} {cardId key : String} {s : String}
    (hget : dictGet d key = some (Value.str s)) (hc : CanonStr s) :
    _require_str d cardId key = .ok s := by
  have hkey : _require_key d cardId key = .ok (Value.str s) := by
    unfold _require_key
    rw [hget]
  unfold _require_str
  rw [hkey, ok_bind]
  dsimp only
  rw [if_neg (by simp [hc.2.1]), if_neg (by simp [hc.2.2]), hc.1]

theorem reqStrItems_fwd {cardId key : String} : ∀ (l : List String) (i : Nat),
    (∀ s ∈ l, CanonStr s) → reqStrItems cardId key i (l.map Value.str) = .ok l := by
  intro l
  induction l with
  | nil => intro i _; rfl
  | cons s rest ih =>
    intro i hc
    have hcs := hc s (List.mem_cons_self s rest)
    rw [List.map_cons]
    unfold reqStrItems
    dsimp only
    rw [if_neg (by simp [hcs.2.1]), if_neg (by simp [hcs.2.2])]
    rw [ih (i + 1) (fun x hx => hc x (List.mem_cons_of_mem s hx)), ok_bind, hcs.1]
    rfl

theorem require_list_fwd {d : List (String × Value)} {cardId key : String} {l : List String}
    (hget : dictGet d key = some (Value.list (l.map Value.str)))
    (hc : ∀ s ∈ l, CanonStr s) (hne : l ≠ []) :
    _require_list_of_str d cardId key 1 = .ok l := by
  have hkey : _require_key d cardId key = .ok (Value.list (l.map Value.str)) := by
    unfold _require_key
    rw [hget]
  unfold _require_list_of_str
  rw [hkey, ok_bind]
  dsimp only
  rw [reqStrItems_fwd l 0 hc, ok_bind]
  rw [if_neg (by simp [Nat.lt_one_iff, List.length_eq_zero, hne])]
  rfl

theorem canon_category (c : Category) : CanonStr c.value := by
  cases c <;> exact ⟨show pyStripS _ = _ by decide, by decide, by decide⟩

theorem canon_difficulty (c : Difficulty) : CanonStr c.value := by
  cases c <;> exact ⟨show pyStripS _ = _ by decide, by decide, by decide⟩

theorem require_category_fwd {d : List (String × Value)} {cardId : String} (c : Category)
    (hget : dictGet d "category" = some (Value.str c.value)) :
    _require_category d cardId = .ok c := by
  unfold _require_category
  rw [require_str_fwd hget (canon_category c), ok_bind]
  cases c <;> rfl

theorem require_difficulty_fwd {d : List (String × Value)} {cardId : String} (c : Difficulty)
    (hget : dictGet d "difficulty" = some (Value.str c.value)) :
    _require_difficulty d cardId = .ok c := by
  unfold _require_difficulty
  rw [require_str_fwd hget (canon_difficulty c), ok_bind]
  cases c <;> rfl

/-- An example as a raw scenario/explanation mapping. -/
def exToValue (e : ConceptExample) : Value :=
  Value.dict [("scenario", Value.str e.scenario), ("explanation", Value.str e.explanation)]

/-- An intent as its raw string value. -/
def intentToValue (i : Intent) : Value := Value.str i.value

theorem reqExamples_fwd {cardId : String} : ∀ (l : List ConceptExample) (i : Nat),
    (∀ e ∈ l, CanonStr e.scenario ∧ CanonStr e.explanation) →
    reqExamples cardId i (l.map exToValue) = .ok l := by
  intro l
  induction l with
  | nil => intro i _; rfl
  | cons e rest ih =>
    intro i hc
    have hce := hc e (List.mem_cons_self e rest)
    rw [List.map_cons,
      show exToValue e = Value.dict [("scenario", Value.str e.scenario),
        ("explanation", Value.str e.explanation)] from rfl]
    unfold reqExamples
    dsimp only
    rw [show dictGet [("scenario", Value.str e.scenario),
        ("explanation", Value.str e.explanation)] "scenario" = some (Value.str e.scenario)
      from rfl]
    dsimp only
    rw [if_neg (by simp [hce.1.2.1])]
    rw [show dictGet [("scenario", Value.str e.scenario),
        ("explanation", Value.str e.explanation)] "explanation" =
        some (Value.str e.explanation) from rfl]
    dsimp only
    rw [if_neg (by simp [hce.2.2.1]), if_neg (by simp [hce.1.2.2]),
      if_neg (by simp [hce.2.2.2])]
    rw [ih (i + 1) (fun x hx => hc x (List.mem_cons_of_mem e hx)), ok_bind,
      hce.1.1, hce.2.1]
    rfl

theorem require_examples_fwd {d : List (String × Value)} {cardId : String}
    {l : List ConceptExample}
    (hget : dictGet d "examples" = some (Value.list (l.map exToValue)))
    (hc : ∀ e ∈ l, CanonStr e.scenario ∧ CanonStr e.explanation) :
    _require_examples d cardId = .ok l := by
  have hkey : _require_key d cardId "examples" = .ok (Value.list (l.map exToValue)) := by
    unfold _require_key
    rw [hget]
  unfold _require_examples
  rw [hkey, ok_bind]
  dsimp only
  exact reqExamples_fwd l 0 hc

theorem parseIntents_cons {cardId field : String} {i : Nat} {x : Intent} {rest : List Value} :
    parseIntents cardId field i (Value.str x.value :: rest) =
      (parseIntents cardId field (i + 1) rest) >>= (fun out => pure (x :: out)) := by
  cases x <;> rfl

theorem parseIntents_fwd {cardId field : String} : ∀ (l : List Intent) (i : Nat),
    parseIntents cardId field i (l.map intentToValue) = .ok l := by
  intro l
  induction l with
  | nil => intro i; rfl
  | cons x rest ih =>
    intro i
    rw [List.map_cons, show intentToValue x = Value.str x.value from rfl,
      parseIntents_cons, ih (i + 1), ok_bind]
    rfl

theorem all_isStrV_intents : ∀ (l : List Intent),
    (l.map intentToValue).all isStrV = true := by
  intro l
  induction l with
  | nil => rfl
  | cons x rest ih =>
    rw [List.map_cons, List.all_cons, ih]
    cases x <;> rfl

theorem require_safety_fwd {d : List (String × Value)} {cardId : String}
    {al fo : List Intent}
    (hget : dictGet d "safety" = some (Value.dict [
      ("allowed_intents", Value.list (al.map intentToValue)),
      ("forbidden_intents", Value.list (fo.map intentToValue))]))
    (hPA : Intent.personal_advice ∈ fo) (hPR : Intent.product_recommendation ∈ fo)
    (hdisj : ∀ i ∈ al, i ∉ fo) :
    _require_safety d cardId = .ok (al, fo) := by
  have hkey : _require_key d cardId "safety" = .ok (Value.dict [
      ("allowed_intents", Value.list (al.map intentToValue)),
      ("forbidden_intents", Value.list (fo.map intentToValue))]) := by
    unfold _require_key
    rw [hget]
  unfold _require_safety
  rw [hkey, ok_bind]
  dsimp only
  rw [show dictGet [("allowed_intents", Value.list (al.map intentToValue)),
      ("forbidden_intents", Value.list (fo.map intentToValue))] "allowed_intents" =
      some (Value.list (al.map intentToValue)) from rfl]
  dsimp only
  rw [if_neg (by simp [all_isStrV_intents al])]
  rw [show dictGet [("allowed_intents", Value.list (al.map intentToValue)),
      ("forbidden_intents", Value.list (fo.map intentToValue))] "forbidden_intents" =
      some (Value.list (fo.map intentToValue)) from rfl]
  dsimp only
  rw [if_neg (by simp [all_isStrV_intents fo])]
  rw [parseIntents_fwd al 0, ok_bind, parseIntents_fwd fo 0, ok_bind]
  have hPAc : fo.contains Intent.personal_advice = true := List.elem_eq_true_of_mem hPA
  have hPRc : fo.contains Intent.product_recommendation = true := List.elem_eq_true_of_mem hPR
  rw [if_neg (by rw [hPAc, Bool.not_true, Bool.false_and]; exact Bool.false_ne_true),
    if_neg (by rw [hPAc, Bool.not_true]; exact Bool.false_ne_true),
    if_neg (by rw [hPRc, Bool.not_true]; exact Bool.false_ne_true)]
  have hov : (sortedIntents.filter
      (fun x => al.contains x && fo.contains x)).isEmpty = true := by
    rw [List.isEmpty_iff, List.filter_eq_nil_iff]
    intro x _
    cases hal : al.contains x with
    | false => simp
    | true =>
      have hx : x ∈ al := List.mem_of_elem_eq_true hal
      cases hfo : fo.contains x with
      | false => simp
      | true => exact absurd (List.mem_of_elem_eq_true hfo) (hdisj x hx)
  rw [if_pos hov]
  rfl

theorem parseSources_fwd {cardId : String} : ∀ (l : List String) (i : Nat),
    (∀ s ∈ l, CanonStr s) → parseSources cardId i (l.map Value.str) = .ok l := by
  intro l
  induction l with
  | nil => intro i _; rfl
  | cons s rest ih =>
    intro i hc
    have hcs := hc s (List.mem_cons_self s rest)
    rw [List.map_cons]
    unfold parseSources
    dsimp only
    rw [if_neg (by simp [hcs.2.1]), if_neg (by simp [hcs.2.2])]
    rw [ih (i + 1) (fun x hx => hc x (List.mem_cons_of_mem s hx)), ok_bind, hcs.1]
    rfl

theorem require_metadata_fwd {d : List (String × Value)} {cardId : String}
    {srcs : List String} {lu : String}
    (hget : dictGet d "metadata" = some (Value.dict [
      ("sources", Value.list (srcs.map Value.str)), ("last_updated", Value.str lu)]))
    (hsrcne : srcs ≠ []) (hsrcc : ∀ s ∈ srcs, CanonStr s)
    (hluc : CanonStr lu) (hlud : reFullmatch dateRE lu.data = true) :
    _require_metadata d cardId = .ok (srcs, lu) := by
  have hkey : _require_key d cardId "metadata" = .ok (Value.dict [
      ("sources", Value.list (srcs.map Value.str)), ("last_updated", Value.str lu)]) := by
    unfold _require_key
    rw [hget]
  unfold _require_metadata
  rw [hkey, ok_bind]
  dsimp only
  rw [show dictGet [("sources", Value.list (srcs.map Value.str)),
      ("last_updated", Value.str lu)] "sources" =
      some (Value.list (srcs.map Value.str)) from rfl]
  dsimp only
  rw [if_neg (by simp [hsrcne])]
  rw [parseSources_fwd srcs 0 hsrcc, ok_bind]
  rw [show dictGet [("sources", Value.list (srcs.map Value.str)),
      ("last_updated", Value.str lu)] "last_updated" = some (Value.str lu) from rfl]
  dsimp only
  rw [if_neg (by simp [hluc.2.1]), hluc.1, if_neg (by simp [hluc.2.2]),
    if_neg (by simp [hlud])]
  rfl

theorem checkSummary_fwd {cardId : String} : ∀ (l : List String) (i : Nat),
    (∀ s ∈ l, reSearch secondPersonRE s.data = false) →
    checkSummary cardId i (l.map Value.str) = .ok () := by
  intro l
  induction l with
  | nil => intro i _; rfl
  | cons s rest ih =>
    intro i hc
    rw [List.map_cons]
    unfold checkSummary
    dsimp only
    rw [if_neg (by simp [hc s (List.mem_cons_self s rest)])]
    exact ih (i + 1) (fun x hx => hc x (List.mem_cons_of_mem s hx))

theorem strOnly_map_str : ∀ (l : List String), strOnly (l.map Value.str) = l := by
  intro l
  induction l with
  | nil => rfl
  | cons s rest ih =>
    rw [List.map_cons]
    unfold strOnly
    rw [ih]

/-- Serialization of a validated card back to a raw record, following the
round-trip claim: enum values as their strings, examples as
scenario/explanation mappings, intents under safety, sources and
last_updated under metadata. -/
def serializeCard (card : ConceptCard) : List (String × Value) :=
  [("id", Value.str card.id),
   ("title", Value.str card.title),
   ("category", Value.str card.category.value),
   ("difficulty", Value.str card.difficulty.value),
   ("summary", Value.list (card.summary.map Value.str)),
   ("core_mechanics", Value.list (card.core_mechanics.map Value.str)),
   ("misconceptions", Value.list (card.misconceptions.map Value.str)),
   ("non_goals", Value.list (card.non_goals.map Value.str)),
   ("examples", Value.list (card.examples.map exToValue)),
   ("safety", Value.dict [
     ("allowed_intents", Value.list (card.allowed_intents.map intentToValue)),
     ("forbidden_intents", Value.list (card.forbidden_intents.map intentToValue))]),
   ("metadata", Value.dict [
     ("sources", Value.list (card.sources.map Value.str)),
     ("last_updated", Value.str card.last_updated)])]

theorem sweep_serialized {cardId : String} {card : ConceptCard}
    (h1 : containsPlaceholder card.id = false)
    (h2 : containsPlaceholder card.title = false) :
    sweepItems cardId (serializeCard card) = .ok () := by
  unfold serializeCard
  unfold sweepItems
  dsimp only
  rw [if_neg (by simp [h1])]
  unfold sweepItems
  dsimp only
  rw [if_neg (by simp [h2])]
  unfold sweepItems
  dsimp only
  rw [if_neg (by simp [(canon_category card.category).2.2])]
  unfold sweepItems
  dsimp only
  rw [if_neg (by simp [(canon_difficulty card.difficulty).2.2])]
  rfl

theorem heuristics_fwd {cardId : String} {card : ConceptCard}
    (hsum : ∀ s ∈ card.summary, reSearch secondPersonRE s.data = false)
    (hadv : hasAdvTerm (pyLower (joinSp card.non_goals)) = true)
    (h1 : containsPlaceholder card.id = false)
    (h2 : containsPlaceholder card.title = false) :
    _education_only_heuristics cardId (serializeCard card) = .ok () := by
  unfold _education_only_heuristics
  rw [show dictGet (serializeCard card) "summary" =
      some (Value.list (card.summary.map Value.str)) from rfl]
  dsimp only
  rw [checkSummary_fwd card.summary 0 hsum, ok_bind]
  rw [show dictGet (serializeCard card) "non_goals" =
      some (Value.list (card.non_goals.map Value.str)) from rfl]
  dsimp only
  rw [strOnly_map_str, if_pos hadv, ok_bind]
  exact sweep_serialized h1 h2

/-- Validating the serialized form of a canonical card succeeds and returns
the same card. -/
theorem validate_serialized {card : ConceptCard} (hc : CanonCard card) :
    validate_conceptcard (Value.dict (serializeCard card)) = .ok card := by
  obtain ⟨hid, hidm, htitle, hsumne, hsumc, hsum2p, hcmne, hcmc, hmisne, hmisc,
    hngne, hngc, hadv, hexc, hPA, hPR, hdisj, hsrcne, hsrcc, hluc, hlud⟩ := hc
  unfold validate_conceptcard
  dsimp only
  rw [require_str_fwd (show dictGet (serializeCard card) "id" =
    some (Value.str card.id) from rfl) hid, ok_bind]
  rw [require_str_fwd (show dictGet (serializeCard card) "title" =
    some (Value.str card.title) from rfl) htitle, ok_bind]
  rw [require_category_fwd card.category (show dictGet (serializeCard card) "category" =
    some (Value.str card.category.value) from rfl), ok_bind]
  rw [require_difficulty_fwd card.difficulty (show dictGet (serializeCard card) "difficulty" =
    some (Value.str card.difficulty.value) from rfl), ok_bind]
  rw [require_list_fwd (show dictGet (serializeCard card) "summary" =
    some (Value.list (card.summary.map Value.str)) from rfl) hsumc hsumne, ok_bind]
  rw [require_list_fwd (show dictGet (serializeCard card) "core_mechanics" =
    some (Value.list (card.core_mechanics.map Value.str)) from rfl) hcmc hcmne, ok_bind]
  rw [require_list_fwd (show dictGet (serializeCard card) "misconceptions" =
    some (Value.list (card.misconceptions.map Value.str)) from rfl) hmisc hmisne, ok_bind]
  rw [require_list_fwd (show dictGet (serializeCard card) "non_goals" =
    some (Value.list (card.non_goals.map Value.str)) from rfl) hngc hngne, ok_bind]
  rw [require_examples_fwd (show dictGet (serializeCard card) "examples" =
    some (Value.list (card.examples.map exToValue)) from rfl) hexc, ok_bind]
  rw [require_safety_fwd (show dictGet (serializeCard card) "safety" =
    some (Value.dict [
      ("allowed_intents", Value.list (card.allowed_intents.map intentToValue)),
      ("forbidden_intents", Value.list (card.forbidden_intents.map intentToValue))])
    from rfl) hPA hPR hdisj, ok_bind]
  rw [require_metadata_fwd (show dictGet (serializeCard card) "metadata" =
    some (Value.dict [
      ("sources", Value.list (card.sources.map Value.str)),
      ("last_updated", Value.str card.last_updated)]) from rfl)
    hsrcne hsrcc hluc hlud, ok_bind]
  rw [heuristics_fwd hsum2p hadv hid.2.2 htitle.2.2, ok_bind]
  rw [if_pos hidm]
  rfl

/-- C7: validating the serialization of a card returned by a successful
validation succeeds again and returns an equal card (round-trip
idempotence). -/
theorem claim_C7 (raw : Value) (card : ConceptCard)
    (h : validate_conceptcard raw = .ok card) :
    validate_conceptcard (Value.dict (serializeCard card)) = .ok card :=
  validate_serialized (canon_of_ok h)

theorem claim_C7_witness :
    validate_conceptcard (Value.dict (serializeCard sampleCard)) = .ok sampleCard :=
  claim_C7 (Value.dict sampleFields) sampleCard sample_validates
